import Mathlib

/-!
# Neural-Net-Tutorial.cpp: a shallow embedding

The classes `Connection`, `Neuron` and `Net` of `Neural-Net-Tutorial.cpp` are embedded as
structures over a type `R` standing for `double`; the member functions use only its
arithmetic operations and literals.  The `<cmath>` functions `tanh` and `sqrt` are passed as
arguments.  Two readings of `R` are used.

* An arbitrary field (exact arithmetic, instantiated with `ℝ`, `Real.tanh` and `Real.sqrt`):
  the properties of the formulas the code evaluates and of the structure of a network are
  stated here.  Rounding, infinities and NaN are not modelled in this reading.
* `Double K`, the finite values of an ordered field with the two infinities and NaN: the
  properties that depend on overflow, underflow, NaN or the saturation of `tanh` are
  stated here.  The rounding of the significand is not modelled in this reading either.

* `std::vector` is `List`; `v[i]` is `idx v i`, which fails with `Err.outOfBounds` where the
  C++ behaviour is undefined.
* `assert` is active (no `NDEBUG`) and fails with `Err.assertionFailed`.
* Member functions that mutate `*this` or a reference argument return the new value.
* `unsigned`/`size_t` counters are `Nat`.  The only wrap-arounds a `Net` can exhibit are
  `v.size() - 1` on an empty vector and `m_layers.size() - 2` on fewer than two layers; in both
  the first loop iteration indexes past the end, which is what `sizeMinusOne` and the guard in
  `Net.backPropWith` return.
* Members that the constructors leave uninitialised take their (indeterminate) initial
  values from an `Uninit` record; `rand()` is a stream `Nat → Nat` with a call counter.
-/

namespace NeuralNet

/-- The two ways an operation can fail. -/
inductive Err where
  | assertionFailed
  | outOfBounds
  deriving DecidableEq, Repr

/-- Vector indexing `v[i]`. -/
def idx {α : Type} (v : List α) (i : Nat) : Except Err α :=
  match v[i]? with
  | some x => .ok x
  | none => .error .outOfBounds

/-- The call `v.back()`. -/
def back {α : Type} (v : List α) : Except Err α :=
  match v.getLast? with
  | some x => .ok x
  | none => .error .outOfBounds

/-- The loop bound `v.size() - 1`: on an empty vector it wraps around and the loop body
indexes `v[0]`. -/
def sizeMinusOne {α : Type} (v : List α) : Except Err Nat :=
  if v.length = 0 then .error .outOfBounds else .ok (v.length - 1)

/-- The call `v.clear()`. -/
def clear {α : Type} (_v : List α) : List α := []

/-- In-place update of `v[i]` through a reference. -/
def modifyAt {α : Type} (v : List α) (i : Nat) (f : α → Except Err α) : Except Err (List α) := do
  let x ← idx v i
  let y ← f x
  pure (v.set i y)

/-- In-place update of `v.back()`. -/
def modifyBack {α : Type} (v : List α) (f : α → Except Err α) : Except Err (List α) := do
  let x ← back v
  let y ← f x
  pure (v.set (v.length - 1) y)

/-- The loop `for (i = 0; i < n; ++i) body`: the first `n` iterations followed by
iteration `n`. -/
def forUp {σ : Type} (body : Nat → σ → Except Err σ) : Nat → σ → Except Err σ
  | 0, s => pure s
  | n + 1, s => forUp body n s >>= body n

/-- The loop `for (i = hi; i > 0; --i) body`. -/
def forDown {σ : Type} (body : Nat → σ → Except Err σ) : Nat → σ → Except Err σ
  | 0, s => pure s
  | i + 1, s => body (i + 1) s >>= forDown body i

/-- The struct `Connection`. -/
structure Connection (R : Type) where
  weight : R
  deltaWeight : R
  deriving DecidableEq, Repr

/-- The data members of `class Neuron`. -/
structure Neuron (R : Type) where
  m_outputVal : R
  m_myIndex : Nat
  m_gradient : R
  m_outputWeights : List (Connection R)
  deriving DecidableEq, Repr

/-- The typedef `std::vector<Neuron> Layer`. -/
abbrev Layer (R : Type) := List (Neuron R)

/-- The data members of `class Net`. -/
structure Net (R : Type) where
  m_layers : List (Layer R)
  m_error : R
  m_recentAverageError : R
  m_recentAverageSmoothingFactor : R
  deriving DecidableEq, Repr

/-- Indeterminate initial values of the members no constructor assigns: per layer and
position a neuron's `m_outputVal` and `m_gradient`, and the three error fields of `Net`. -/
structure Uninit (R : Type) where
  outputVal : Nat → Nat → R
  gradient : Nat → Nat → R
  error : R
  recentAverageError : R
  recentAverageSmoothingFactor : R

section Model

variable {R : Type} [Zero R] [Add R] [Sub R] [Mul R] [Div R] [NatCast R]
  [OfScientific R]

/-- Initial value of the static member `Neuron::eta`. -/
def Neuron.eta : R := 0.15

/-- Initial value of the static member `Neuron::alpha`. -/
def Neuron.alpha : R := 0.5

/-- `Neuron::setOutputVal`. -/
def Neuron.setOutputVal (self : Neuron R) (val : R) : Neuron R :=
  { self with m_outputVal := val }

/-- `Neuron::getOutputVal`. -/
def Neuron.getOutputVal (self : Neuron R) : R := self.m_outputVal

/-- `Neuron::randomWeight`, for the value `r` returned by `rand()`. -/
def Neuron.randomWeight (RAND_MAX r : Nat) : R := (r : R) / (RAND_MAX : R)

/-- `Neuron::transferFunction`. -/
def Neuron.transferFunction (tanh : R → R) (x : R) : R := tanh x

/-- `Neuron::transferFunctionDerivative`. -/
def Neuron.transferFunctionDerivative (x : R) : R := 1.0 - x * x

/-- `Neuron::sumDOW`. -/
def Neuron.sumDOW (self : Neuron R) (nextLayer : Layer R) : Except Err R := do
  let bound ← sizeMinusOne nextLayer
  forUp (fun n sum => do
    let c ← idx self.m_outputWeights n
    let next ← idx nextLayer n
    pure (sum + c.weight * next.m_gradient)) bound 0.0

/-- `Neuron::updateInputWeights`; returns the updated `prevLayer`. -/
def Neuron.updateInputWeights (eta alpha : R) (self : Neuron R) (prevLayer : Layer R) :
    Except Err (Layer R) := do
  let bound ← sizeMinusOne prevLayer
  forUp (fun n prevLayer => modifyAt prevLayer n fun neuron => do
    let oldDeltaWeight := (← idx neuron.m_outputWeights self.m_myIndex).deltaWeight
    let newDeltaWeight :=
      eta * neuron.getOutputVal * self.m_gradient + alpha * oldDeltaWeight
    let ws ← modifyAt neuron.m_outputWeights self.m_myIndex fun c =>
      pure { c with deltaWeight := newDeltaWeight }
    let ws ← modifyAt ws self.m_myIndex fun c =>
      pure { c with weight := c.weight + newDeltaWeight }
    pure { neuron with m_outputWeights := ws }) bound prevLayer

/-- `Neuron::calcHiddenGradients`. -/
def Neuron.calcHiddenGradients (self : Neuron R) (nextLayer : Layer R) :
    Except Err (Neuron R) := do
  let dow ← self.sumDOW nextLayer
  pure { self with m_gradient := dow * Neuron.transferFunctionDerivative self.m_outputVal }

/-- `Neuron::calcOutputGradients`. -/
def Neuron.calcOutputGradients (self : Neuron R) (targetVal : R) : Neuron R :=
  let delta := targetVal - self.m_outputVal
  { self with m_gradient := delta * Neuron.transferFunctionDerivative self.m_outputVal }

/-- `Neuron::feedForward`. -/
def Neuron.feedForward (tanh : R → R) (self : Neuron R) (prevLayer : Layer R) :
    Except Err (Neuron R) := do
  let sum ← forUp (fun n sum => do
    let p ← idx prevLayer n
    let c ← idx p.m_outputWeights self.m_myIndex
    pure (sum + p.getOutputVal * c.weight)) prevLayer.length 0.0
  pure { self with m_outputVal := Neuron.transferFunction tanh sum }

/-- The constructor `Neuron::Neuron(numOutputs, myIndex)`.  `k` counts the calls of `rand()`
made so far and is returned advanced; `outputVal` and `gradient` are the indeterminate values
of the two members the constructor does not assign.  `Connection()` is value-initialised,
so both of its fields start at zero. -/
def Neuron.new (RAND_MAX : Nat) (rand : Nat → Nat) (outputVal gradient : R)
    (numOutputs myIndex : Nat) (k : Nat) : Except Err (Neuron R × Nat) := do
  let (ws, k) ← forUp (fun _ (s : List (Connection R) × Nat) => do
    let ws := s.1 ++ [({ weight := 0, deltaWeight := 0 } : Connection R)]
    let ws ← modifyBack ws fun c =>
      pure { c with weight := Neuron.randomWeight RAND_MAX (rand s.2) }
    pure (ws, s.2 + 1)) numOutputs ([], k)
  pure ({ m_outputVal := outputVal, m_myIndex := myIndex, m_gradient := gradient,
          m_outputWeights := ws }, k)

/-- `Net::getResults`; `resultVals` is the previous content of the result vector. -/
def Net.getResults (net : Net R) (resultVals : List R) : Except Err (List R) := do
  let resultVals := clear resultVals
  let outputLayer ← back net.m_layers
  let bound ← sizeMinusOne outputLayer
  forUp (fun n resultVals => do
    let neuron ← idx outputLayer n
    pure (resultVals ++ [neuron.getOutputVal])) bound resultVals

/-- `Net::getRecentAverageError`. -/
def Net.getRecentAverageError (net : Net R) : R := net.m_recentAverageError

/-- `Net::feedForward`. -/
def Net.feedForward (tanh : R → R) (net : Net R) (inputVals : List R) : Except Err (Net R) := do
  let layer0 ← idx net.m_layers 0
  -- assert(inputVals.size() == m_layers[0].size() - 1); on an empty layer the right-hand
  -- side wraps around to SIZE_MAX, which no vector size equals
  if inputVals.length + 1 ≠ layer0.length then throw Err.assertionFailed
  -- Assign (latch) the input values into the input neurons
  let m_layers ← forUp (fun i m_layers => modifyAt m_layers 0 fun layer0 =>
    modifyAt layer0 i fun neuron => do
      pure (neuron.setOutputVal (← idx inputVals i))) inputVals.length net.m_layers
  -- Forward propagate; the loop runs for layerNum = 1, ..., m_layers.size() - 1
  let m_layers ← forUp (fun i m_layers => do
    let layerNum := i + 1
    let prevLayer ← idx m_layers (layerNum - 1)
    let bound ← sizeMinusOne (← idx m_layers layerNum)
    forUp (fun n m_layers => modifyAt m_layers layerNum fun layer =>
      modifyAt layer n fun neuron => neuron.feedForward tanh prevLayer) bound m_layers)
    (m_layers.length - 1) m_layers
  pure { net with m_layers := m_layers }

/-- `Net::backProp`, with the values of the static members `Neuron::eta` and
`Neuron::alpha` as arguments. -/
def Net.backPropWith (sqrt : R → R) (eta alpha : R) (net : Net R) (targetVals : List R) :
    Except Err (Net R) := do
  -- Calculate overall net error (RMS of output neuron errors)
  let outputLayer ← back net.m_layers
  let numOutputs ← sizeMinusOne outputLayer
  let m_error : R := 0.0
  let m_error ← forUp (fun n m_error => do
    let delta := (← idx targetVals n) - (← idx outputLayer n).getOutputVal
    pure (m_error + delta * delta)) numOutputs m_error
  let m_error := m_error / (numOutputs : R)
  let m_error := sqrt m_error
  -- Implement a recent average measurement
  let m_recentAverageError :=
    (net.m_recentAverageError * net.m_recentAverageSmoothingFactor + m_error)
      / (net.m_recentAverageSmoothingFactor + 1.0)
  -- Calculate output layer gradients
  let m_layers ← forUp (fun n m_layers => modifyBack m_layers fun outputLayer =>
    modifyAt outputLayer n fun neuron => do
      pure (neuron.calcOutputGradients (← idx targetVals n))) numOutputs net.m_layers
  -- Calculate gradients on hidden layers; m_layers.size() - 2 wraps around on fewer
  -- than two layers and m_layers[layerNum] is then past the end
  if m_layers.length < 2 then throw Err.outOfBounds
  let m_layers ← forDown (fun layerNum m_layers => do
    let nextLayer ← idx m_layers (layerNum + 1)
    let size := (← idx m_layers layerNum).length
    forUp (fun n m_layers => modifyAt m_layers layerNum fun hiddenLayer =>
      modifyAt hiddenLayer n fun neuron => neuron.calcHiddenGradients nextLayer) size m_layers)
    (m_layers.length - 2) m_layers
  -- For all layers from output to first hidden, update connection weights
  let m_layers ← forDown (fun layerNum m_layers => do
    let layer ← idx m_layers layerNum
    let bound ← sizeMinusOne layer
    forUp (fun n m_layers => modifyAt m_layers (layerNum - 1) fun prevLayer => do
      (← idx layer n).updateInputWeights eta alpha prevLayer) bound m_layers)
    (m_layers.length - 1) m_layers
  pure { net with
    m_layers := m_layers, m_error := m_error, m_recentAverageError := m_recentAverageError }

/-- `Net::backProp`. -/
def Net.backProp (sqrt : R → R) (net : Net R) (targetVals : List R) : Except Err (Net R) :=
  net.backPropWith sqrt Neuron.eta Neuron.alpha targetVals

/-- The constructor `Net::Net(topology)`.  The neuron loop `neuronNum <= topology[layerNum]`
runs `topology[layerNum] + 1` times; its wrap-around at `topology[layerNum] = UINT_MAX`, a
layer of `2^32` neurons, is not modelled. -/
def Net.new (RAND_MAX : Nat) (rand : Nat → Nat) (u : Uninit R) (topology : List Nat) :
    Except Err (Net R) := do
  let numLayers := topology.length
  let (m_layers, _) ← forUp (fun layerNum (s : List (Layer R) × Nat) => do
    -- Vertical layer of neurons
    let m_layers := s.1 ++ [([] : Layer R)]
    let numOutputs ←
      if layerNum = topology.length - 1 then pure 0 else idx topology (layerNum + 1)
    -- Neurons in that previously made layer; neuronNum <= topology[layerNum]
    let (m_layers, k) ← forUp (fun neuronNum (s : List (Layer R) × Nat) => do
      let (neuron, k) ← Neuron.new RAND_MAX rand (u.outputVal layerNum neuronNum)
        (u.gradient layerNum neuronNum) numOutputs neuronNum s.2
      let m_layers ← modifyBack s.1 fun layer => pure (layer ++ [neuron])
      pure (m_layers, k)) ((← idx topology layerNum) + 1) (m_layers, s.2)
    let m_layers ← modifyBack m_layers fun layer =>
      modifyBack layer fun neuron => pure (neuron.setOutputVal 1.0)
    pure (m_layers, k)) numLayers ([], 0)
  pure { m_layers := m_layers, m_error := u.error,
         m_recentAverageError := u.recentAverageError,
         m_recentAverageSmoothingFactor := u.recentAverageSmoothingFactor }

/-! ## Observations on a network and closed forms of the passes -/

/-- Neuron `j` of layer `L`, when it exists. -/
def Net.neuron? (net : Net R) (L j : Nat) : Option (Neuron R) :=
  (net.m_layers[L]?).bind fun layer => layer[j]?

/-- Number of neurons of layer `L`, the bias unit included. -/
def Net.layerSize (net : Net R) (L : Nat) : Nat :=
  match net.m_layers[L]? with
  | some layer => layer.length
  | none => 0

/-- Output value of neuron `j` of layer `L`. -/
def Net.outputVal (net : Net R) (L j : Nat) : R :=
  match net.neuron? L j with
  | some neuron => neuron.m_outputVal
  | none => 0

/-- Gradient of neuron `j` of layer `L`. -/
def Net.gradient (net : Net R) (L j : Nat) : R :=
  match net.neuron? L j with
  | some neuron => neuron.m_gradient
  | none => 0

/-- Outgoing connection number `j` of neuron `p` of layer `L`, when it exists. -/
def Net.connection? (net : Net R) (L p j : Nat) : Option (Connection R) :=
  (net.neuron? L p).bind fun neuron => neuron.m_outputWeights[j]?

/-- Weight of the connection from neuron `p` of layer `L` to neuron `j` of layer `L + 1`. -/
def Net.weight (net : Net R) (L p j : Nat) : R :=
  match net.connection? L p j with
  | some c => c.weight
  | none => 0

/-- The `deltaWeight` of the connection from neuron `p` of layer `L` to neuron `j` of
layer `L + 1`. -/
def Net.deltaWeight (net : Net R) (L p j : Nat) : R :=
  match net.connection? L p j with
  | some c => c.deltaWeight
  | none => 0

/-- The shape of a network of the given topology: one layer per entry, `topology[L] + 1`
neurons in layer `L`, each storing its position and owning one connection per non-bias
neuron of the next layer. -/
def Net.Shaped (net : Net R) (topology : List Nat) : Prop :=
  net.m_layers.length = topology.length ∧
  ∀ (L : Nat) (layer : Layer R), net.m_layers[L]? = some layer →
    layer.length = topology.getD L 0 + 1 ∧
    ∀ (j : Nat) (neuron : Neuron R), layer[j]? = some neuron →
      neuron.m_myIndex = j ∧ neuron.m_outputWeights.length = topology.getD (L + 1) 0

instance Net.decidableShaped (net : Net R) (topology : List Nat) :
    Decidable (net.Shaped topology) :=
  have h : (net.m_layers.length = topology.length ∧
      ∀ (L : Nat) (hL : L < net.m_layers.length),
        net.m_layers[L].length = topology.getD L 0 + 1 ∧
        ∀ (j : Nat) (hj : j < net.m_layers[L].length),
          net.m_layers[L][j].m_myIndex = j ∧
          net.m_layers[L][j].m_outputWeights.length = topology.getD (L + 1) 0)
      ↔ net.Shaped topology := by
    constructor
    · intro h
      refine ⟨h.1, fun L layer hL => ?_⟩
      obtain ⟨hlt, rfl⟩ := List.getElem?_eq_some.mp hL
      refine ⟨(h.2 L hlt).1, fun j neuron hj => ?_⟩
      obtain ⟨hjlt, rfl⟩ := List.getElem?_eq_some.mp hj
      exact (h.2 L hlt).2 j hjlt
    · intro h
      refine ⟨h.1, fun L hL => ?_⟩
      have hl := h.2 L _ (List.getElem?_eq_getElem hL)
      exact ⟨hl.1, fun j hj => hl.2 j _ (List.getElem?_eq_getElem hj)⟩
  decidable_of_iff _ h

/-- A call of one of the two mutating member functions of `Net`. -/
inductive Call (R : Type) where
  | feedForward (inputVals : List R)
  | backProp (targetVals : List R)

/-- The argument of a call has the length the topology prescribes: `topology[0]` inputs,
`topology[last]` targets. -/
def Call.Valid (topology : List Nat) : Call R → Prop
  | .feedForward inputVals => inputVals.length = topology.getD 0 0
  | .backProp targetVals => targetVals.length = topology.getD (topology.length - 1) 0

instance Call.decidableValid (topology : List Nat) (c : Call R) :
    Decidable (c.Valid topology) := by
  cases c <;> unfold Call.Valid <;> infer_instance

/-- One call on a network. -/
def Net.call (tanh sqrt : R → R) (net : Net R) : Call R → Except Err (Net R)
  | .feedForward inputVals => net.feedForward tanh inputVals
  | .backProp targetVals => net.backProp sqrt targetVals

/-- A sequence of calls on a network, in order. -/
def Net.run (tanh sqrt : R → R) (net : Net R) : List (Call R) → Except Err (Net R)
  | [] => pure net
  | c :: cs => net.call tanh sqrt c >>= fun net' => Net.run tanh sqrt net' cs

/-- The last neuron of every layer has output value `1.0`. -/
def Net.BiasOne (net : Net R) : Prop :=
  ∀ layer ∈ net.m_layers, ∃ bias, layer.getLast? = some bias ∧ bias.m_outputVal = 1.0

/-- The two statements of `main` that end a training pass:
`assert(targetVals.size() == topology.back()); myNet.backProp(targetVals);`. -/
def mainBackProp (sqrt : R → R) (topology : List Nat) (myNet : Net R) (targetVals : List R) :
    Except Err (Net R) := do
  if targetVals.length ≠ (← back topology) then throw Err.assertionFailed
  myNet.backProp sqrt targetVals

/-- One call on a network, with the values of `Neuron::eta` and `Neuron::alpha` as
arguments. -/
def Net.callWith (tanh sqrt : R → R) (eta alpha : R) (net : Net R) :
    Call R → Except Err (Net R)
  | .feedForward inputVals => net.feedForward tanh inputVals
  | .backProp targetVals => net.backPropWith sqrt eta alpha targetVals

/-- A sequence of calls on a network, in order, with the values of `Neuron::eta` and
`Neuron::alpha` as arguments. -/
def Net.runWith (tanh sqrt : R → R) (eta alpha : R) (net : Net R) :
    List (Call R) → Except Err (Net R)
  | [] => pure net
  | c :: cs => net.callWith tanh sqrt eta alpha c >>= fun net' =>
      Net.runWith tanh sqrt eta alpha net' cs

/-- The network with every stored gradient replaced by `g`. -/
def Net.setGradients (net : Net R) (g : R) : Net R :=
  { net with
    m_layers := net.m_layers.map fun layer =>
      layer.map fun neuron => { neuron with m_gradient := g } }

/-- The body of the weight-update loop of `Net::backProp` for layer `layerNum`: every
non-bias neuron of the layer calls `updateInputWeights` on the layer before it. -/
def Net.updateLayerWeights (eta alpha : R) (layerNum : Nat) (m_layers : List (Layer R)) :
    Except Err (List (Layer R)) := do
  let layer ← idx m_layers layerNum
  let bound ← sizeMinusOne layer
  forUp (fun n m_layers => modifyAt m_layers (layerNum - 1) fun prevLayer => do
    (← idx layer n).updateInputWeights eta alpha prevLayer) bound m_layers

/-- The weight-update phase of `Net::backProp` with the layers visited in the given
order. -/
def Net.updateWeightsInOrder (eta alpha : R) (order : List Nat)
    (m_layers : List (Layer R)) : Except Err (List (Layer R)) :=
  order.foldlM (fun m_layers layerNum => Net.updateLayerWeights eta alpha layerNum m_layers)
    m_layers

/-- Connection `j` of neuron `p` of layer `L` after one momentum update that reads the
gradient stored in neuron `j` of layer `L + 1`, from its value `c` before; untouched when
one end is the last neuron of its layer. -/
def Net.storedConnection (eta alpha : R) (net : Net R) (L p j : Nat) (c : Connection R) :
    Connection R :=
  if p + 1 < net.layerSize L ∧ j + 1 < net.layerSize (L + 1) then
    let newDeltaWeight :=
      eta * net.outputVal L p * net.gradient (L + 1) j + alpha * c.deltaWeight
    { weight := c.weight + newDeltaWeight, deltaWeight := newDeltaWeight }
  else c

/-- The vector `m_layers` when exactly the layers listed in `done` have been visited by
the weight-update loop, each once. -/
def Net.updatedLayers (eta alpha : R) (net : Net R) (done : List Nat) : List (Layer R) :=
  net.m_layers.mapIdx fun L layer => layer.mapIdx fun p neuron =>
    { neuron with
      m_outputWeights :=
        if L + 1 ∈ done then
          neuron.m_outputWeights.mapIdx (net.storedConnection eta alpha L p)
        else neuron.m_outputWeights }

end Model

section ClosedForms

variable {R : Type} [Field R]

/-- Closed form of the output values after a forward pass: the latched inputs in layer 0,
`tanh` of the weighted sum over the whole previous layer in later layers, and the stored
value for the last neuron of each layer. -/
def Net.activation (tanh : R → R) (net : Net R) (inputVals : List R) : Nat → Nat → R
  | 0, j => if j < inputVals.length then inputVals.getD j 0 else net.outputVal 0 j
  | L + 1, j =>
    if j + 1 < net.layerSize (L + 1) then
      tanh (∑ p in Finset.range (net.layerSize L),
        Net.activation tanh net inputVals L p * net.weight L p j)
    else net.outputVal (L + 1) j

/-- Layer `L` after a forward pass (closed form). -/
def Net.forwardLayer (tanh : R → R) (net : Net R) (inputVals : List R) (L : Nat)
    (layer : Layer R) : Layer R :=
  layer.mapIdx fun j neuron => neuron.setOutputVal (net.activation tanh inputVals L j)

/-- Closed form of `Net.feedForward`. -/
def Net.feedForwardSpec (tanh : R → R) (net : Net R) (inputVals : List R) : Net R :=
  { net with m_layers := net.m_layers.mapIdx (net.forwardLayer tanh inputVals) }

/-- Index of the output layer. -/
def Net.last (net : Net R) : Nat := net.m_layers.length - 1

/-- Closed form of the gradient that `Net.backProp` leaves in neuron `j` of the layer `d`
places below the output layer: the output gradient for `d = 0`, otherwise the hidden gradient
computed from the stored weights and the gradients of the layer above. -/
def Net.gradientFrom (net : Net R) (targetVals : List R) : Nat → Nat → R
  | 0, j =>
    if j + 1 < net.layerSize net.last then
      (targetVals.getD j 0 - net.outputVal net.last j)
        * Neuron.transferFunctionDerivative (net.outputVal net.last j)
    else net.gradient net.last j
  | d + 1, j =>
    (∑ n in Finset.range (net.layerSize (net.last - d) - 1),
        net.weight (net.last - (d + 1)) j n * Net.gradientFrom net targetVals d n)
      * Neuron.transferFunctionDerivative (net.outputVal (net.last - (d + 1)) j)

/-- Closed form of the gradient of neuron `j` of layer `L` after `Net.backProp`; the
input layer keeps its stored gradients. -/
def Net.newGradient (net : Net R) (targetVals : List R) (L j : Nat) : R :=
  if 0 < L ∧ L ≤ net.last then net.gradientFrom targetVals (net.last - L) j
  else net.gradient L j

/-- Closed form of connection `j` of neuron `p` of layer `L` after `Net.backProp`, from its
value `c` before: updated by the momentum rule when neither end is the last neuron of its
layer, untouched otherwise. -/
def Net.newConnection (eta alpha : R) (net : Net R) (targetVals : List R) (L p j : Nat)
    (c : Connection R) : Connection R :=
  if p + 1 < net.layerSize L ∧ j + 1 < net.layerSize (L + 1) then
    let newDeltaWeight :=
      eta * net.outputVal L p * net.newGradient targetVals (L + 1) j + alpha * c.deltaWeight
    { weight := c.weight + newDeltaWeight, deltaWeight := newDeltaWeight }
  else c

/-- Closed form of `m_error` after `Net.backProp`. -/
def Net.newError (sqrt : R → R) (net : Net R) (targetVals : List R) : R :=
  sqrt ((∑ n in Finset.range (net.layerSize net.last - 1),
      (targetVals.getD n 0 - net.outputVal net.last n)
        * (targetVals.getD n 0 - net.outputVal net.last n))
    / ((net.layerSize net.last - 1 : Nat) : R))

/-- Neuron `p` of layer `L` after `Net.backProp` (closed form). -/
def Net.backPropNeuron (eta alpha : R) (net : Net R) (targetVals : List R) (L p : Nat)
    (neuron : Neuron R) : Neuron R :=
  { neuron with
    m_gradient := net.newGradient targetVals L p
    m_outputWeights :=
      neuron.m_outputWeights.mapIdx (net.newConnection eta alpha targetVals L p) }

/-- Closed form of `Net.backPropWith`. -/
def Net.backPropSpec (sqrt : R → R) (eta alpha : R) (net : Net R) (targetVals : List R) :
    Net R :=
  { m_layers := net.m_layers.mapIdx fun L layer =>
      layer.mapIdx (net.backPropNeuron eta alpha targetVals L)
    m_error := net.newError sqrt targetVals
    m_recentAverageError :=
      (net.m_recentAverageError * net.m_recentAverageSmoothingFactor
          + net.newError sqrt targetVals)
        / (net.m_recentAverageSmoothingFactor + 1.0)
    m_recentAverageSmoothingFactor := net.m_recentAverageSmoothingFactor }

/-- The vector `m_layers` during the gradient phase of `Net.backProp`, when exactly the
layers above layer `i` have received their gradients. -/
def Net.gradientStage (net : Net R) (targetVals : List R) (i : Nat) : List (Layer R) :=
  net.m_layers.mapIdx fun L layer =>
    if i < L then
      layer.mapIdx fun j neuron => { neuron with m_gradient := net.newGradient targetVals L j }
    else layer

/-- The vector `m_layers` during the update phase of `Net.backProp`, when all gradients
are computed and exactly the layers from layer `i` on have had their outgoing connections
updated. -/
def Net.updateStage (eta alpha : R) (net : Net R) (targetVals : List R) (i : Nat) :
    List (Layer R) :=
  net.m_layers.mapIdx fun L layer => layer.mapIdx fun p neuron =>
    { neuron with
      m_gradient := net.newGradient targetVals L p
      m_outputWeights :=
        if i ≤ L then
          neuron.m_outputWeights.mapIdx (net.newConnection eta alpha targetVals L p)
        else neuron.m_outputWeights }

/-- Number of calls of `rand()` the constructor `Net::Net` has made when it starts layer
`L`. -/
def Net.randBase (topology : List Nat) : Nat → Nat
  | 0 => 0
  | L + 1 => Net.randBase topology L + (topology.getD L 0 + 1) * topology.getD (L + 1) 0

/-- Closed form of `Neuron.new`. -/
def Neuron.newSpec (RAND_MAX : Nat) (rand : Nat → Nat) (outputVal gradient : R)
    (numOutputs myIndex : Nat) (k : Nat) : Neuron R :=
  { m_outputVal := outputVal, m_myIndex := myIndex, m_gradient := gradient,
    m_outputWeights := (List.range numOutputs).map fun c =>
      { weight := Neuron.randomWeight RAND_MAX (rand (k + c)), deltaWeight := 0 } }

/-- Layer `L` as `Net.new` builds it (closed form). -/
def Net.newLayerSpec (RAND_MAX : Nat) (rand : Nat → Nat) (u : Uninit R) (topology : List Nat)
    (L : Nat) : Layer R :=
  (List.range (topology.getD L 0 + 1)).map fun j =>
    Neuron.newSpec RAND_MAX rand (if j = topology.getD L 0 then 1.0 else u.outputVal L j)
      (u.gradient L j) (topology.getD (L + 1) 0) j
      (Net.randBase topology L + j * topology.getD (L + 1) 0)

/-- Closed form of `Net.new`. -/
def Net.newSpec (RAND_MAX : Nat) (rand : Nat → Nat) (u : Uninit R) (topology : List Nat) :
    Net R :=
  { m_layers := (List.range topology.length).map (Net.newLayerSpec RAND_MAX rand u topology)
    m_error := u.error
    m_recentAverageError := u.recentAverageError
    m_recentAverageSmoothingFactor := u.recentAverageSmoothingFactor }

end ClosedForms

/-! ## A concrete network -/

/-- A network of topology `[2, 2, 1]`: weights between 0 and 1, all `deltaWeight`s zero,
bias outputs `1.0`. -/
def sampleNet (R : Type) [Field R] : Net R :=
  { m_layers :=
      [[{ m_outputVal := 0, m_myIndex := 0, m_gradient := 0,
          m_outputWeights := [⟨0, 0⟩, ⟨0.1, 0⟩] },
        { m_outputVal := 0, m_myIndex := 1, m_gradient := 0,
          m_outputWeights := [⟨0.2, 0⟩, ⟨0.3, 0⟩] },
        { m_outputVal := 1, m_myIndex := 2, m_gradient := 0,
          m_outputWeights := [⟨0.4, 0⟩, ⟨0.5, 0⟩] }],
       [{ m_outputVal := 0, m_myIndex := 0, m_gradient := 0, m_outputWeights := [⟨0.6, 0⟩] },
        { m_outputVal := 0, m_myIndex := 1, m_gradient := 0, m_outputWeights := [⟨0.7, 0⟩] },
        { m_outputVal := 1, m_myIndex := 2, m_gradient := 0, m_outputWeights := [⟨0.8, 0⟩] }],
       [{ m_outputVal := 0, m_myIndex := 0, m_gradient := 0, m_outputWeights := [] },
        { m_outputVal := 1, m_myIndex := 1, m_gradient := 0, m_outputWeights := [] }]],
    m_error := 0, m_recentAverageError := 0, m_recentAverageSmoothingFactor := 100 }

/-- A network of topology `[1, 1]` whose output neuron holds `0.6`. -/
def singleOutputNet (R : Type) [Field R] : Net R :=
  { m_layers :=
      [[{ m_outputVal := 1, m_myIndex := 0, m_gradient := 0, m_outputWeights := [⟨0.5, 0⟩] },
        { m_outputVal := 1, m_myIndex := 1, m_gradient := 0, m_outputWeights := [⟨0.5, 0⟩] }],
       [{ m_outputVal := 0.6, m_myIndex := 0, m_gradient := 0, m_outputWeights := [] },
        { m_outputVal := 1, m_myIndex := 1, m_gradient := 0, m_outputWeights := [] }]],
    m_error := 0, m_recentAverageError := 0, m_recentAverageSmoothingFactor := 100 }

/-- A network of topology `[2, 2, 1]` in the middle of training: non-zero output values,
two non-zero `deltaWeight`s, and stale gradients `9` in every neuron. -/
def activeNet (R : Type) [Field R] : Net R :=
  { m_layers :=
      [[{ m_outputVal := 1, m_myIndex := 0, m_gradient := 9,
          m_outputWeights := [⟨0.1, 0.05⟩, ⟨0.2, 0⟩] },
        { m_outputVal := 0.5, m_myIndex := 1, m_gradient := 9,
          m_outputWeights := [⟨0.3, 0⟩, ⟨0.4, 0⟩] },
        { m_outputVal := 1, m_myIndex := 2, m_gradient := 9,
          m_outputWeights := [⟨0.5, 0⟩, ⟨0.6, 0⟩] }],
       [{ m_outputVal := 0.5, m_myIndex := 0, m_gradient := 9,
          m_outputWeights := [⟨0.6, 0.1⟩] },
        { m_outputVal := -0.5, m_myIndex := 1, m_gradient := 9,
          m_outputWeights := [⟨0.7, 0⟩] },
        { m_outputVal := 1, m_myIndex := 2, m_gradient := 9, m_outputWeights := [⟨0.8, 0⟩] }],
       [{ m_outputVal := 0.5, m_myIndex := 0, m_gradient := 9, m_outputWeights := [] },
        { m_outputVal := 1, m_myIndex := 1, m_gradient := 9, m_outputWeights := [] }]],
    m_error := 0, m_recentAverageError := 0, m_recentAverageSmoothingFactor := 100 }

/-! ## The range of `double`

The properties that depend on what `double` does outside the range of exact arithmetic are
stated over `Double K`: the finite values of an ordered field `K`, the two infinities and
NaN.  A finite result of magnitude `2^1024 - 2^970` or more overflows to an infinity, one of
magnitude `2^-1075` or less underflows to zero, and every other finite result is kept exact:
the rounding of the significand is not modelled, and zero carries no sign. -/

/-- Values of the type `double`. -/
inductive Double (K : Type) where
  | finite (x : K)
  | posInf
  | negInf
  | nan

section Floating

variable {K : Type} [LinearOrderedField K]

/-- A finite result of this magnitude or more rounds to an infinity: the midpoint between
the largest finite `double`, `2^1024 - 2^971`, and `2^1024`. -/
def Double.overflowBound : K := 2 ^ 1024 - 2 ^ 970

/-- A finite result of this magnitude or less rounds to zero: half of the smallest positive
`double`, `2^-1074`. -/
def Double.underflowBound : K := 1 / 2 ^ 1075

/-- The `double` that stores a finite exact result, as far as its range goes. -/
def Double.round (x : K) : Double K :=
  if Double.overflowBound ≤ x then .posInf
  else if x ≤ -Double.overflowBound then .negInf
  else if -Double.underflowBound ≤ x ∧ x ≤ Double.underflowBound then .finite 0
  else .finite x

/-- Negation of a `double`. -/
def Double.neg : Double K → Double K
  | .finite x => .finite (-x)
  | .posInf => .negInf
  | .negInf => .posInf
  | .nan => .nan

/-- Addition of `double`s. -/
def Double.add : Double K → Double K → Double K
  | .finite x, .finite y => Double.round (x + y)
  | .finite _, .posInf => .posInf
  | .finite _, .negInf => .negInf
  | .posInf, .finite _ => .posInf
  | .posInf, .posInf => .posInf
  | .negInf, .finite _ => .negInf
  | .negInf, .negInf => .negInf
  | _, _ => .nan

/-- Subtraction of `double`s. -/
def Double.sub (a b : Double K) : Double K := Double.add a (Double.neg b)

/-- The product of `+∞` and the finite value `x`: an infinity with the sign of `x`, NaN
when `x` is zero. -/
def Double.infTimes (x : K) : Double K :=
  if 0 < x then .posInf else if x < 0 then .negInf else .nan

/-- Multiplication of `double`s. -/
def Double.mul : Double K → Double K → Double K
  | .finite x, .finite y => Double.round (x * y)
  | .finite x, .posInf => Double.infTimes x
  | .finite x, .negInf => Double.infTimes (-x)
  | .posInf, .finite y => Double.infTimes y
  | .negInf, .finite y => Double.infTimes (-y)
  | .posInf, .posInf => .posInf
  | .posInf, .negInf => .negInf
  | .negInf, .posInf => .negInf
  | .negInf, .negInf => .posInf
  | _, _ => .nan

/-- Division of `double`s; a zero divisor counts as `+0.0`. -/
def Double.div : Double K → Double K → Double K
  | .finite x, .finite y => if y = 0 then Double.infTimes x else Double.round (x / y)
  | .finite _, .posInf => .finite 0
  | .finite _, .negInf => .finite 0
  | .posInf, .finite y => if 0 ≤ y then .posInf else .negInf
  | .negInf, .finite y => if 0 ≤ y then .negInf else .posInf
  | _, _ => .nan

instance Double.instZero : Zero (Double K) := ⟨.finite 0⟩

instance Double.instAdd : Add (Double K) := ⟨Double.add⟩

instance Double.instSub : Sub (Double K) := ⟨Double.sub⟩

instance Double.instMul : Mul (Double K) := ⟨Double.mul⟩

instance Double.instDiv : Div (Double K) := ⟨Double.div⟩

instance Double.instNatCast : NatCast (Double K) := ⟨fun n => Double.round (n : K)⟩

instance Double.instOfScientific : OfScientific (Double K) :=
  ⟨fun m s e => Double.round (OfScientific.ofScientific m s e : K)⟩

/-- The `<cmath>` function `tanh` on `double`, from a function `t` for the arguments between
`-22` and `22`.  From `22` on the result is exactly `1.0`: the distance of the hyperbolic
tangent from 1 is then below `2^-54`, half the distance from 1 to the next smaller
`double`. -/
def Double.tanh (t : K → K) : Double K → Double K
  | .finite x => if 22 ≤ x then .finite 1 else if x ≤ -22 then .finite (-1) else .finite (t x)
  | .posInf => .finite 1
  | .negInf => .finite (-1)
  | .nan => .nan

/-- The `<cmath>` function `sqrt` on `double`, from a function `s` for the non-negative
finite arguments. -/
def Double.sqrt (s : K → K) : Double K → Double K
  | .finite x => if x < 0 then .nan else .finite (s x)
  | .posInf => .posInf
  | .negInf => .nan
  | .nan => .nan

end Floating

section Properties

variable {R : Type}

/-- The network has the shape of the topology and every neuron, at its layer and position,
has the property `N`. -/
def Net.ShapedWith (net : Net R) (topology : List Nat) (N : Nat → Nat → Neuron R → Prop) :
    Prop :=
  net.Shaped topology ∧ ∀ L j x, net.neuron? L j = some x → N L j x

/-- The network with every stored number replaced by its image under `f`. -/
def Net.map {S : Type} (f : R → S) (net : Net R) : Net S :=
  { m_layers := net.m_layers.map fun layer => layer.map fun neuron =>
      { m_outputVal := f neuron.m_outputVal, m_myIndex := neuron.m_myIndex,
        m_gradient := f neuron.m_gradient,
        m_outputWeights := neuron.m_outputWeights.map fun c =>
          { weight := f c.weight, deltaWeight := f c.deltaWeight } }
    m_error := f net.m_error
    m_recentAverageError := f net.m_recentAverageError
    m_recentAverageSmoothingFactor := f net.m_recentAverageSmoothingFactor }

end Properties

section Loops

variable {α σ : Type}

theorem idx_of_getElem? {v : List α} {i : Nat} {x : α} (h : v[i]? = some x) :
    idx v i = .ok x := by
  simp [idx, h]

theorem idx_of_lt {v : List α} {i : Nat} (h : i < v.length) : idx v i = .ok v[i] := by
  simp [idx, List.getElem?_eq_getElem h]

theorem idx_of_le {v : List α} {i : Nat} (h : v.length ≤ i) :
    idx v i = .error .outOfBounds := by
  simp [idx, List.getElem?_eq_none h]

theorem idx_set_self {v : List α} {i : Nat} (h : i < v.length) (y : α) :
    idx (v.set i y) i = .ok y :=
  idx_of_getElem? (by simp [h])

theorem back_eq_idx (v : List α) : back v = idx v (v.length - 1) := by
  cases v using List.reverseRecOn with
  | nil => rfl
  | append_singleton l a => simp [back, idx]

theorem modifyBack_eq_modifyAt (v : List α) (f : α → Except Err α) :
    modifyBack v f = modifyAt v (v.length - 1) f := by
  simp [modifyBack, modifyAt, back_eq_idx]

theorem sizeMinusOne_of_pos {v : List α} (h : 0 < v.length) :
    sizeMinusOne v = .ok (v.length - 1) := by
  unfold sizeMinusOne
  rw [if_neg (by omega)]

theorem forUp_succ (body : Nat → σ → Except Err σ) (n : Nat) (s : σ) :
    forUp body (n + 1) s = forUp body n s >>= body n := rfl

theorem forUp_congr {body body' : Nat → σ → Except Err σ} (n : Nat) (s : σ)
    (h : ∀ i t, i < n → body i t = body' i t) : forUp body n s = forUp body' n s := by
  induction n with
  | zero => rfl
  | succ n ih =>
    rw [forUp_succ, forUp_succ, ih (fun i t hi => h i t (by omega))]
    cases forUp body' n s with
    | error e => rfl
    | ok t => exact h n t (by omega)

/-- A loop whose iteration `i` rewrites element `i` of the vector. -/
theorem forUp_modifyAt (f : Nat → α → Except Err α) (g : Nat → α → α) (v : List α) (n : Nat)
    (hn : n ≤ v.length) (hf : ∀ i x, i < n → v[i]? = some x → f i x = .ok (g i x)) :
    forUp (fun i l => modifyAt l i (f i)) n v
      = .ok (v.mapIdx fun i x => if i < n then g i x else x) := by
  induction n with
  | zero =>
    simp only [forUp, Nat.not_lt_zero, if_false]
    congr 1
    apply List.ext_getElem? ; intro i ; simp
  | succ n ih =>
    rw [forUp_succ, ih (by omega) (fun i x hi hx => hf i x (by omega) hx)]
    have hlt : n < v.length := by omega
    have h1 : (v.mapIdx fun i x => if i < n then g i x else x)[n]? = some v[n] := by
      simp [List.getElem?_eq_getElem hlt]
    show modifyAt _ n (f n) = _
    rw [modifyAt, idx_of_getElem? h1]
    simp only [bind, Except.bind]
    rw [hf n v[n] (by omega) (List.getElem?_eq_getElem hlt)]
    simp only [pure, Except.pure]
    congr 1
    apply List.ext_getElem? ; intro i
    rw [List.getElem?_set]
    by_cases hi : n = i
    · subst hi ; simp [List.getElem?_eq_getElem hlt, hlt]
    · have hiff : (i < n + 1) ↔ (i < n) := by omega
      simp only [hi, if_false, List.getElem?_mapIdx, hiff]

/-- A loop over element `L` of the state is the loop on that element. -/
theorem forUp_lift (g : Nat → α → Except Err α) (ls : List α) (L : Nat) (l : α)
    (hl : ls[L]? = some l) (n : Nat) :
    forUp (fun i ls => modifyAt ls L (g i)) n ls
      = (forUp g n l >>= fun w => pure (ls.set L w)) := by
  have hL : L < ls.length := by
    by_contra h
    rw [List.getElem?_eq_none (by omega)] at hl ; cases hl
  induction n with
  | zero =>
    simp only [forUp, bind, Except.bind, pure, Except.pure]
    congr 1
    apply List.ext_getElem? ; intro i
    rw [List.getElem?_set] ; split
    · next h => subst h ; simp [hL, hl]
    · rfl
  | succ n ih =>
    rw [forUp_succ, forUp_succ, ih]
    cases forUp g n l with
    | error e => rfl
    | ok w =>
      simp only [bind, Except.bind, pure, Except.pure]
      rw [modifyAt, idx_of_getElem? (by simp [hL] : (ls.set L w)[L]? = some w)]
      simp only [bind, Except.bind]
      cases g n w with
      | error e => rfl
      | ok y => simp [pure, Except.pure]

theorem forUp_steps (body : Nat → σ → Except Err σ) (S : Nat → σ) (n : Nat)
    (h : ∀ i, i < n → body i (S i) = .ok (S (i + 1))) : forUp body n (S 0) = .ok (S n) := by
  induction n with
  | zero => rfl
  | succ n ih =>
    rw [forUp_succ, ih (fun i hi => h i (by omega))]
    exact h n (by omega)

theorem forUp_steps_from (body : Nat → σ → Except Err σ) (S : Nat → σ) (n : Nat) (s : σ)
    (h0 : S 0 = s) (h : ∀ i, i < n → body i (S i) = .ok (S (i + 1))) :
    forUp body n s = .ok (S n) := by
  subst h0
  exact forUp_steps body S n h

theorem forDown_steps (body : Nat → σ → Except Err σ) (S : Nat → σ) (hi : Nat)
    (h : ∀ i, i < hi → body (i + 1) (S (i + 1)) = .ok (S i)) :
    forDown body hi (S hi) = .ok (S 0) := by
  induction hi with
  | zero => rfl
  | succ n ih =>
    show body (n + 1) (S (n + 1)) >>= forDown body n = _
    rw [h n (by omega)]
    exact ih (fun i hi => h i (by omega))

/-- A loop over the last element of the state is the loop on that element. -/
theorem forUp_lift_back (g : Nat → α → Except Err α) (ls : List α) (l : α)
    (hl : ls[ls.length - 1]? = some l) (n : Nat) :
    forUp (fun i ls => modifyBack ls (g i)) n ls
      = (forUp g n l >>= fun w => pure (ls.set (ls.length - 1) w)) := by
  rw [← forUp_lift g ls (ls.length - 1) l hl n]
  have key : ∀ n, (forUp (fun i ls => modifyBack ls (g i)) n ls
      = forUp (fun i ls => modifyAt ls (ls.length - 1) (g i)) n ls) := by
    intro n
    apply forUp_congr
    intro i t _
    exact modifyBack_eq_modifyAt t (g i)
  rw [key]
  clear key
  induction n with
  | zero => rfl
  | succ n ih =>
    rw [forUp_succ, forUp_succ, ih, forUp_lift g ls (ls.length - 1) l hl n]
    cases forUp g n l with
    | error e => rfl
    | ok w => simp [bind, Except.bind, pure, Except.pure]

theorem mapIdx_mapIdx_congr {β γ : Type} {f : Nat → α → β} {g : Nat → β → γ}
    {h : Nat → α → γ} {v : List α} (hh : ∀ i x, v[i]? = some x → g i (f i x) = h i x) :
    (v.mapIdx f).mapIdx g = v.mapIdx h := by
  apply List.ext_getElem? ; intro i
  simp only [List.getElem?_mapIdx]
  cases hx : v[i]? with
  | none => rfl
  | some x => simp [hh i x hx]

theorem mapIdx_eq_self {f : Nat → α → α} {v : List α}
    (hh : ∀ i x, v[i]? = some x → f i x = x) : v.mapIdx f = v := by
  apply List.ext_getElem? ; intro i
  simp only [List.getElem?_mapIdx]
  cases hx : v[i]? with
  | none => rfl
  | some x => simp [hh i x hx]

theorem forUp_invariant (body : Nat → σ → Except Err σ) (P : σ → Prop)
    (hP : ∀ i s t, P s → body i s = .ok t → P t) (n : Nat) (s t : σ) (h0 : P s)
    (h : forUp body n s = .ok t) : P t := by
  induction n generalizing t with
  | zero =>
    cases h
    exact h0
  | succ n ih =>
    rw [forUp_succ] at h
    cases hn : forUp body n s with
    | error e => rw [hn] at h ; cases h
    | ok w =>
      rw [hn] at h
      exact hP n w t (ih w hn) h

theorem modifyAt_length {v w : List α} {i : Nat} {f : α → Except Err α}
    (h : modifyAt v i f = .ok w) : w.length = v.length := by
  unfold modifyAt at h
  cases hx : idx v i with
  | error e => rw [hx] at h ; cases h
  | ok x =>
    rw [hx] at h
    simp only [bind, Except.bind] at h
    cases hy : f x with
    | error e => rw [hy] at h ; cases h
    | ok y =>
      rw [hy] at h
      cases h
      simp

end Loops

section Lists

variable {R : Type}

theorem Neuron.setOutputVal_self (neuron : Neuron R) :
    neuron.setOutputVal neuron.m_outputVal = neuron := by
  cases neuron ; rfl

theorem getElem?_some_of_lt {α : Type} {v : List α} {i : Nat} (h : i < v.length) :
    ∃ x, v[i]? = some x := ⟨v[i], List.getElem?_eq_getElem h⟩

theorem lt_of_getElem?_some {α : Type} {v : List α} {i : Nat} {x : α} (h : v[i]? = some x) :
    i < v.length := by
  by_contra hn
  rw [List.getElem?_eq_none (by omega)] at h ; cases h

theorem mapIdx_congr_getElem? {α β : Type} {f g : Nat → α → β} {v : List α}
    (h : ∀ i x, v[i]? = some x → f i x = g i x) : v.mapIdx f = v.mapIdx g := by
  apply List.ext_getElem? ; intro i
  simp only [List.getElem?_mapIdx]
  cases hx : v[i]? with
  | none => rfl
  | some x => simp [h i x hx]

theorem set_eq_mapIdx {α : Type} {w v : List α} {g : Nat → α → α} {L : Nat} {y : α}
    (hw : ∀ i, i ≠ L → w[i]? = (v[i]?).map (g i)) (hlen : w.length = v.length)
    (hy : ∀ x, v[L]? = some x → y = g L x) : w.set L y = v.mapIdx g := by
  apply List.ext_getElem? ; intro i
  rw [List.getElem?_set, List.getElem?_mapIdx]
  by_cases hi : L = i
  · subst hi
    simp only [if_true]
    by_cases hL : L < w.length
    · obtain ⟨x, hx⟩ := getElem?_some_of_lt (hlen ▸ hL)
      simp [hL, hx, hy x hx]
    · simp [hL, List.getElem?_eq_none (by omega : v.length ≤ L)]
  · simp only [hi, if_false]
    exact hw i (fun h => hi h.symm)

theorem Net.layerSize_eq {net : Net R} {L : Nat} {layer : Layer R}
    (h : net.m_layers[L]? = some layer) : net.layerSize L = layer.length := by
  simp [Net.layerSize, h]

theorem Net.neuron?_eq {net : Net R} {L j : Nat} {layer : Layer R}
    (h : net.m_layers[L]? = some layer) : net.neuron? L j = layer[j]? := by
  simp [Net.neuron?, h]

theorem Net.connection?_eq {net : Net R} {L p j : Nat} {layer : Layer R} {neuron : Neuron R}
    (h : net.m_layers[L]? = some layer) (hp : layer[p]? = some neuron) :
    net.connection? L p j = neuron.m_outputWeights[j]? := by
  simp [Net.connection?, Net.neuron?_eq h, hp]

theorem Net.Shaped.last_lt {net : Net R} {topology : List Nat} (hs : net.Shaped topology)
    (ht : 2 ≤ topology.length) : 0 < net.last ∧ net.last < net.m_layers.length ∧
      net.last = topology.length - 1 := by
  have := hs.1
  unfold Net.last
  omega

theorem Net.Shaped.connection {net : Net R} {topology : List Nat} (hs : net.Shaped topology)
    {L p j : Nat} (hL : L + 1 < topology.length) (hp : p ≤ topology.getD L 0)
    (hj : j < topology.getD (L + 1) 0) : ∃ c, net.connection? L p j = some c := by
  obtain ⟨layer, hl⟩ := getElem?_some_of_lt (by rw [hs.1] ; omega : L < net.m_layers.length)
  have hsz := (hs.2 _ _ hl).1
  obtain ⟨x, hx⟩ := getElem?_some_of_lt (by omega : p < layer.length)
  have hxs := (hs.2 _ _ hl).2 p x hx
  obtain ⟨c, hc⟩ := getElem?_some_of_lt (by omega : j < x.m_outputWeights.length)
  exact ⟨c, by rw [Net.connection?_eq hl hx, hc]⟩

theorem Net.Shaped.layerSize {net : Net R} {topology : List Nat} (hs : net.Shaped topology)
    {L : Nat} (hL : L < topology.length) : net.layerSize L = topology.getD L 0 + 1 := by
  obtain ⟨layer, hl⟩ := getElem?_some_of_lt (by rw [hs.1] ; omega : L < net.m_layers.length)
  rw [Net.layerSize_eq hl, (hs.2 _ _ hl).1]

end Lists

section Forward

variable {R : Type} [Field R]

theorem tanh_lt_one (x : ℝ) : Real.tanh x < 1 := by
  rw [Real.tanh_eq_sinh_div_cosh, div_lt_one (Real.cosh_pos x)]
  have h := Real.cosh_sub_sinh x
  have := Real.exp_pos (-x)
  linarith

theorem neg_one_lt_tanh (x : ℝ) : -1 < Real.tanh x := by
  rw [Real.tanh_eq_sinh_div_cosh, lt_div_iff₀ (Real.cosh_pos x)]
  have h := Real.cosh_add_sinh x
  have := Real.exp_pos x
  linarith

theorem zero_lit : (0.0 : R) = 0 := by norm_num

theorem one_lit : (1.0 : R) = 1 := by norm_num

/-- A loop that adds one term per iteration computes the sum of the terms. -/
theorem forUp_sum (body : Nat → R → Except Err R) (t : Nat → R) (n : Nat) (s : R)
    (h : ∀ i acc, i < n → body i acc = .ok (acc + t i)) :
    forUp body n s = .ok (s + ∑ i in Finset.range n, t i) := by
  induction n with
  | zero => simp [forUp, pure, Except.pure]
  | succ n ih =>
    rw [forUp_succ, ih (fun i acc hi => h i acc (by omega))]
    show body n _ = _
    rw [h n _ (by omega), Finset.sum_range_succ, add_assoc]

theorem Neuron.feedForward_sum_eq (tanh : R → R) (self : Neuron R) (prevLayer : Layer R)
    (t : Nat → R)
    (h : ∀ i, i < prevLayer.length → ∃ p c, prevLayer[i]? = some p ∧
      p.m_outputWeights[self.m_myIndex]? = some c ∧ t i = p.m_outputVal * c.weight) :
    self.feedForward tanh prevLayer
      = .ok (self.setOutputVal (tanh (∑ i in Finset.range prevLayer.length, t i))) := by
  unfold Neuron.feedForward
  rw [forUp_sum _ t]
  · simp [bind, Except.bind, pure, Except.pure, Neuron.setOutputVal, Neuron.transferFunction,
      zero_lit]
  · intro i acc hi
    obtain ⟨p, c, hp, hc, ht⟩ := h i hi
    simp [idx_of_getElem? hp, idx_of_getElem? hc, bind, Except.bind, pure, Except.pure, ht,
      Neuron.getOutputVal]

theorem Net.outputVal_eq {net : Net R} {L j : Nat} {layer : Layer R} {neuron : Neuron R}
    (h : net.m_layers[L]? = some layer) (hj : layer[j]? = some neuron) :
    net.outputVal L j = neuron.m_outputVal := by
  simp [Net.outputVal, Net.neuron?_eq h, hj]

theorem Net.gradient_eq {net : Net R} {L j : Nat} {layer : Layer R} {neuron : Neuron R}
    (h : net.m_layers[L]? = some layer) (hj : layer[j]? = some neuron) :
    net.gradient L j = neuron.m_gradient := by
  simp [Net.gradient, Net.neuron?_eq h, hj]

theorem Net.weight_eq {net : Net R} {L p j : Nat} {layer : Layer R} {neuron : Neuron R}
    {c : Connection R} (h : net.m_layers[L]? = some layer) (hp : layer[p]? = some neuron)
    (hc : neuron.m_outputWeights[j]? = some c) : net.weight L p j = c.weight := by
  simp [Net.weight, Net.connection?_eq h hp, hc]

theorem Net.deltaWeight_eq {net : Net R} {L p j : Nat} {layer : Layer R} {neuron : Neuron R}
    {c : Connection R} (h : net.m_layers[L]? = some layer) (hp : layer[p]? = some neuron)
    (hc : neuron.m_outputWeights[j]? = some c) : net.deltaWeight L p j = c.deltaWeight := by
  simp [Net.deltaWeight, Net.connection?_eq h hp, hc]

theorem Net.feedForward_eq (tanh : R → R) (net : Net R) (topology : List Nat)
    (inputVals : List R) (hs : net.Shaped topology) (ht : topology ≠ [])
    (hin : inputVals.length = topology.getD 0 0) :
    net.feedForward tanh inputVals = .ok (net.feedForwardSpec tanh inputVals) := by
  have hlen : 0 < net.m_layers.length := by
    rw [hs.1] ; exact List.length_pos.mpr ht
  have h0 : net.m_layers[0]? = some net.m_layers[0] := List.getElem?_eq_getElem hlen
  have hsz0 := (hs.2 0 _ h0).1
  obtain ⟨S, hS⟩ : ∃ S : Nat → List (Layer R), S = fun i =>
      net.m_layers.mapIdx fun L layer =>
        if L ≤ i then net.forwardLayer tanh inputVals L layer else layer := ⟨_, rfl⟩
  have hSlen : ∀ i, (S i).length = net.m_layers.length := by
    intro i ; simp [hS]
  unfold Net.feedForward
  rw [idx_of_getElem? h0]
  simp only [bind, Except.bind]
  rw [if_neg (by omega)]
  simp only [pure, Except.pure]
  rw [forUp_lift _ _ 0 _ h0,
    forUp_modifyAt _ (fun i neuron => neuron.setOutputVal (inputVals.getD i 0)) _ _ (by omega)]
  · have hS0 : net.m_layers.set 0 (net.m_layers[0].mapIdx fun i x =>
        if i < inputVals.length then x.setOutputVal (inputVals.getD i 0) else x) = S 0 := by
      rw [hS]
      apply set_eq_mapIdx
      · intro L hL
        cases net.m_layers[L]? with
        | none => rfl
        | some x => simp [hL]
      · rfl
      · intro x hx
        rw [h0] at hx ; cases hx
        simp only [le_refl, if_true, Net.forwardLayer]
        apply mapIdx_congr_getElem?
        intro j y hy
        by_cases hj : j < inputVals.length
        · simp [hj, Net.activation]
        · simp [hj, Net.activation, Net.outputVal_eq h0 hy, Neuron.setOutputVal_self]
    simp only [bind, Except.bind, pure, Except.pure]
    rw [hS0, forUp_steps _ S]
    · simp only [hSlen]
      congr 1
      unfold Net.feedForwardSpec
      congr 1
      rw [hS]
      apply mapIdx_congr_getElem?
      intro L x hx
      have := lt_of_getElem?_some hx
      rw [if_pos (by omega)]
    · intro i hi
      rw [hSlen] at hi
      obtain ⟨li, hli⟩ := getElem?_some_of_lt (by omega : i < net.m_layers.length)
      obtain ⟨lj, hlj⟩ := getElem?_some_of_lt (by omega : i + 1 < net.m_layers.length)
      have hp : (S i)[i]? = some (net.forwardLayer tanh inputVals i li) := by
        simp [hS, hli]
      have hn : (S i)[i + 1]? = some lj := by
        simp [hS, hlj]
      have hszj := (hs.2 _ _ hlj).1
      simp only [Nat.add_sub_cancel]
      rw [idx_of_getElem? hp, idx_of_getElem? hn]
      simp only
      rw [sizeMinusOne_of_pos (by omega)]
      simp only
      rw [forUp_lift _ _ (i + 1) _ hn,
        forUp_modifyAt _ (fun n neuron => neuron.setOutputVal
          (tanh (∑ p in Finset.range li.length,
            net.activation tanh inputVals i p * net.weight i p n))) _ _ (by omega)]
      · simp only [bind, Except.bind, pure, Except.pure]
        congr 1
        rw [hS]
        apply set_eq_mapIdx
        · intro L hL
          simp only [List.getElem?_mapIdx]
          have hiff : (L ≤ i + 1) ↔ (L ≤ i) := by omega
          simp only [hiff]
        · simp
        · intro x hx
          rw [hlj] at hx ; cases hx
          simp only [le_refl, if_true, Net.forwardLayer]
          apply mapIdx_congr_getElem?
          intro j y hy
          by_cases hj : j < lj.length - 1
          · have : j + 1 < net.layerSize (i + 1) := by
              rw [Net.layerSize_eq hlj] ; omega
            simp [hj, Net.activation, this, Net.layerSize_eq hli]
          · have : ¬ j + 1 < net.layerSize (i + 1) := by
              rw [Net.layerSize_eq hlj] ; omega
            simp [hj, Net.activation, this, Net.outputVal_eq hlj hy, Neuron.setOutputVal_self]
      · intro n x hnlt hx
        have hxs := (hs.2 _ _ hlj).2 n x hx
        have hl : (net.forwardLayer tanh inputVals i li).length = li.length := by
          simp [Net.forwardLayer]
        rw [Neuron.feedForward_sum_eq tanh x _
          (fun p => net.activation tanh inputVals i p * net.weight i p n), hl]
        intro p hplt
        rw [hl] at hplt
        obtain ⟨q, hq⟩ := getElem?_some_of_lt hplt
        have hqs := (hs.2 _ _ hli).2 p q hq
        obtain ⟨c, hc⟩ := getElem?_some_of_lt (by omega : n < q.m_outputWeights.length)
        refine ⟨q.setOutputVal (net.activation tanh inputVals i p), c, ?_, ?_, ?_⟩
        · simp [Net.forwardLayer, hq]
        · rw [hxs.1] ; exact hc
        · rw [Net.weight_eq hli hq hc] ; rfl
  · intro i x hi _
    simp [idx_of_lt hi, List.getElem?_eq_getElem hi]

theorem Net.feedForwardSpec_neuron? (tanh : R → R) (net : Net R) (inputVals : List R)
    (L j : Nat) :
    (net.feedForwardSpec tanh inputVals).neuron? L j
      = (net.neuron? L j).map fun neuron =>
          neuron.setOutputVal (net.activation tanh inputVals L j) := by
  simp only [Net.neuron?, Net.feedForwardSpec, List.getElem?_mapIdx]
  cases net.m_layers[L]? with
  | none => rfl
  | some layer => simp [Net.forwardLayer]

theorem Net.feedForwardSpec_connection? (tanh : R → R) (net : Net R) (inputVals : List R)
    (L p j : Nat) :
    (net.feedForwardSpec tanh inputVals).connection? L p j = net.connection? L p j := by
  simp only [Net.connection?, Net.feedForwardSpec_neuron?]
  cases net.neuron? L p with
  | none => rfl
  | some neuron => rfl

theorem Net.feedForwardSpec_weight (tanh : R → R) (net : Net R) (inputVals : List R)
    (L p j : Nat) :
    (net.feedForwardSpec tanh inputVals).weight L p j = net.weight L p j := by
  simp only [Net.weight, Net.feedForwardSpec_connection?]

theorem Net.feedForwardSpec_outputVal (tanh : R → R) (net : Net R) (inputVals : List R)
    {L j : Nat} {layer : Layer R} (hL : net.m_layers[L]? = some layer) (hj : j < layer.length) :
    (net.feedForwardSpec tanh inputVals).outputVal L j = net.activation tanh inputVals L j := by
  obtain ⟨x, hx⟩ := getElem?_some_of_lt hj
  simp [Net.outputVal, Net.feedForwardSpec_neuron?, Net.neuron?_eq hL, hx, Neuron.setOutputVal]

theorem Net.feedForwardSpec_shaped (tanh : R → R) (net : Net R) (inputVals : List R)
    (topology : List Nat) (hs : net.Shaped topology) :
    (net.feedForwardSpec tanh inputVals).Shaped topology := by
  refine ⟨by simp [Net.feedForwardSpec, hs.1], ?_⟩
  intro L layer hL
  simp only [Net.feedForwardSpec, List.getElem?_mapIdx] at hL
  cases h0 : net.m_layers[L]? with
  | none => simp [h0] at hL
  | some l0 =>
    simp only [h0, Option.map_some', Option.some.injEq] at hL
    subst hL
    refine ⟨by simp [Net.forwardLayer, (hs.2 L l0 h0).1], ?_⟩
    intro j neuron hj
    simp only [Net.forwardLayer, List.getElem?_mapIdx] at hj
    cases h1 : l0[j]? with
    | none => simp [h1] at hj
    | some n0 =>
      simp only [h1, Option.map_some', Option.some.injEq] at hj
      subst hj
      exact (hs.2 L l0 h0).2 j n0 h1

end Forward

section Generic

variable {R : Type} [Add R] [Mul R]

/-- One connection after the momentum update with gradient `g` at the far end and output
`o` at the near end. -/
theorem Neuron.updateInputWeights_eq (eta alpha : R) (self : Neuron R) (prevLayer : Layer R)
    (hne : 0 < prevLayer.length)
    (h : ∀ n x, n < prevLayer.length - 1 → prevLayer[n]? = some x →
      self.m_myIndex < x.m_outputWeights.length) :
    self.updateInputWeights eta alpha prevLayer
      = .ok (prevLayer.mapIdx fun n x =>
          if n < prevLayer.length - 1 then
            { x with m_outputWeights := x.m_outputWeights.mapIdx fun j c =>
                if j = self.m_myIndex then
                  { weight := c.weight
                      + (eta * x.m_outputVal * self.m_gradient + alpha * c.deltaWeight)
                    deltaWeight := eta * x.m_outputVal * self.m_gradient + alpha * c.deltaWeight }
                else c }
          else x) := by
  unfold Neuron.updateInputWeights
  rw [sizeMinusOne_of_pos hne]
  simp only [bind, Except.bind]
  rw [forUp_modifyAt _ _ _ _ (by omega)]
  intro n x hn hx
  have hlt := h n x hn hx
  obtain ⟨c, hc⟩ := getElem?_some_of_lt hlt
  simp only [modifyAt, idx_of_getElem? hc, bind, Except.bind, pure, Except.pure]
  rw [idx_set_self hlt]
  simp only [List.set_set, Neuron.getOutputVal]
  congr 2
  apply List.ext_getElem? ; intro j
  rw [List.getElem?_set, List.getElem?_mapIdx]
  by_cases hj : self.m_myIndex = j
  · subst hj ; simp [hlt, hc]
  · have hj' : ¬ j = self.m_myIndex := fun h => hj h.symm
    simp only [hj, hj', if_false]
    cases x.m_outputWeights[j]? <;> rfl

end Generic

section Backward

variable {R : Type} [Field R]

theorem Neuron.sumDOW_eq (self : Neuron R) (nextLayer : Layer R) (t : Nat → R)
    (hne : 0 < nextLayer.length)
    (h : ∀ n, n < nextLayer.length - 1 → ∃ c x, self.m_outputWeights[n]? = some c ∧
      nextLayer[n]? = some x ∧ t n = c.weight * x.m_gradient) :
    self.sumDOW nextLayer = .ok (∑ n in Finset.range (nextLayer.length - 1), t n) := by
  unfold Neuron.sumDOW
  rw [sizeMinusOne_of_pos hne]
  simp only [bind, Except.bind]
  rw [forUp_sum _ t]
  · simp [zero_lit]
  · intro n acc hn
    obtain ⟨c, x, hc, hx, ht⟩ := h n hn
    simp [idx_of_getElem? hc, idx_of_getElem? hx, pure, Except.pure, ht]

theorem Neuron.calcHiddenGradients_eq (self : Neuron R) (nextLayer : Layer R) (t : Nat → R)
    (hne : 0 < nextLayer.length)
    (h : ∀ n, n < nextLayer.length - 1 → ∃ c x, self.m_outputWeights[n]? = some c ∧
      nextLayer[n]? = some x ∧ t n = c.weight * x.m_gradient) :
    self.calcHiddenGradients nextLayer
      = .ok { self with m_gradient := (∑ n in Finset.range (nextLayer.length - 1), t n)
                * Neuron.transferFunctionDerivative self.m_outputVal } := by
  unfold Neuron.calcHiddenGradients
  rw [Neuron.sumDOW_eq self nextLayer t hne h]
  rfl

theorem Net.newGradient_hidden (net : Net R) (targetVals : List R) {L : Nat} (j : Nat)
    (h0 : 0 < L) (hL : L < net.last) :
    net.newGradient targetVals L j
      = (∑ n in Finset.range (net.layerSize (L + 1) - 1),
            net.weight L j n * net.newGradient targetVals (L + 1) n)
          * Neuron.transferFunctionDerivative (net.outputVal L j) := by
  have h1 : net.last - L = (net.last - (L + 1)) + 1 := by omega
  have h2 : net.last - (net.last - (L + 1)) = L + 1 := by omega
  have h3 : net.last - (net.last - (L + 1) + 1) = L := by omega
  have hc1 : 0 < L ∧ L ≤ net.last := ⟨h0, by omega⟩
  have hc2 : 0 < L + 1 ∧ L + 1 ≤ net.last := ⟨by omega, by omega⟩
  simp only [Net.newGradient, hc1, hc2, and_self, if_true]
  rw [h1]
  simp only [Net.gradientFrom, h2, h3]

theorem Net.newGradient_output (net : Net R) (targetVals : List R) (j : Nat)
    (h0 : 0 < net.last) :
    net.newGradient targetVals net.last j
      = if j + 1 < net.layerSize net.last then
          (targetVals.getD j 0 - net.outputVal net.last j)
            * Neuron.transferFunctionDerivative (net.outputVal net.last j)
        else net.gradient net.last j := by
  have hc : 0 < net.last ∧ net.last ≤ net.last := ⟨h0, le_refl _⟩
  simp only [Net.newGradient, hc, and_self, if_true, Nat.sub_self, Net.gradientFrom]

theorem Net.newConnection_of_not (eta alpha : R) (net : Net R) (targetVals : List R)
    {L p j : Nat} (c : Connection R)
    (h : ¬ (p + 1 < net.layerSize L ∧ j + 1 < net.layerSize (L + 1))) :
    net.newConnection eta alpha targetVals L p j c = c := by
  simp only [Net.newConnection, h, if_false]

/-- The inner loop of the hidden-gradient phase on one layer. -/
theorem Net.hiddenLayer_step (net : Net R) (topology : List Nat) (targetVals : List R)
    (hs : net.Shaped topology) {i : Nat} (hi : i + 1 < net.last) {layer next : Layer R}
    (hl : net.m_layers[i + 1]? = some layer) (hn : net.m_layers[i + 2]? = some next) :
    forUp (fun n hiddenLayer => modifyAt hiddenLayer n fun neuron =>
        neuron.calcHiddenGradients (next.mapIdx fun j neuron =>
          { neuron with m_gradient := net.newGradient targetVals (i + 2) j }))
      layer.length layer
    = .ok (layer.mapIdx fun j neuron =>
        { neuron with m_gradient := net.newGradient targetVals (i + 1) j }) := by
  have hszn := (hs.2 _ _ hn).1
  rw [forUp_modifyAt _ (fun j neuron =>
      { neuron with m_gradient := net.newGradient targetVals (i + 1) j }) _ _ (le_refl _)]
  · congr 1
    apply mapIdx_congr_getElem?
    intro j x hx
    rw [if_pos (lt_of_getElem?_some hx)]
  · intro j x _ hx
    have hxs : x.m_outputWeights.length = topology.getD (i + 2) 0 :=
      ((hs.2 _ _ hl).2 j x hx).2
    rw [Neuron.calcHiddenGradients_eq x _
      (fun n => net.weight (i + 1) j n * net.newGradient targetVals (i + 2) n)]
    · rw [Net.newGradient_hidden net targetVals j (by omega) hi, Net.outputVal_eq hl hx,
        Net.layerSize_eq hn]
      simp
    · simp ; omega
    · intro n hnlt
      simp only [List.length_mapIdx] at hnlt
      obtain ⟨c, hc⟩ := getElem?_some_of_lt (by omega : n < x.m_outputWeights.length)
      obtain ⟨y, hy⟩ := getElem?_some_of_lt (by omega : n < next.length)
      refine ⟨c, { y with m_gradient := net.newGradient targetVals (i + 2) n }, hc, ?_, ?_⟩
      · simp [hy]
      · rw [Net.weight_eq hl hx hc]

/-- The inner loop of the update phase on one layer: every non-bias neuron of `layer`
updates its incoming connections, which are stored in `prev`. -/
theorem Net.update_step (eta alpha : R) (net : Net R) (topology : List Nat)
    (targetVals : List R) (hs : net.Shaped topology) {i : Nat} {prev layer0 layer : Layer R}
    (hp : net.m_layers[i]? = some prev) (hl0 : net.m_layers[i + 1]? = some layer0)
    (hlen : layer.length = layer0.length)
    (hprop : ∀ n x, layer[n]? = some x →
      x.m_myIndex = n ∧ x.m_gradient = net.newGradient targetVals (i + 1) n)
    (body : Nat → Layer R → Except Err (Layer R))
    (hbody : ∀ n prevLayer, body n prevLayer
      = (idx layer n >>= fun x => x.updateInputWeights eta alpha prevLayer)) :
    forUp body (layer.length - 1)
      (prev.mapIdx fun p neuron =>
        { neuron with m_gradient := net.newGradient targetVals i p })
    = .ok (prev.mapIdx fun p neuron =>
        { neuron with
          m_gradient := net.newGradient targetVals i p
          m_outputWeights :=
            neuron.m_outputWeights.mapIdx (net.newConnection eta alpha targetVals i p) }) := by
  have hszp := (hs.2 _ _ hp).1
  have hszl := (hs.2 _ _ hl0).1
  obtain ⟨P, hP⟩ : ∃ P : Nat → Layer R, P = fun n => prev.mapIdx fun p neuron =>
      { neuron with
        m_gradient := net.newGradient targetVals i p
        m_outputWeights := neuron.m_outputWeights.mapIdx fun j c =>
          if j < n then net.newConnection eta alpha targetVals i p j c else c } := ⟨_, rfl⟩
  have hP0 : (prev.mapIdx fun p neuron =>
      { neuron with m_gradient := net.newGradient targetVals i p }) = P 0 := by
    rw [hP]
    apply mapIdx_congr_getElem?
    intro p x _
    simp only [Nat.not_lt_zero, if_false]
    rw [mapIdx_eq_self (fun _ _ _ => rfl)]
  have hPn : P (layer.length - 1) = prev.mapIdx fun p neuron =>
      { neuron with
        m_gradient := net.newGradient targetVals i p
        m_outputWeights :=
          neuron.m_outputWeights.mapIdx (net.newConnection eta alpha targetVals i p) } := by
    rw [hP]
    apply mapIdx_congr_getElem?
    intro p x _
    congr 1
    apply mapIdx_congr_getElem?
    intro j c _
    by_cases hj : j < layer.length - 1
    · simp [hj]
    · rw [if_neg hj, Net.newConnection_of_not]
      rw [Net.layerSize_eq hl0]
      omega
  rw [hP0, ← hPn]
  apply forUp_steps
  intro n hn
  obtain ⟨x, hx⟩ := getElem?_some_of_lt (by omega : n < layer.length)
  obtain ⟨hxi, hxg⟩ := hprop n x hx
  have hPlen : (P n).length = prev.length := by simp [hP]
  rw [hbody, idx_of_getElem? hx]
  show x.updateInputWeights eta alpha (P n) = _
  rw [Neuron.updateInputWeights_eq eta alpha x (P n) (by omega)]
  · congr 1
    rw [hPlen]
    rw [hP]
    apply mapIdx_mapIdx_congr
    intro p y hy
    have hys := (hs.2 _ _ hp).2 p y hy
    by_cases hpb : p < prev.length - 1
    · simp only [hpb, if_true]
      congr 1
      apply mapIdx_mapIdx_congr
      intro j c _
      by_cases hj : j = n
      · subst hj
        have hcond : p + 1 < net.layerSize i ∧ j + 1 < net.layerSize (i + 1) := by
          rw [Net.layerSize_eq hp, Net.layerSize_eq hl0]
          omega
        simp [hxi, hxg, Net.newConnection, hcond, Net.outputVal_eq hp hy]
      · have hiff : (j < n + 1) ↔ (j < n) := by omega
        simp only [hxi, hj, if_false, hiff]
    · simp only [hpb, if_false]
      congr 1
      apply mapIdx_congr_getElem?
      intro j c _
      rw [Net.newConnection_of_not]
      · simp
      · rw [Net.layerSize_eq hp]
        omega
  · intro m y _ hy
    rw [hP] at hy
    simp only [List.getElem?_mapIdx] at hy
    cases hz : prev[m]? with
    | none => simp [hz] at hy
    | some z =>
      simp only [hz, Option.map_some', Option.some.injEq] at hy
      subst hy
      have hzs := (hs.2 _ _ hp).2 m z hz
      simp only [List.length_mapIdx]
      omega

theorem Net.backPropWith_eq (sqrt : R → R) (eta alpha : R) (net : Net R)
    (topology : List Nat) (targetVals : List R) (hs : net.Shaped topology)
    (ht : 2 ≤ topology.length)
    (htl : topology.getD (topology.length - 1) 0 ≤ targetVals.length) :
    net.backPropWith sqrt eta alpha targetVals
      = .ok (net.backPropSpec sqrt eta alpha targetVals) := by
  obtain ⟨hlast0, hlastlt, hlasteq⟩ := hs.last_lt ht
  obtain ⟨ol, hol⟩ := getElem?_some_of_lt hlastlt
  have hol' : net.m_layers[net.m_layers.length - 1]? = some ol := hol
  have hszo := (hs.2 _ _ hol).1
  rw [hlasteq] at hszo
  have hback : back net.m_layers = .ok ol := by
    rw [back_eq_idx] ; exact idx_of_getElem? hol
  unfold Net.backPropWith
  rw [hback]
  simp only [bind, Except.bind]
  rw [sizeMinusOne_of_pos (by omega)]
  simp only []
  rw [forUp_sum _ (fun n => (targetVals.getD n 0 - net.outputVal net.last n)
        * (targetVals.getD n 0 - net.outputVal net.last n))]
  · simp only []
    rw [forUp_lift_back _ _ ol hol',
      forUp_modifyAt _ (fun n neuron => neuron.calcOutputGradients (targetVals.getD n 0))
        _ _ (by omega)]
    · simp only [bind, Except.bind, pure, Except.pure]
      have hG0 : net.m_layers.set (net.m_layers.length - 1) (ol.mapIdx fun i x =>
          if i < ol.length - 1 then x.calcOutputGradients (targetVals.getD i 0) else x)
          = net.gradientStage targetVals (net.m_layers.length - 2) := by
        apply set_eq_mapIdx
        · intro L hL
          cases hx : net.m_layers[L]? with
          | none => rfl
          | some x =>
            have := lt_of_getElem?_some hx
            simp only [Option.map_some', Option.some.injEq]
            rw [if_neg (by omega)]
        · rfl
        · intro x hx
          rw [hol'] at hx ; cases hx
          rw [if_pos (by omega)]
          apply mapIdx_congr_getElem?
          intro j y hy
          have hlast : net.m_layers.length - 1 = net.last := rfl
          rw [hlast, Net.newGradient_output net targetVals j hlast0, Net.layerSize_eq hol,
            Net.outputVal_eq hol hy, Net.gradient_eq hol hy]
          by_cases hj : j < ol.length - 1
          · have : j + 1 < ol.length := by omega
            simp [hj, this, Neuron.calcOutputGradients]
          · have : ¬ j + 1 < ol.length := by omega
            simp [hj, this]
      rw [hG0]
      have hGlen : ∀ i, (net.gradientStage targetVals i).length = net.m_layers.length := by
        intro i ; simp [Net.gradientStage]
      have hUlen : ∀ i,
          (net.updateStage eta alpha targetVals i).length = net.m_layers.length := by
        intro i ; simp [Net.updateStage]
      have hlen2 : 2 ≤ net.m_layers.length := by rw [hs.1] ; exact ht
      rw [hGlen, if_neg (by omega), forDown_steps _ (net.gradientStage targetVals)]
      · simp only []
        have hGU : net.gradientStage targetVals 0
            = net.updateStage eta alpha targetVals (net.m_layers.length - 1) := by
          apply mapIdx_congr_getElem?
          intro L layer hL
          have hLlt := lt_of_getElem?_some hL
          by_cases hL0 : 0 < L
          · rw [if_pos hL0]
            apply mapIdx_congr_getElem?
            intro p x _
            by_cases hLl : net.m_layers.length - 1 ≤ L
            · rw [if_pos hLl, mapIdx_eq_self]
              intro j c _
              apply Net.newConnection_of_not
              have : net.layerSize (L + 1) = 0 := by
                simp [Net.layerSize, List.getElem?_eq_none (by omega : net.m_layers.length ≤ L + 1)]
              omega
            · rw [if_neg hLl]
          · rw [if_neg hL0]
            have hL00 : L = 0 := by omega
            subst hL00
            symm
            apply mapIdx_eq_self
            intro p x hx
            have hc : ¬ (0 < 0 ∧ 0 ≤ net.last) := by omega
            rw [if_neg (by omega)]
            simp only [Net.newGradient, hc, if_false, Net.gradient_eq hL hx]
        rw [hGU, hUlen, forDown_steps _ (net.updateStage eta alpha targetVals)]
        · simp only [Net.backPropSpec, Net.newError, Net.layerSize_eq hol, zero_lit, zero_add]
          congr 2
          apply mapIdx_congr_getElem?
          intro L layer _
          apply mapIdx_congr_getElem?
          intro p x _
          simp [Net.backPropNeuron]
        · intro i hi
          obtain ⟨prev, hp⟩ := getElem?_some_of_lt (by omega : i < net.m_layers.length)
          obtain ⟨layer0, hl0⟩ := getElem?_some_of_lt (by omega : i + 1 < net.m_layers.length)
          have hszl := (hs.2 _ _ hl0).1
          obtain ⟨lay, hlay⟩ : ∃ lay : Layer R, lay = layer0.mapIdx fun p neuron =>
              { neuron with
                m_gradient := net.newGradient targetVals (i + 1) p
                m_outputWeights := neuron.m_outputWeights.mapIdx
                  (net.newConnection eta alpha targetVals (i + 1) p) } := ⟨_, rfl⟩
          have h1 : (net.updateStage eta alpha targetVals (i + 1))[i + 1]? = some lay := by
            simp [Net.updateStage, hl0, hlay]
          have hlaylen : lay.length = layer0.length := by simp [hlay]
          have h2 : (net.updateStage eta alpha targetVals (i + 1))[i]?
              = some (prev.mapIdx fun p neuron =>
                  { neuron with m_gradient := net.newGradient targetVals i p }) := by
            simp [Net.updateStage, hp]
          rw [idx_of_getElem? h1]
          simp only []
          rw [sizeMinusOne_of_pos (by omega)]
          simp only [Nat.add_sub_cancel]
          rw [forUp_lift _ _ i _ h2,
            Net.update_step eta alpha net topology targetVals hs hp hl0 hlaylen ?_ _ ?_]
          · simp only [bind, Except.bind, pure, Except.pure]
            congr 1
            apply set_eq_mapIdx
            · intro L hL
              simp only [Net.updateStage, List.getElem?_mapIdx]
              have hiff : (i + 1 ≤ L) ↔ (i ≤ L) := by omega
              simp only [hiff]
            · exact hUlen _
            · intro x hx
              rw [hp] at hx ; cases hx
              simp
          · intro n x hx
            rw [hlay] at hx
            simp only [List.getElem?_mapIdx] at hx
            cases hz : layer0[n]? with
            | none => simp [hz] at hx
            | some z =>
              simp only [hz, Option.map_some', Option.some.injEq] at hx
              subst hx
              exact ⟨((hs.2 _ _ hl0).2 n z hz).1, rfl⟩
          · intro n prevLayer
            rfl
      · intro i hi
        obtain ⟨layer, hl⟩ := getElem?_some_of_lt (by omega : i + 1 < net.m_layers.length)
        obtain ⟨next, hn⟩ := getElem?_some_of_lt (by omega : i + 2 < net.m_layers.length)
        have h1 : (net.gradientStage targetVals (i + 1))[i + 1 + 1]?
            = some (next.mapIdx fun j neuron =>
                { neuron with m_gradient := net.newGradient targetVals (i + 2) j }) := by
          simp [Net.gradientStage, hn]
        have h2 : (net.gradientStage targetVals (i + 1))[i + 1]? = some layer := by
          simp [Net.gradientStage, hl]
        rw [idx_of_getElem? h1, idx_of_getElem? h2]
        simp only []
        rw [forUp_lift _ _ (i + 1) _ h2,
          Net.hiddenLayer_step net topology targetVals hs (by unfold Net.last ; omega) hl hn]
        simp only [bind, Except.bind, pure, Except.pure]
        congr 1
        apply set_eq_mapIdx
        · intro L hL
          simp only [Net.gradientStage, List.getElem?_mapIdx]
          have hiff : (i + 1 < L) ↔ (i < L) := by omega
          simp only [hiff]
        · exact hGlen _
        · intro x hx
          rw [hl] at hx ; cases hx
          simp
    · intro n x hn _
      have : n < targetVals.length := by omega
      simp [idx_of_lt this, List.getElem?_eq_getElem this, pure, Except.pure]
  · intro n acc hn
    have : n < targetVals.length := by omega
    obtain ⟨x, hx⟩ := getElem?_some_of_lt (by omega : n < ol.length)
    simp [idx_of_lt this, idx_of_getElem? hx, List.getElem?_eq_getElem this, pure, Except.pure,
      Net.outputVal_eq hol hx, Neuron.getOutputVal]

theorem Net.backPropSpec_neuron? (sqrt : R → R) (eta alpha : R) (net : Net R)
    (targetVals : List R) (L p : Nat) :
    (net.backPropSpec sqrt eta alpha targetVals).neuron? L p
      = (net.neuron? L p).map (net.backPropNeuron eta alpha targetVals L p) := by
  simp only [Net.neuron?, Net.backPropSpec, List.getElem?_mapIdx]
  cases net.m_layers[L]? with
  | none => rfl
  | some layer => simp

theorem Net.backPropSpec_outputVal (sqrt : R → R) (eta alpha : R) (net : Net R)
    (targetVals : List R) (L p : Nat) :
    (net.backPropSpec sqrt eta alpha targetVals).outputVal L p = net.outputVal L p := by
  simp only [Net.outputVal, Net.backPropSpec_neuron?]
  cases net.neuron? L p with
  | none => rfl
  | some neuron => rfl

theorem Net.backPropSpec_gradient (sqrt : R → R) (eta alpha : R) (net : Net R)
    (targetVals : List R) {L p : Nat} {layer : Layer R} (hL : net.m_layers[L]? = some layer)
    (hp : p < layer.length) :
    (net.backPropSpec sqrt eta alpha targetVals).gradient L p
      = net.newGradient targetVals L p := by
  obtain ⟨x, hx⟩ := getElem?_some_of_lt hp
  simp [Net.gradient, Net.backPropSpec_neuron?, Net.neuron?_eq hL, hx, Net.backPropNeuron]

theorem Net.backPropSpec_connection? (sqrt : R → R) (eta alpha : R) (net : Net R)
    (targetVals : List R) (L p j : Nat) :
    (net.backPropSpec sqrt eta alpha targetVals).connection? L p j
      = (net.connection? L p j).map (net.newConnection eta alpha targetVals L p j) := by
  simp only [Net.connection?, Net.backPropSpec_neuron?]
  cases net.neuron? L p with
  | none => rfl
  | some neuron => simp [Net.backPropNeuron]

/-- A connection between two non-bias neurons after `Net.backPropWith`. -/
theorem Net.backPropSpec_updated (sqrt : R → R) (eta alpha : R) (net : Net R)
    (targetVals : List R) {L p j : Nat} {c : Connection R}
    (hc : net.connection? L p j = some c)
    (hp : p + 1 < net.layerSize L) (hj : j + 1 < net.layerSize (L + 1)) :
    (net.backPropSpec sqrt eta alpha targetVals).deltaWeight L p j
        = eta * net.outputVal L p * net.newGradient targetVals (L + 1) j
          + alpha * net.deltaWeight L p j ∧
    (net.backPropSpec sqrt eta alpha targetVals).weight L p j
        = net.weight L p j + (eta * net.outputVal L p * net.newGradient targetVals (L + 1) j
          + alpha * net.deltaWeight L p j) := by
  simp [Net.deltaWeight, Net.weight, Net.backPropSpec_connection?, hc, Net.newConnection, hp, hj]

/-- A connection that starts or ends at the last neuron of its layer after
`Net.backPropWith`. -/
theorem Net.backPropSpec_untouched (sqrt : R → R) (eta alpha : R) (net : Net R)
    (targetVals : List R) {L p j : Nat}
    (h : ¬ (p + 1 < net.layerSize L ∧ j + 1 < net.layerSize (L + 1))) :
    (net.backPropSpec sqrt eta alpha targetVals).connection? L p j
      = net.connection? L p j := by
  rw [Net.backPropSpec_connection?]
  cases net.connection? L p j with
  | none => rfl
  | some c => simp [Net.newConnection_of_not eta alpha net targetVals c h]

theorem Net.backPropSpec_shaped (sqrt : R → R) (eta alpha : R) (net : Net R)
    (targetVals : List R) (topology : List Nat) (hs : net.Shaped topology) :
    (net.backPropSpec sqrt eta alpha targetVals).Shaped topology := by
  refine ⟨by simp [Net.backPropSpec, hs.1], ?_⟩
  intro L layer hL
  simp only [Net.backPropSpec, List.getElem?_mapIdx] at hL
  cases h0 : net.m_layers[L]? with
  | none => simp [h0] at hL
  | some l0 =>
    simp only [h0, Option.map_some', Option.some.injEq] at hL
    subst hL
    refine ⟨by simp [(hs.2 L l0 h0).1], ?_⟩
    intro j neuron hj
    simp only [List.getElem?_mapIdx] at hj
    cases h1 : l0[j]? with
    | none => simp [h1] at hj
    | some n0 =>
      simp only [h1, Option.map_some', Option.some.injEq] at hj
      subst hj
      have := (hs.2 L l0 h0).2 j n0 h1
      simp [Net.backPropNeuron, this]

/-- With fewer than two layers `Net.backPropWith` indexes `m_layers` past the end. -/
theorem Net.backPropWith_short (sqrt : R → R) (eta alpha : R) (net net' : Net R)
    (targetVals : List R) (hlen : net.m_layers.length < 2) :
    net.backPropWith sqrt eta alpha targetVals ≠ .ok net' := by
  intro h
  unfold Net.backPropWith at h
  cases hb : back net.m_layers with
  | error e => simp [hb, bind, Except.bind] at h
  | ok ol =>
    cases hsz : sizeMinusOne ol with
    | error e => simp [hb, hsz, bind, Except.bind] at h
    | ok numOutputs =>
      simp only [hb, hsz, bind, Except.bind] at h
      split at h
      · cases h
      · split at h
        · cases h
        · next _ _ ls hls =>
          have hl : ls.length = net.m_layers.length := by
            refine forUp_invariant _ (fun s => s.length = net.m_layers.length) ?_ _ _ _ rfl hls
            intro i s t hs hst
            rw [modifyBack_eq_modifyAt] at hst
            rw [modifyAt_length hst, hs]
          rw [if_pos (by omega)] at h
          cases h

end Backward

section Construction

variable {R : Type} [Field R]

theorem modifyBack_append_singleton {α : Type} (v : List α) (x : α) (f : α → Except Err α) :
    modifyBack (v ++ [x]) f = (f x >>= fun y => pure (v ++ [y])) := by
  rw [modifyBack_eq_modifyAt, modifyAt,
    idx_of_getElem? (by simp : (v ++ [x])[(v ++ [x]).length - 1]? = some x)]
  simp only [bind, Except.bind]
  cases f x with
  | error e => rfl
  | ok y => simp [pure, Except.pure]

theorem Neuron.new_connections_eq (RAND_MAX : Nat) (rand : Nat → Nat) (outputVal gradient : R)
    (numOutputs myIndex k : Nat) :
    Neuron.new RAND_MAX rand outputVal gradient numOutputs myIndex k
      = .ok (Neuron.newSpec RAND_MAX rand outputVal gradient numOutputs myIndex k,
          k + numOutputs) := by
  unfold Neuron.new
  rw [forUp_steps_from _ (fun c => ((List.range c).map fun c =>
      ({ weight := Neuron.randomWeight RAND_MAX (rand (k + c)), deltaWeight := 0 } :
        Connection R), k + c)) numOutputs ([], k) rfl]
  · rfl
  · intro c _
    simp only [modifyBack_append_singleton, bind, Except.bind, pure, Except.pure,
      List.range_succ, List.map_append, List.map_singleton]
    rfl

theorem idx_eq_getD {v : List Nat} {i : Nat} (h : i < v.length) :
    idx v i = .ok (v.getD i 0) := by
  rw [idx_of_lt h]
  simp [List.getD, List.getElem?_eq_getElem h]

theorem Net.new_eq (RAND_MAX : Nat) (rand : Nat → Nat) (u : Uninit R) (topology : List Nat) :
    Net.new RAND_MAX rand u topology = .ok (Net.newSpec RAND_MAX rand u topology) := by
  unfold Net.new
  simp only []
  rw [forUp_steps_from _ (fun n =>
      ((List.range n).map (Net.newLayerSpec RAND_MAX rand u topology),
        Net.randBase topology n)) topology.length ([], 0) rfl]
  · rfl
  · intro L hL
    have hp0 : L = topology.length - 1 →
        (pure 0 : Except Err Nat) = .ok (topology.getD (L + 1) 0) := by
      intro h
      simp [List.getD, List.getElem?_eq_none (by omega : topology.length ≤ L + 1)]
      rfl
    simp only []
    by_cases h : L = topology.length - 1
    all_goals
      first
      | rw [if_pos h, hp0 h]
      | rw [if_neg h, idx_eq_getD (by omega : L + 1 < topology.length)]
    all_goals
      rw [idx_eq_getD hL]
      simp only [bind, Except.bind]
      rw [forUp_steps_from _ (fun m =>
          ((List.range L).map (Net.newLayerSpec RAND_MAX rand u topology)
            ++ [(List.range m).map fun j =>
              Neuron.newSpec RAND_MAX rand (u.outputVal L j) (u.gradient L j)
                (topology.getD (L + 1) 0) j
                (Net.randBase topology L + j * topology.getD (L + 1) 0)],
            Net.randBase topology L + m * topology.getD (L + 1) 0))
          (topology.getD L 0 + 1) _ (by simp)]
      · simp only [List.range_succ, List.map_append, List.map_singleton,
          modifyBack_append_singleton, bind, Except.bind, pure, Except.pure]
        congr 2
        · congr 2
          simp only [Net.newLayerSpec, List.range_succ, List.map_append, List.map_singleton]
          congr 1
          · apply List.map_congr_left
            intro j hj
            rw [List.mem_range] at hj
            rw [if_neg (by omega)]
      · intro m _
        simp only [Neuron.new_connections_eq, modifyBack_append_singleton, bind, Except.bind, pure,
          Except.pure, List.range_succ, List.map_append, List.map_singleton]
        congr 2
        ring

theorem Net.newSpec_layer (RAND_MAX : Nat) (rand : Nat → Nat) (u : Uninit R)
    (topology : List Nat) {L : Nat} {layer : Layer R}
    (h : (Net.newSpec RAND_MAX rand u topology).m_layers[L]? = some layer) :
    L < topology.length ∧ layer = Net.newLayerSpec RAND_MAX rand u topology L := by
  have hlt := lt_of_getElem?_some h
  simp only [Net.newSpec, List.length_map, List.length_range] at hlt
  refine ⟨hlt, ?_⟩
  simp only [Net.newSpec, List.getElem?_map, List.getElem?_range hlt, Option.map_some',
    Option.some.injEq] at h
  exact h.symm

theorem Net.newLayerSpec_neuron (RAND_MAX : Nat) (rand : Nat → Nat) (u : Uninit R)
    (topology : List Nat) {L j : Nat} {neuron : Neuron R}
    (h : (Net.newLayerSpec RAND_MAX rand u topology L)[j]? = some neuron) :
    j < topology.getD L 0 + 1 ∧
    neuron = Neuron.newSpec RAND_MAX rand
      (if j = topology.getD L 0 then 1.0 else u.outputVal L j) (u.gradient L j)
      (topology.getD (L + 1) 0) j (Net.randBase topology L + j * topology.getD (L + 1) 0) := by
  have hlt := lt_of_getElem?_some h
  simp only [Net.newLayerSpec, List.length_map, List.length_range] at hlt
  refine ⟨hlt, ?_⟩
  simp only [Net.newLayerSpec, List.getElem?_map, List.getElem?_range hlt, Option.map_some',
    Option.some.injEq] at h
  exact h.symm

theorem Net.newSpec_shaped (RAND_MAX : Nat) (rand : Nat → Nat) (u : Uninit R)
    (topology : List Nat) : (Net.newSpec RAND_MAX rand u topology).Shaped topology := by
  refine ⟨by simp [Net.newSpec], ?_⟩
  intro L layer hL
  obtain ⟨_, rfl⟩ := Net.newSpec_layer RAND_MAX rand u topology hL
  refine ⟨by simp [Net.newLayerSpec], ?_⟩
  intro j neuron hj
  obtain ⟨_, rfl⟩ := Net.newLayerSpec_neuron RAND_MAX rand u topology hj
  simp [Neuron.newSpec]

end Construction

section Invariant

variable {R : Type} [Field R]

theorem Net.biasOne_iff (net : Net R) :
    net.BiasOne ↔ ∀ (L : Nat) (layer : Layer R), net.m_layers[L]? = some layer →
      ∃ bias, layer[layer.length - 1]? = some bias ∧ bias.m_outputVal = 1 := by
  unfold Net.BiasOne
  simp only [List.getLast?_eq_getElem?, one_lit]
  constructor
  · intro h L layer hL
    exact h layer (List.getElem?_mem hL)
  · intro h layer hmem
    obtain ⟨L, hL⟩ := List.mem_iff_getElem?.mp hmem
    exact h L layer hL

theorem Net.newSpec_biasOne (RAND_MAX : Nat) (rand : Nat → Nat) (u : Uninit R)
    (topology : List Nat) : (Net.newSpec RAND_MAX rand u topology).BiasOne := by
  rw [Net.biasOne_iff]
  intro L layer hL
  obtain ⟨_, rfl⟩ := Net.newSpec_layer RAND_MAX rand u topology hL
  have hlen : (Net.newLayerSpec RAND_MAX rand u topology L).length = topology.getD L 0 + 1 := by
    simp [Net.newLayerSpec]
  obtain ⟨x, hx⟩ := getElem?_some_of_lt (by omega :
    (Net.newLayerSpec RAND_MAX rand u topology L).length - 1
      < (Net.newLayerSpec RAND_MAX rand u topology L).length)
  refine ⟨x, hx, ?_⟩
  obtain ⟨_, rfl⟩ := Net.newLayerSpec_neuron RAND_MAX rand u topology hx
  simp [Neuron.newSpec, hlen, one_lit]

theorem Net.feedForwardSpec_biasOne (tanh : R → R) (net : Net R) (topology : List Nat)
    (inputVals : List R) (hs : net.Shaped topology)
    (hin : inputVals.length = topology.getD 0 0) (hb : net.BiasOne) :
    (net.feedForwardSpec tanh inputVals).BiasOne := by
  rw [Net.biasOne_iff] at hb ⊢
  intro L layer hL
  simp only [Net.feedForwardSpec, List.getElem?_mapIdx] at hL
  cases h0 : net.m_layers[L]? with
  | none => simp [h0] at hL
  | some l0 =>
    simp only [h0, Option.map_some', Option.some.injEq] at hL
    subst hL
    obtain ⟨bias, hbias, hone⟩ := hb L l0 h0
    have hsz := (hs.2 L l0 h0).1
    refine ⟨bias.setOutputVal (net.activation tanh inputVals L (l0.length - 1)), ?_, ?_⟩
    · simp [Net.forwardLayer, hbias]
    · show net.activation tanh inputVals L (l0.length - 1) = 1
      rw [← hone, ← Net.outputVal_eq h0 hbias]
      cases L with
      | zero =>
        have : ¬ l0.length - 1 < inputVals.length := by omega
        simp [Net.activation, this]
      | succ K =>
        have : ¬ l0.length - 1 + 1 < net.layerSize (K + 1) := by
          rw [Net.layerSize_eq h0] ; omega
        simp [Net.activation, this]

theorem Net.backPropSpec_biasOne (sqrt : R → R) (eta alpha : R) (net : Net R)
    (targetVals : List R) (hb : net.BiasOne) :
    (net.backPropSpec sqrt eta alpha targetVals).BiasOne := by
  rw [Net.biasOne_iff] at hb ⊢
  intro L layer hL
  simp only [Net.backPropSpec, List.getElem?_mapIdx] at hL
  cases h0 : net.m_layers[L]? with
  | none => simp [h0] at hL
  | some l0 =>
    simp only [h0, Option.map_some', Option.some.injEq] at hL
    subst hL
    obtain ⟨bias, hbias, hone⟩ := hb L l0 h0
    refine ⟨net.backPropNeuron eta alpha targetVals L (l0.length - 1) bias, ?_, hone⟩
    simp [hbias]

/-- A valid call keeps shape and bias outputs, and succeeds on two or more layers. -/
theorem Net.call_invariant (tanh sqrt : R → R) (net : Net R) (topology : List Nat)
    (c : Call R) (hs : net.Shaped topology) (hb : net.BiasOne) (hv : c.Valid topology) :
    (∀ net', net.call tanh sqrt c = .ok net' → net'.Shaped topology ∧ net'.BiasOne) ∧
    (2 ≤ topology.length → ∃ net', net.call tanh sqrt c = .ok net') := by
  cases c with
  | feedForward inputVals =>
    by_cases ht : topology = []
    · subst ht
      have hnil : net.m_layers = [] := List.length_eq_zero.mp hs.1
      constructor
      · intro net' h
        simp [Net.call, Net.feedForward, hnil, idx, bind, Except.bind] at h
      · intro h2
        simp at h2
    · have heq := Net.feedForward_eq tanh net topology inputVals hs ht hv
      constructor
      · intro net' h
        rw [Net.call, heq] at h
        cases h
        exact ⟨Net.feedForwardSpec_shaped tanh net inputVals topology hs,
          Net.feedForwardSpec_biasOne tanh net topology inputVals hs hv hb⟩
      · intro _
        exact ⟨_, heq⟩
  | backProp targetVals =>
    by_cases ht : 2 ≤ topology.length
    · have hv' : topology.getD (topology.length - 1) 0 ≤ targetVals.length := by
        have : targetVals.length = topology.getD (topology.length - 1) 0 := hv
        omega
      have heq := Net.backPropWith_eq sqrt Neuron.eta Neuron.alpha net topology targetVals
        hs ht hv'
      constructor
      · intro net' h
        rw [Net.call, Net.backProp, heq] at h
        cases h
        exact ⟨Net.backPropSpec_shaped sqrt _ _ net targetVals topology hs,
          Net.backPropSpec_biasOne sqrt _ _ net targetVals hb⟩
      · intro _
        exact ⟨_, heq⟩
    · constructor
      · intro net' h
        exact absurd h (Net.backPropWith_short sqrt _ _ net net' targetVals
          (by rw [hs.1] ; omega))
      · intro h2
        exact absurd h2 ht

/-- A sequence of valid calls keeps shape and bias outputs, and succeeds on two or more
layers. -/
theorem Net.run_invariant (tanh sqrt : R → R) (topology : List Nat) (calls : List (Call R))
    (net : Net R) (hs : net.Shaped topology) (hb : net.BiasOne)
    (hv : ∀ c ∈ calls, c.Valid topology) :
    (∀ net', net.run tanh sqrt calls = .ok net' → net'.Shaped topology ∧ net'.BiasOne) ∧
    (2 ≤ topology.length → ∃ net', net.run tanh sqrt calls = .ok net') := by
  induction calls generalizing net with
  | nil =>
    constructor
    · intro net' h
      cases h
      exact ⟨hs, hb⟩
    · intro _
      exact ⟨net, rfl⟩
  | cons c cs ih =>
    have hc := Net.call_invariant tanh sqrt net topology c hs hb (hv c (List.mem_cons_self _ _))
    have hcs : ∀ c' ∈ cs, c'.Valid topology := fun c' h => hv c' (List.mem_cons_of_mem _ h)
    constructor
    · intro net' h
      simp only [Net.run, bind, Except.bind] at h
      cases hcall : net.call tanh sqrt c with
      | error e => rw [hcall] at h ; cases h
      | ok mid =>
        rw [hcall] at h
        obtain ⟨hms, hmb⟩ := hc.1 mid hcall
        exact (ih mid hms hmb hcs).1 net' h
    · intro h2
      obtain ⟨mid, hcall⟩ := hc.2 h2
      obtain ⟨hms, hmb⟩ := hc.1 mid hcall
      obtain ⟨net', hrun⟩ := (ih mid hms hmb hcs).2 h2
      exact ⟨net', by simp only [Net.run, bind, Except.bind, hcall] ; exact hrun⟩

theorem Net.getResults_eq (net : Net R) (topology : List Nat) (resultVals : List R)
    (hs : net.Shaped topology) (ht : topology ≠ []) :
    net.getResults resultVals
      = .ok ((List.range (topology.getD (topology.length - 1) 0)).map fun j =>
          net.outputVal (topology.length - 1) j) := by
  have hlen : 0 < topology.length := List.length_pos.mpr ht
  obtain ⟨ol, hol⟩ := getElem?_some_of_lt
    (by rw [hs.1] ; omega : topology.length - 1 < net.m_layers.length)
  have hsz := (hs.2 _ _ hol).1
  have hback : back net.m_layers = .ok ol := by
    rw [back_eq_idx, hs.1] ; exact idx_of_getElem? hol
  unfold Net.getResults
  rw [hback]
  simp only [bind, Except.bind]
  rw [sizeMinusOne_of_pos (by omega)]
  simp only []
  rw [forUp_steps_from _ (fun n => (List.range n).map fun j =>
      net.outputVal (topology.length - 1) j) _ (clear resultVals) rfl]
  · rw [hsz, Nat.add_sub_cancel]
  · intro n hn
    obtain ⟨x, hx⟩ := getElem?_some_of_lt (by omega : n < ol.length)
    simp [idx_of_getElem? hx, pure, Except.pure, List.range_succ, Neuron.getOutputVal,
      Net.outputVal_eq hol hx]

theorem Net.gradientFrom_congr (net : Net R) (t t' : List R)
    (h : ∀ j, j + 1 < net.layerSize net.last → t.getD j 0 = t'.getD j 0) (d j : Nat) :
    net.gradientFrom t d j = net.gradientFrom t' d j := by
  induction d generalizing j with
  | zero =>
    simp only [Net.gradientFrom]
    by_cases hj : j + 1 < net.layerSize net.last
    · rw [if_pos hj, if_pos hj, h j hj]
    · rw [if_neg hj, if_neg hj]
  | succ d ih => simp only [Net.gradientFrom, ih]

/-- The closed form of `Net.backPropWith` reads only the targets of the non-bias output
neurons. -/
theorem Net.backPropSpec_congr (sqrt : R → R) (eta alpha : R) (net : Net R) (t t' : List R)
    (h : ∀ j, j + 1 < net.layerSize net.last → t.getD j 0 = t'.getD j 0) :
    net.backPropSpec sqrt eta alpha t = net.backPropSpec sqrt eta alpha t' := by
  have hg : ∀ L j, net.newGradient t L j = net.newGradient t' L j := by
    intro L j
    simp only [Net.newGradient, Net.gradientFrom_congr net t t' h]
  have hc : ∀ L p j c, net.newConnection eta alpha t L p j c
      = net.newConnection eta alpha t' L p j c := by
    intro L p j c
    simp only [Net.newConnection, hg]
  have he : net.newError sqrt t = net.newError sqrt t' := by
    unfold Net.newError
    congr 2
    apply Finset.sum_congr rfl
    intro n hn
    rw [Finset.mem_range] at hn
    rw [h n (by omega)]
  have hcf : ∀ L p, net.newConnection eta alpha t L p = net.newConnection eta alpha t' L p := by
    intro L p
    funext j c
    exact hc L p j c
  have hn : ∀ L, net.backPropNeuron eta alpha t L = net.backPropNeuron eta alpha t' L := by
    intro L
    funext p neuron
    simp only [Net.backPropNeuron, hg, hcf]
  simp only [Net.backPropSpec, he, hn]

end Invariant

section Ordered

variable {K : Type} [LinearOrderedField K]

theorem Neuron.randomWeight_bounds (RAND_MAX r : Nat) (hr : r ≤ RAND_MAX) :
    0 ≤ (Neuron.randomWeight RAND_MAX r : K) ∧ (Neuron.randomWeight RAND_MAX r : K) ≤ 1 := by
  unfold Neuron.randomWeight
  constructor
  · exact div_nonneg (Nat.cast_nonneg r) (Nat.cast_nonneg RAND_MAX)
  · exact div_le_one_of_le₀ (Nat.cast_le.mpr hr) (Nat.cast_nonneg RAND_MAX)

end Ordered

section Sizes

variable {R : Type}

theorem Net.layerSize_of_le (net : Net R) {L : Nat} (h : net.m_layers.length ≤ L) :
    net.layerSize L = 0 := by
  simp [Net.layerSize, List.getElem?_eq_none h]

theorem Net.Shaped.layerSize_congr {net₁ net₂ : Net R} {topology : List Nat}
    (hs₁ : net₁.Shaped topology) (hs₂ : net₂.Shaped topology) (L : Nat) :
    net₁.layerSize L = net₂.layerSize L := by
  by_cases hL : L < topology.length
  · rw [hs₁.layerSize hL, hs₂.layerSize hL]
  · rw [Net.layerSize_of_le net₁ (by rw [hs₁.1] ; omega),
      Net.layerSize_of_le net₂ (by rw [hs₂.1] ; omega)]

theorem Net.neuron?_eq_none (net : Net R) {L j : Nat} (h : ¬ j < net.layerSize L) :
    net.neuron? L j = none := by
  unfold Net.neuron?
  cases hl : net.m_layers[L]? with
  | none => rfl
  | some layer =>
    rw [Net.layerSize_eq hl] at h
    simp [List.getElem?_eq_none (by omega : layer.length ≤ j)]

theorem Net.setGradients_neuron? (net : Net R) (g : R) (L j : Nat) :
    (net.setGradients g).neuron? L j
      = (net.neuron? L j).map fun neuron => { neuron with m_gradient := g } := by
  simp only [Net.neuron?, Net.setGradients, List.getElem?_map]
  cases net.m_layers[L]? with
  | none => rfl
  | some layer => simp

theorem Net.setGradients_shaped (net : Net R) (g : R) (topology : List Nat)
    (hs : net.Shaped topology) : (net.setGradients g).Shaped topology := by
  refine ⟨by simp [Net.setGradients, hs.1], ?_⟩
  intro L layer hL
  simp only [Net.setGradients, List.getElem?_map] at hL
  cases h0 : net.m_layers[L]? with
  | none => simp [h0] at hL
  | some l0 =>
    simp only [h0, Option.map_some', Option.some.injEq] at hL
    subst hL
    refine ⟨by simp [(hs.2 L l0 h0).1], ?_⟩
    intro j neuron hj
    simp only [List.getElem?_map] at hj
    cases h1 : l0[j]? with
    | none => simp [h1] at hj
    | some n0 =>
      simp only [h1, Option.map_some', Option.some.injEq] at hj
      subst hj
      exact (hs.2 L l0 h0).2 j n0 h1

theorem Net.setGradients_connection? (net : Net R) (g : R) (L p j : Nat) :
    (net.setGradients g).connection? L p j = net.connection? L p j := by
  simp only [Net.connection?, Net.setGradients_neuron?]
  cases net.neuron? L p with
  | none => rfl
  | some neuron => rfl

end Sizes

section Determinism

variable {R : Type} [Field R]

theorem Net.outputVal_eq_zero (net : Net R) {L j : Nat} (h : ¬ j < net.layerSize L) :
    net.outputVal L j = 0 := by
  simp [Net.outputVal, Net.neuron?_eq_none net h]

theorem Net.feedForwardSpec_layerSize (tanh : R → R) (net : Net R) (inputVals : List R)
    (L : Nat) : (net.feedForwardSpec tanh inputVals).layerSize L = net.layerSize L := by
  simp only [Net.layerSize, Net.feedForwardSpec, List.getElem?_mapIdx]
  cases net.m_layers[L]? with
  | none => rfl
  | some layer => simp [Net.forwardLayer]

/-- The value a forward pass leaves in an existing neuron. -/
theorem Net.feedForwardSpec_outputVal_of_lt (tanh : R → R) (net : Net R)
    (inputVals : List R) {L j : Nat} (h : j < net.layerSize L) :
    (net.feedForwardSpec tanh inputVals).outputVal L j
      = net.activation tanh inputVals L j := by
  cases hl : net.m_layers[L]? with
  | none => simp [Net.layerSize, hl] at h
  | some layer =>
    rw [Net.layerSize_eq hl] at h
    exact Net.feedForwardSpec_outputVal tanh net inputVals hl h

/-- A forward pass rewrites the last neuron of a layer with the value it holds. -/
theorem Net.activation_last (tanh : R → R) (net : Net R) (inputVals : List R) {L j : Nat}
    (hin : inputVals.length + 1 = net.layerSize 0) (h : ¬ j + 1 < net.layerSize L) :
    net.activation tanh inputVals L j = net.outputVal L j := by
  cases L with
  | zero =>
    have : ¬ j < inputVals.length := by omega
    simp only [Net.activation, this, if_false]
  | succ K => simp only [Net.activation, h, if_false]

/-- The values of a forward pass depend on the network only through its layer sizes, its
weights and the outputs held by the last neuron of each layer. -/
theorem Net.activation_congr (tanh : R → R) (net₁ net₂ : Net R) (inputVals : List R)
    (hsize : ∀ L, net₁.layerSize L = net₂.layerSize L)
    (hw : ∀ L p j, net₁.weight L p j = net₂.weight L p j)
    (hout : ∀ L j, ¬ j + 1 < net₁.layerSize L → net₁.outputVal L j = net₂.outputVal L j)
    (hin : inputVals.length + 1 = net₁.layerSize 0) (L j : Nat) :
    net₁.activation tanh inputVals L j = net₂.activation tanh inputVals L j := by
  induction L generalizing j with
  | zero =>
    by_cases hj : j < inputVals.length
    · simp only [Net.activation, hj, if_true]
    · simp only [Net.activation, hj, if_false]
      exact hout 0 j (by omega)
  | succ M ih =>
    by_cases hj : j + 1 < net₁.layerSize (M + 1)
    · have hj' : j + 1 < net₂.layerSize (M + 1) := by rw [← hsize] ; exact hj
      simp only [Net.activation, hj, hj', if_true, hsize M]
      congr 1
      apply Finset.sum_congr rfl
      intro p _
      rw [ih p, hw]
    · have hj' : ¬ j + 1 < net₂.layerSize (M + 1) := by rw [← hsize] ; exact hj
      simp only [Net.activation, hj, hj', if_false]
      exact hout (M + 1) j hj

theorem Net.BiasOne.outputVal {net : Net R} {topology : List Nat} (hb : net.BiasOne)
    (hs : net.Shaped topology) {L : Nat} (hL : L < topology.length) :
    net.outputVal L (topology.getD L 0) = 1 := by
  rw [Net.biasOne_iff] at hb
  obtain ⟨layer, hl⟩ := getElem?_some_of_lt (by rw [hs.1] ; exact hL : L < net.m_layers.length)
  obtain ⟨bias, hbias, hone⟩ := hb L layer hl
  have hsz := (hs.2 L layer hl).1
  rw [hsz, Nat.add_sub_cancel] at hbias
  rw [Net.outputVal_eq hl hbias, hone]

/-- Two networks of one shape with the bias outputs at 1 hold the same output in the
last position of every layer, and beyond. -/
theorem Net.BiasOne.outputVal_congr {net₁ net₂ : Net R} {topology : List Nat}
    (hb₁ : net₁.BiasOne) (hb₂ : net₂.BiasOne) (hs₁ : net₁.Shaped topology)
    (hs₂ : net₂.Shaped topology) (L j : Nat) (h : ¬ j + 1 < net₁.layerSize L) :
    net₁.outputVal L j = net₂.outputVal L j := by
  by_cases hL : L < topology.length
  · rw [hs₁.layerSize hL] at h
    by_cases hj : j = topology.getD L 0
    · subst hj
      rw [hb₁.outputVal hs₁ hL, hb₂.outputVal hs₂ hL]
    · rw [Net.outputVal_eq_zero net₁ (by rw [hs₁.layerSize hL] ; omega),
        Net.outputVal_eq_zero net₂ (by rw [hs₂.layerSize hL] ; omega)]
  · rw [Net.outputVal_eq_zero net₁
        (by rw [Net.layerSize_of_le net₁ (by rw [hs₁.1] ; omega)] ; omega),
      Net.outputVal_eq_zero net₂
        (by rw [Net.layerSize_of_le net₂ (by rw [hs₂.1] ; omega)] ; omega)]

/-- A second forward pass with the same inputs changes nothing. -/
theorem Net.feedForwardSpec_idem (tanh : R → R) (net : Net R) (inputVals : List R)
    (hin : inputVals.length + 1 = net.layerSize 0) :
    (net.feedForwardSpec tanh inputVals).feedForwardSpec tanh inputVals
      = net.feedForwardSpec tanh inputVals := by
  have hact : ∀ L j, (net.feedForwardSpec tanh inputVals).activation tanh inputVals L j
      = net.activation tanh inputVals L j := by
    apply Net.activation_congr
    · exact Net.feedForwardSpec_layerSize tanh net inputVals
    · exact Net.feedForwardSpec_weight tanh net inputVals
    · intro L j h
      rw [Net.feedForwardSpec_layerSize] at h
      by_cases hj : j < net.layerSize L
      · rw [Net.feedForwardSpec_outputVal_of_lt tanh net inputVals hj,
          Net.activation_last tanh net inputVals hin h]
      · rw [Net.outputVal_eq_zero _ (by rw [Net.feedForwardSpec_layerSize] ; exact hj),
          Net.outputVal_eq_zero net hj]
    · rw [Net.feedForwardSpec_layerSize] ; exact hin
  have hlayers : (net.feedForwardSpec tanh inputVals).m_layers.mapIdx
      ((net.feedForwardSpec tanh inputVals).forwardLayer tanh inputVals)
      = net.m_layers.mapIdx (net.forwardLayer tanh inputVals) := by
    show (net.m_layers.mapIdx (net.forwardLayer tanh inputVals)).mapIdx _ = _
    apply mapIdx_mapIdx_congr
    intro L layer _
    unfold Net.forwardLayer
    apply mapIdx_mapIdx_congr
    intro j neuron _
    rw [hact]
    rfl
  show ({ (net.feedForwardSpec tanh inputVals) with
    m_layers := (net.feedForwardSpec tanh inputVals).m_layers.mapIdx
      ((net.feedForwardSpec tanh inputVals).forwardLayer tanh inputVals) } : Net R) = _
  rw [hlayers]
  rfl

/-- The gradients `Net.backProp` computes for the non-bias neurons do not depend on the
gradients stored before the call. -/
theorem Net.gradientFrom_indep (net₁ net₂ : Net R) (targetVals : List R)
    (hlast : net₁.last = net₂.last)
    (hsize : ∀ L, net₁.layerSize L = net₂.layerSize L)
    (hout : ∀ L j, net₁.outputVal L j = net₂.outputVal L j)
    (hw : ∀ L p j, net₁.weight L p j = net₂.weight L p j) (d j : Nat)
    (hj : j + 1 < net₁.layerSize (net₁.last - d)) :
    net₁.gradientFrom targetVals d j = net₂.gradientFrom targetVals d j := by
  induction d generalizing j with
  | zero =>
    have hj' : j + 1 < net₂.layerSize net₂.last := by
      rw [← hlast, ← hsize] ; exact hj
    simp only [Net.gradientFrom, hj', if_true]
    rw [if_pos (by simpa using hj), hout, hlast]
  | succ d ih =>
    simp only [Net.gradientFrom, ← hlast, ← hsize, ← hout]
    congr 1
    apply Finset.sum_congr rfl
    intro n hn
    rw [Finset.mem_range] at hn
    rw [hw, ih n (by omega)]

theorem Net.newGradient_indep (net₁ net₂ : Net R) (targetVals : List R)
    (hlast : net₁.last = net₂.last)
    (hsize : ∀ L, net₁.layerSize L = net₂.layerSize L)
    (hout : ∀ L j, net₁.outputVal L j = net₂.outputVal L j)
    (hw : ∀ L p j, net₁.weight L p j = net₂.weight L p j) {L j : Nat} (hL : 0 < L)
    (hLl : L ≤ net₁.last) (hj : j + 1 < net₁.layerSize L) :
    net₁.newGradient targetVals L j = net₂.newGradient targetVals L j := by
  have h₁ : 0 < L ∧ L ≤ net₁.last := ⟨hL, hLl⟩
  have h₂ : 0 < L ∧ L ≤ net₂.last := ⟨hL, hlast ▸ hLl⟩
  simp only [Net.newGradient, h₁, h₂, and_self, if_true, ← hlast]
  apply Net.gradientFrom_indep net₁ net₂ targetVals hlast hsize hout hw
  have : net₁.last - (net₁.last - L) = L := by omega
  rw [this]
  exact hj

theorem Net.setGradients_outputVal (net : Net R) (g : R) (L j : Nat) :
    (net.setGradients g).outputVal L j = net.outputVal L j := by
  simp only [Net.outputVal, Net.setGradients_neuron?]
  cases net.neuron? L j with
  | none => rfl
  | some neuron => rfl

/-- `Net.run` is `Net.runWith` at the initial values of `Neuron::eta` and
`Neuron::alpha`. -/
theorem Net.run_eq_runWith (tanh sqrt : R → R) (net : Net R) (calls : List (Call R)) :
    net.run tanh sqrt calls = net.runWith tanh sqrt Neuron.eta Neuron.alpha calls := by
  induction calls generalizing net with
  | nil => rfl
  | cons c cs ih =>
    have hc : net.call tanh sqrt c = net.callWith tanh sqrt Neuron.eta Neuron.alpha c := by
      cases c <;> rfl
    simp only [Net.run, Net.runWith, hc, bind, Except.bind]
    cases net.callWith tanh sqrt Neuron.eta Neuron.alpha c with
    | error e => rfl
    | ok mid => exact ih mid

end Determinism
section Order

variable {R : Type} [Field R]

/-- The descending loop visits `hi, hi - 1, ..., 1` in this order. -/
theorem forDown_eq_foldlM {σ : Type} (body : Nat → σ → Except Err σ) (hi : Nat) (s : σ) :
    forDown body hi s = (List.iota hi).foldlM (fun s i => body i s) s := by
  induction hi generalizing s with
  | zero => rfl
  | succ n ih =>
    show body (n + 1) s >>= forDown body n = _
    rw [List.iota, List.foldlM_cons]
    congr 1
    funext s'
    exact ih s'

/-- The weight-update phase of `Net.backPropWith` is the descending loop over
`Net.updateLayerWeights`. -/
theorem Net.backPropWith_update_phase (sqrt : R → R) (eta alpha : R) (net : Net R)
    (targetVals : List R) :
    net.backPropWith sqrt eta alpha targetVals = (do
      let outputLayer ← back net.m_layers
      let numOutputs ← sizeMinusOne outputLayer
      let m_error : R := 0.0
      let m_error ← forUp (fun n m_error => do
        let delta := (← idx targetVals n) - (← idx outputLayer n).getOutputVal
        pure (m_error + delta * delta)) numOutputs m_error
      let m_error := m_error / (numOutputs : R)
      let m_error := sqrt m_error
      let m_recentAverageError :=
        (net.m_recentAverageError * net.m_recentAverageSmoothingFactor + m_error)
          / (net.m_recentAverageSmoothingFactor + 1.0)
      let m_layers ← forUp (fun n m_layers => modifyBack m_layers fun outputLayer =>
        modifyAt outputLayer n fun neuron => do
          pure (neuron.calcOutputGradients (← idx targetVals n))) numOutputs net.m_layers
      if m_layers.length < 2 then throw Err.outOfBounds
      let m_layers ← forDown (fun layerNum m_layers => do
        let nextLayer ← idx m_layers (layerNum + 1)
        let size := (← idx m_layers layerNum).length
        forUp (fun n m_layers => modifyAt m_layers layerNum fun hiddenLayer =>
          modifyAt hiddenLayer n fun neuron => neuron.calcHiddenGradients nextLayer)
          size m_layers)
        (m_layers.length - 2) m_layers
      let m_layers ← Net.updateWeightsInOrder eta alpha (List.iota (m_layers.length - 1))
        m_layers
      pure { net with
        m_layers := m_layers, m_error := m_error,
        m_recentAverageError := m_recentAverageError }) := by
  simp only [Net.updateWeightsInOrder, ← forDown_eq_foldlM]
  rfl

theorem Net.storedConnection_of_not (eta alpha : R) (net : Net R) {L p j : Nat}
    (c : Connection R) (h : ¬ (p + 1 < net.layerSize L ∧ j + 1 < net.layerSize (L + 1))) :
    net.storedConnection eta alpha L p j c = c := by
  simp only [Net.storedConnection, h, if_false]

/-- The inner loop of the update phase on one layer, reading the stored gradients: every
non-bias neuron of `layer` updates its incoming connections, which are stored in `prev`. -/
theorem Net.update_step_stored (eta alpha : R) (net : Net R) (topology : List Nat)
    (hs : net.Shaped topology) {i : Nat} {prev layer0 layer : Layer R}
    (hp : net.m_layers[i]? = some prev) (hl0 : net.m_layers[i + 1]? = some layer0)
    (hlen : layer.length = layer0.length)
    (hprop : ∀ n x, layer[n]? = some x →
      x.m_myIndex = n ∧ x.m_gradient = net.gradient (i + 1) n)
    (body : Nat → Layer R → Except Err (Layer R))
    (hbody : ∀ n prevLayer, body n prevLayer
      = (idx layer n >>= fun x => x.updateInputWeights eta alpha prevLayer)) :
    forUp body (layer.length - 1) prev
    = .ok (prev.mapIdx fun p neuron =>
        { neuron with
          m_outputWeights :=
            neuron.m_outputWeights.mapIdx (net.storedConnection eta alpha i p) }) := by
  have hszp := (hs.2 _ _ hp).1
  have hszl := (hs.2 _ _ hl0).1
  obtain ⟨P, hP⟩ : ∃ P : Nat → Layer R, P = fun n => prev.mapIdx fun p neuron =>
      { neuron with
        m_outputWeights := neuron.m_outputWeights.mapIdx fun j c =>
          if j < n then net.storedConnection eta alpha i p j c else c } := ⟨_, rfl⟩
  have hP0 : P 0 = prev := by
    rw [hP]
    apply mapIdx_eq_self
    intro p x _
    simp only [Nat.not_lt_zero, if_false]
    rw [mapIdx_eq_self (fun _ _ _ => rfl)]
  have hPn : P (layer.length - 1) = prev.mapIdx fun p neuron =>
      { neuron with
        m_outputWeights :=
          neuron.m_outputWeights.mapIdx (net.storedConnection eta alpha i p) } := by
    rw [hP]
    apply mapIdx_congr_getElem?
    intro p x _
    congr 1
    apply mapIdx_congr_getElem?
    intro j c _
    by_cases hj : j < layer.length - 1
    · simp [hj]
    · rw [if_neg hj, Net.storedConnection_of_not]
      rw [Net.layerSize_eq hl0]
      omega
  rw [← hPn]
  apply forUp_steps_from body P _ prev hP0
  intro n hn
  obtain ⟨x, hx⟩ := getElem?_some_of_lt (by omega : n < layer.length)
  obtain ⟨hxi, hxg⟩ := hprop n x hx
  have hPlen : (P n).length = prev.length := by simp [hP]
  rw [hbody, idx_of_getElem? hx]
  show x.updateInputWeights eta alpha (P n) = _
  rw [Neuron.updateInputWeights_eq eta alpha x (P n) (by omega)]
  · congr 1
    rw [hPlen]
    rw [hP]
    apply mapIdx_mapIdx_congr
    intro p y hy
    have hys := (hs.2 _ _ hp).2 p y hy
    by_cases hpb : p < prev.length - 1
    · simp only [hpb, if_true]
      congr 1
      apply mapIdx_mapIdx_congr
      intro j c _
      by_cases hj : j = n
      · subst hj
        have hcond : p + 1 < net.layerSize i ∧ j + 1 < net.layerSize (i + 1) := by
          rw [Net.layerSize_eq hp, Net.layerSize_eq hl0]
          omega
        simp [hxi, hxg, Net.storedConnection, hcond, Net.outputVal_eq hp hy]
      · have hiff : (j < n + 1) ↔ (j < n) := by omega
        simp only [hxi, hj, if_false, hiff]
    · simp only [hpb, if_false]
      congr 1
      apply mapIdx_congr_getElem?
      intro j c _
      rw [Net.storedConnection_of_not]
      · simp
      · rw [Net.layerSize_eq hp]
        omega
  · intro m y _ hy
    rw [hP] at hy
    simp only [List.getElem?_mapIdx] at hy
    cases hz : prev[m]? with
    | none => simp [hz] at hy
    | some z =>
      simp only [hz, Option.map_some', Option.some.injEq] at hy
      subst hy
      have hzs := (hs.2 _ _ hp).2 m z hz
      simp only [List.length_mapIdx]
      omega

theorem Net.updatedLayers_nil (eta alpha : R) (net : Net R) :
    net.updatedLayers eta alpha [] = net.m_layers := by
  unfold Net.updatedLayers
  apply mapIdx_eq_self
  intro L layer _
  apply mapIdx_eq_self
  intro p neuron _
  simp

/-- The layers that have been visited enter the closed form only as a set. -/
theorem Net.updatedLayers_congr (eta alpha : R) (net : Net R) {done done' : List Nat}
    (h : ∀ L, L ∈ done ↔ L ∈ done') :
    net.updatedLayers eta alpha done = net.updatedLayers eta alpha done' := by
  unfold Net.updatedLayers
  apply mapIdx_congr_getElem?
  intro L layer _
  simp only [h (L + 1)]

/-- One visit of the update loop, to a layer that has not been visited. -/
theorem Net.updateLayerWeights_step (eta alpha : R) (net : Net R) (topology : List Nat)
    (hs : net.Shaped topology) (done : List Nat) {i : Nat}
    (hi : i + 1 < net.m_layers.length) (hnd : i + 1 ∉ done) :
    Net.updateLayerWeights eta alpha (i + 1) (net.updatedLayers eta alpha done)
      = .ok (net.updatedLayers eta alpha ((i + 1) :: done)) := by
  obtain ⟨prev, hp⟩ := getElem?_some_of_lt (by omega : i < net.m_layers.length)
  obtain ⟨layer0, hl0⟩ := getElem?_some_of_lt hi
  have hszl := (hs.2 _ _ hl0).1
  obtain ⟨lay, hlay⟩ : ∃ lay : Layer R, lay = layer0.mapIdx fun p neuron =>
      { neuron with
        m_outputWeights :=
          if i + 1 + 1 ∈ done then
            neuron.m_outputWeights.mapIdx (net.storedConnection eta alpha (i + 1) p)
          else neuron.m_outputWeights } := ⟨_, rfl⟩
  have h1 : (net.updatedLayers eta alpha done)[i + 1]? = some lay := by
    simp [Net.updatedLayers, hl0, hlay]
  have hlaylen : lay.length = layer0.length := by simp [hlay]
  have h2 : (net.updatedLayers eta alpha done)[i]? = some prev := by
    rw [Net.updatedLayers, List.getElem?_mapIdx, hp]
    simp only [Option.map_some', hnd, if_false]
    congr 1
    exact mapIdx_eq_self (fun _ _ _ => rfl)
  unfold Net.updateLayerWeights
  rw [idx_of_getElem? h1]
  simp only [bind, Except.bind]
  rw [sizeMinusOne_of_pos (by omega)]
  simp only [Nat.add_sub_cancel]
  rw [forUp_lift _ _ i _ h2,
    Net.update_step_stored eta alpha net topology hs hp hl0 hlaylen ?_ _ ?_]
  · simp only [bind, Except.bind, pure, Except.pure]
    congr 1
    apply set_eq_mapIdx
    · intro L hL
      simp only [Net.updatedLayers, List.getElem?_mapIdx]
      have hiff : (L + 1 ∈ (i + 1) :: done) ↔ (L + 1 ∈ done) := by
        simp [List.mem_cons, hL]
      simp only [hiff]
    · simp [Net.updatedLayers]
    · intro x hx
      rw [hp] at hx ; cases hx
      simp
  · intro n x hx
    rw [hlay] at hx
    simp only [List.getElem?_mapIdx] at hx
    cases hz : layer0[n]? with
    | none => simp [hz] at hx
    | some z =>
      simp only [hz, Option.map_some', Option.some.injEq] at hx
      subst hx
      exact ⟨((hs.2 _ _ hl0).2 n z hz).1, (Net.gradient_eq hl0 hz).symm⟩
  · intro n prevLayer
    rfl

/-- Visiting layers that have not been visited, each once, in any order. -/
theorem Net.updateWeightsInOrder_eq (eta alpha : R) (net : Net R) (topology : List Nat)
    (hs : net.Shaped topology) (order done : List Nat) (hnd : order.Nodup)
    (hr : ∀ L ∈ order, 0 < L ∧ L < net.m_layers.length ∧ L ∉ done) :
    Net.updateWeightsInOrder eta alpha order (net.updatedLayers eta alpha done)
      = .ok (net.updatedLayers eta alpha (order ++ done)) := by
  induction order generalizing done with
  | nil => rfl
  | cons L rest ih =>
    obtain ⟨hL0, hLlt, hLd⟩ := hr L (List.mem_cons_self _ _)
    obtain ⟨i, rfl⟩ : ∃ i, L = i + 1 := ⟨L - 1, by omega⟩
    rw [Net.updateWeightsInOrder, List.foldlM_cons,
      Net.updateLayerWeights_step eta alpha net topology hs done hLlt hLd]
    have hn := List.nodup_cons.mp hnd
    have := ih ((i + 1) :: done) hn.2 (fun M hM => by
      obtain ⟨h0, h1, h2⟩ := hr M (List.mem_cons_of_mem _ hM)
      refine ⟨h0, h1, ?_⟩
      intro hmem
      rcases List.mem_cons.mp hmem with h | h
      · subst h
        exact hn.1 hM
      · exact h2 h)
    rw [Net.updateWeightsInOrder] at this
    show List.foldlM _ _ rest = _
    rw [this]
    congr 1
    apply Net.updatedLayers_congr
    intro M
    simp only [List.mem_append, List.mem_cons]
    tauto

end Order

section LoopInvariants

variable {α σ : Type}

/-- A loop whose iterations succeed and carry an invariant from each index to the next. -/
theorem forUp_inv (body : Nat → σ → Except Err σ) (P : Nat → σ → Prop) (n : Nat) (s : σ)
    (h0 : P 0 s) (hstep : ∀ i s, i < n → P i s → ∃ t, body i s = .ok t ∧ P (i + 1) t) :
    ∃ t, forUp body n s = .ok t ∧ P n t := by
  induction n with
  | zero => exact ⟨s, rfl, h0⟩
  | succ n ih =>
    obtain ⟨w, hw, hP⟩ := ih (fun i s hi => hstep i s (by omega))
    obtain ⟨t, ht, hPt⟩ := hstep n w (by omega) hP
    refine ⟨t, ?_, hPt⟩
    rw [forUp_succ, hw]
    exact ht

/-- A loop whose iteration `i` rewrites element `i` of the vector, each rewrite succeeding
with a result related to the element. -/
theorem forUp_modifyAt_rel (f : Nat → α → Except Err α) (Rel : Nat → α → α → Prop)
    (v : List α) (n : Nat) (hn : n ≤ v.length)
    (hf : ∀ i x, i < n → v[i]? = some x → ∃ y, f i x = .ok y ∧ Rel i x y) :
    ∃ w, forUp (fun i l => modifyAt l i (f i)) n v = .ok w ∧ w.length = v.length ∧
      ∀ i x y, v[i]? = some x → w[i]? = some y →
        (i < n → Rel i x y) ∧ (¬ i < n → y = x) := by
  refine ⟨_, forUp_modifyAt f (fun i x => match f i x with
    | .ok y => y
    | .error _ => x) v n hn ?_, by simp, ?_⟩
  · intro i x hi hx
    obtain ⟨y, hy, _⟩ := hf i x hi hx
    simp only [hy]
  · intro i x y hx hy
    simp only [List.getElem?_mapIdx, hx, Option.map_some', Option.some.injEq] at hy
    constructor
    · intro hi
      obtain ⟨z, hz, hr⟩ := hf i x hi hx
      rw [if_pos hi, hz] at hy
      subst hy
      exact hr
    · intro hi
      rw [if_neg hi] at hy
      exact hy.symm

end LoopInvariants

section Structural

variable {R : Type}

theorem Net.ShapedWith.set_layer {net : Net R} {topology : List Nat}
    {N N' : Nat → Nat → Neuron R → Prop} (hinv : net.ShapedWith topology N) {L : Nat}
    {layer w : Layer R} (hl : net.m_layers[L]? = some layer) (hwlen : w.length = layer.length)
    (hw : ∀ j x y, layer[j]? = some x → w[j]? = some y →
      y.m_myIndex = x.m_myIndex ∧ y.m_outputWeights.length = x.m_outputWeights.length ∧
        N' L j y)
    (hother : ∀ L' j x, L' ≠ L → N L' j x → N' L' j x) :
    ({ net with m_layers := net.m_layers.set L w } : Net R).ShapedWith topology N' := by
  have hLlt : L < net.m_layers.length := lt_of_getElem?_some hl
  constructor
  · refine ⟨by simp [hinv.1.1], ?_⟩
    intro L' layer' hL'
    simp only [List.getElem?_set] at hL'
    by_cases hLL : L = L'
    · subst hLL
      simp only [if_true, hLlt, Option.some.injEq] at hL'
      subst hL'
      refine ⟨by rw [hwlen] ; exact (hinv.1.2 _ _ hl).1, ?_⟩
      intro j y hy
      obtain ⟨x, hx⟩ := getElem?_some_of_lt
        (by rw [← hwlen] ; exact lt_of_getElem?_some hy : j < layer.length)
      obtain ⟨h1, h2, _⟩ := hw j x y hx hy
      have := (hinv.1.2 _ _ hl).2 j x hx
      exact ⟨by rw [h1] ; exact this.1, by rw [h2] ; exact this.2⟩
    · simp only [hLL, if_false] at hL'
      exact hinv.1.2 _ _ hL'
  · intro L' j y hy
    unfold Net.neuron? at hy
    simp only [List.getElem?_set] at hy
    by_cases hLL : L = L'
    · subst hLL
      simp only [if_true, hLlt, Option.some_bind] at hy
      obtain ⟨x, hx⟩ := getElem?_some_of_lt
        (by rw [← hwlen] ; exact lt_of_getElem?_some hy : j < layer.length)
      exact (hw j x y hx hy).2.2
    · simp only [hLL, if_false] at hy
      exact hother L' j y (fun h => hLL h.symm) (hinv.2 L' j y hy)

theorem Net.ShapedWith.mono {net : Net R} {topology : List Nat}
    {N N' : Nat → Nat → Neuron R → Prop} (hinv : net.ShapedWith topology N)
    (h : ∀ L j x, net.neuron? L j = some x → N L j x → N' L j x) :
    net.ShapedWith topology N' :=
  ⟨hinv.1, fun L j x hx => h L j x hx (hinv.2 L j x hx)⟩

theorem Net.ShapedWith.layer {net : Net R} {topology : List Nat}
    {N : Nat → Nat → Neuron R → Prop} (hinv : net.ShapedWith topology N) {L : Nat}
    {layer : Layer R} (hl : net.m_layers[L]? = some layer) {j : Nat} {x : Neuron R}
    (hx : layer[j]? = some x) : N L j x := by
  apply hinv.2 L j x
  simp [Net.neuron?, hl, hx]

end Structural

section Passes

variable {R : Type} [Add R] [Sub R] [Mul R] [Div R] [NatCast R] [OfScientific R]

omit [Sub R] [Div R] [NatCast R] in
/-- `Neuron.feedForward` succeeds when every neuron of the previous layer owns a connection
for this neuron, and stores a value of the transfer function. -/
theorem Neuron.feedForward_ok (tanh : R → R) (self : Neuron R) (prevLayer : Layer R)
    (h : ∀ (i : Nat) (p : Neuron R), prevLayer[i]? = some p →
      self.m_myIndex < p.m_outputWeights.length) :
    ∃ s, self.feedForward tanh prevLayer = .ok (self.setOutputVal (tanh s)) := by
  unfold Neuron.feedForward
  obtain ⟨t, ht, _⟩ := forUp_inv (fun (n : Nat) (sum : R) => (do
    let p ← idx prevLayer n
    let c ← idx p.m_outputWeights self.m_myIndex
    pure (sum + p.getOutputVal * c.weight) : Except Err R)) (fun _ _ => True)
    prevLayer.length (0.0 : R)
    trivial (by
      intro i s hi _
      obtain ⟨p, hp⟩ := getElem?_some_of_lt hi
      obtain ⟨c, hc⟩ := getElem?_some_of_lt (h i p hp)
      refine ⟨s + p.getOutputVal * c.weight, ?_, trivial⟩
      simp only [idx_of_getElem? hp, idx_of_getElem? hc, bind, Except.bind, pure,
        Except.pure])
  refine ⟨t, ?_⟩
  rw [ht]
  rfl

omit [Sub R] [Div R] [NatCast R] in
/-- `Net.feedForward` on a network of the shape of the topology with the right number of
inputs succeeds, keeps the shape and every property of neurons that writing an output value
keeps, leaves a value of the transfer function in every non-bias neuron beyond the input
layer, and leaves the error fields as they are. -/
theorem Net.feedForward_shapedWith (tanh : R → R) (net : Net R) (topology : List Nat)
    (inputVals : List R) (N : Nat → Nat → Neuron R → Prop)
    (hinv : net.ShapedWith topology N) (ht : topology ≠ [])
    (hin : inputVals.length = topology.getD 0 0)
    (hN : ∀ L j x v, N L j x → N L j (x.setOutputVal v)) :
    ∃ net', net.feedForward tanh inputVals = .ok net' ∧ net'.ShapedWith topology N ∧
      (∀ L j x, 0 < L → j < topology.getD L 0 → net'.neuron? L j = some x →
        ∃ s, x.m_outputVal = tanh s) ∧
      net'.m_error = net.m_error ∧ net'.m_recentAverageError = net.m_recentAverageError ∧
      net'.m_recentAverageSmoothingFactor = net.m_recentAverageSmoothingFactor := by
  have hs := hinv.1
  have hlen : 0 < net.m_layers.length := by
    rw [hs.1] ; exact List.length_pos.mpr ht
  have h0 : net.m_layers[0]? = some net.m_layers[0] := List.getElem?_eq_getElem hlen
  have hsz0 := (hs.2 0 _ h0).1
  unfold Net.feedForward
  rw [idx_of_getElem? h0]
  simp only [bind, Except.bind]
  rw [if_neg (by omega)]
  simp only [pure, Except.pure]
  rw [forUp_lift _ _ 0 _ h0]
  obtain ⟨w, hw, hwlen, hwrel⟩ := forUp_modifyAt_rel
    (fun i neuron => do pure (Neuron.setOutputVal neuron (← idx inputVals i)))
    (fun _ x y => ∃ v, y = x.setOutputVal v) net.m_layers[0] inputVals.length (by omega)
    (by
      intro i x hi _
      exact ⟨x.setOutputVal inputVals[i],
        by simp [idx_of_lt hi, bind, Except.bind, pure, Except.pure], inputVals[i], rfl⟩)
  simp only [bind, Except.bind, pure, Except.pure] at hw ⊢
  rw [hw]
  simp only []
  have hA : ({ net with m_layers := net.m_layers.set 0 w } : Net R).ShapedWith topology N := by
    apply hinv.set_layer h0 hwlen
    · intro j x y hx hy
      obtain ⟨h1, h2⟩ := hwrel j x y hx hy
      by_cases hj : j < inputVals.length
      · obtain ⟨v, rfl⟩ := h1 hj
        exact ⟨rfl, rfl, hN 0 j x v (hinv.layer h0 hx)⟩
      · rw [h2 hj]
        exact ⟨rfl, rfl, hinv.layer h0 hx⟩
    · intro L' j x _ h
      exact h
  obtain ⟨m, hm, hP⟩ := forUp_inv (fun i m_layers => do
      let layerNum := i + 1
      let prevLayer ← idx m_layers (layerNum - 1)
      let bound ← sizeMinusOne (← idx m_layers layerNum)
      forUp (fun n m_layers => modifyAt m_layers layerNum fun layer =>
        modifyAt layer n fun neuron => neuron.feedForward tanh prevLayer) bound m_layers)
    (fun i m => ({ net with m_layers := m } : Net R).ShapedWith topology fun L j x =>
      N L j x ∧ (0 < L → L ≤ i → j < topology.getD L 0 → ∃ s, x.m_outputVal = tanh s))
    ((net.m_layers.set 0 w).length - 1) (net.m_layers.set 0 w)
    (hA.mono (fun L j x _ h => ⟨h, fun h0 h1 => by omega⟩))
    (by
      intro i m hi hP
      have hms := hP.1
      have hmlen : m.length = net.m_layers.length := by
        have := hms.1
        simp only at this
        rw [this, hs.1]
      simp only [List.length_set] at hi
      obtain ⟨li, hli⟩ := getElem?_some_of_lt (by omega : i < m.length)
      obtain ⟨lj, hlj⟩ := getElem?_some_of_lt (by omega : i + 1 < m.length)
      have hszj := (hms.2 _ _ hlj).1
      simp only [Nat.add_sub_cancel]
      rw [idx_of_getElem? hli, idx_of_getElem? hlj]
      simp only [bind, Except.bind]
      rw [sizeMinusOne_of_pos (by omega)]
      simp only []
      rw [forUp_lift _ _ (i + 1) _ hlj]
      obtain ⟨w', hw', hwlen', hwrel'⟩ := forUp_modifyAt_rel
        (fun n neuron => Neuron.feedForward tanh neuron li)
        (fun _ x y => ∃ s, y = x.setOutputVal (tanh s)) lj (lj.length - 1) (by omega)
        (by
          intro n x hn hx
          have hxs := (hms.2 _ _ hlj).2 n x hx
          obtain ⟨s, hsx⟩ := Neuron.feedForward_ok tanh x li (by
            intro p q hq
            have hqs := (hms.2 _ _ hli).2 p q hq
            rw [hxs.1, hqs.2]
            omega)
          exact ⟨_, hsx, s, rfl⟩)
      rw [hw']
      refine ⟨_, rfl, ?_⟩
      apply Net.ShapedWith.set_layer hP hlj hwlen'
      · intro j x y hx hy
        obtain ⟨h1, h2⟩ := hwrel' j x y hx hy
        have hx' := hP.layer hlj hx
        by_cases hj : j < lj.length - 1
        · obtain ⟨s, rfl⟩ := h1 hj
          exact ⟨rfl, rfl, hN _ j x _ hx'.1, fun _ _ _ => ⟨s, rfl⟩⟩
        · rw [h2 hj]
          refine ⟨rfl, rfl, hx'.1, fun _ _ hlt => ?_⟩
          omega
      · intro L' j x hL' h
        exact ⟨h.1, fun h0 h1 hj => h.2 h0 (by omega) hj⟩)
  simp only [bind, Except.bind, pure, Except.pure] at hm
  rw [hm]
  refine ⟨_, rfl, hP.mono (fun L j x _ h => h.1), ?_, rfl, rfl, rfl⟩
  intro L j x hL hj hx
  have hLlt : L < m.length := by
    by_contra hcon
    have hnone : m[L]? = none := List.getElem?_eq_none (by omega)
    simp [Net.neuron?, hnone] at hx
  have hmlen : m.length = (net.m_layers.set 0 w).length := by
    have := hP.1.1
    simp only at this
    rw [this, List.length_set, hs.1]
  exact (hP.2 L j x hx).2 hL (by omega) hj

omit [Add R] [Sub R] [Mul R] [Div R] [NatCast R] [OfScientific R] in
/-- `Net.getResults` succeeds on a network of the shape of a non-empty topology and returns
`topology[last]` values, each the output value of a non-bias neuron of the last layer. -/
theorem Net.getResults_ok (net : Net R) (topology : List Nat) (resultVals : List R)
    (hs : net.Shaped topology) (ht : topology ≠ []) :
    ∃ results, net.getResults resultVals = .ok results ∧
      results.length = topology.getD (topology.length - 1) 0 ∧
      ∀ v ∈ results, ∃ j x, j < topology.getD (topology.length - 1) 0 ∧
        net.neuron? (topology.length - 1) j = some x ∧ v = x.m_outputVal := by
  have hlen : 0 < topology.length := List.length_pos.mpr ht
  obtain ⟨ol, hol⟩ := getElem?_some_of_lt
    (by rw [hs.1] ; omega : topology.length - 1 < net.m_layers.length)
  have hsz := (hs.2 _ _ hol).1
  have hback : back net.m_layers = .ok ol := by
    rw [back_eq_idx, hs.1] ; exact idx_of_getElem? hol
  obtain ⟨res, hres, hlenres, hP⟩ := forUp_inv (fun (n : Nat) (resultVals : List R) => (do
      let neuron ← idx ol n
      pure (resultVals ++ [neuron.getOutputVal]) : Except Err (List R)))
    (fun n res => res.length = n ∧ ∀ v ∈ res, ∃ j x, j < n ∧ ol[j]? = some x ∧
      v = x.m_outputVal)
    (ol.length - 1) (clear resultVals) ⟨rfl, by simp [clear]⟩ (by
      intro i res hi hP
      obtain ⟨x, hx⟩ := getElem?_some_of_lt (by omega : i < ol.length)
      refine ⟨res ++ [x.getOutputVal], ?_, by simp [hP.1], ?_⟩
      · simp only [idx_of_getElem? hx, bind, Except.bind, pure, Except.pure]
      · intro v hv
        rcases List.mem_append.mp hv with h | h
        · obtain ⟨j, y, hj, hy, hvy⟩ := hP.2 v h
          exact ⟨j, y, by omega, hy, hvy⟩
        · simp only [List.mem_singleton] at h
          exact ⟨i, x, by omega, hx, h⟩)
  refine ⟨res, ?_, by rw [hlenres, hsz, Nat.add_sub_cancel], ?_⟩
  · unfold Net.getResults
    rw [hback]
    simp only [bind, Except.bind]
    rw [sizeMinusOne_of_pos (by omega)]
    simp only [bind, Except.bind, pure, Except.pure] at hres ⊢
    exact hres
  · intro v hv
    obtain ⟨j, x, hj, hx, hvx⟩ := hP v hv
    exact ⟨j, x, by omega, by simp [Net.neuron?, hol, hx], hvx⟩

end Passes

section FloatingFacts

variable {K : Type} [LinearOrderedField K]

theorem Double.add_def (a b : Double K) : a + b = Double.add a b := rfl

theorem Double.mul_def (a b : Double K) : a * b = Double.mul a b := rfl

theorem Double.ofScientific_def (m : Nat) (s : Bool) (e : Nat) :
    (OfScientific.ofScientific m s e : Double K)
      = Double.round (OfScientific.ofScientific m s e : K) := rfl

/-- The values of `Double.tanh` are NaN or lie between `-1` and `1`, both included. -/
theorem Double.tanh_range (t : K → K) (ht : ∀ x, -1 ≤ t x ∧ t x ≤ 1) (d : Double K) :
    Double.tanh t d = .nan ∨ ∃ y, Double.tanh t d = .finite y ∧ -1 ≤ y ∧ y ≤ 1 := by
  cases d with
  | finite x =>
    right
    simp only [Double.tanh]
    split_ifs
    · exact ⟨1, rfl, by norm_num, le_refl _⟩
    · exact ⟨-1, rfl, le_refl _, by norm_num⟩
    · exact ⟨t x, rfl, ht x⟩
  | posInf => exact Or.inr ⟨1, rfl, by norm_num, le_refl _⟩
  | negInf => exact Or.inr ⟨-1, rfl, le_refl _, by norm_num⟩
  | nan => exact Or.inl rfl

end FloatingFacts

section Membership

variable {R : Type}

theorem Net.Shaped.neuron {net : Net R} {topology : List Nat} (hs : net.Shaped topology)
    {L j : Nat} (hL : L < topology.length) (hj : j ≤ topology.getD L 0) :
    ∃ layer x, net.m_layers[L]? = some layer ∧ layer[j]? = some x ∧
      net.neuron? L j = some x := by
  obtain ⟨layer, hl⟩ := getElem?_some_of_lt (by rw [hs.1] ; exact hL : L < net.m_layers.length)
  have hsz := (hs.2 _ _ hl).1
  obtain ⟨x, hx⟩ := getElem?_some_of_lt (by omega : j < layer.length)
  exact ⟨layer, x, hl, hx, by simp [Net.neuron?, hl, hx]⟩

end Membership

section Claims

variable {R : Type} [Field R]

/-- C1: on a network of the shape of a topology of length at least 2, `Net.feedForward` with
`topology[0]` inputs succeeds; afterwards input neuron `j` holds `inputVals[j]`, and every
non-bias neuron `j` of a later layer `L` holds `tanh` of the sum, over all `topology[L-1] + 1`
neurons `p` of layer `L - 1` (bias unit included), of `p`'s output after the pass times the
weight of `p`'s connection number `j`; the weights are those before the pass. -/
theorem Net.feedForward_outputs (tanh : R → R) (net : Net R) (topology : List Nat)
    (inputVals : List R) (hs : net.Shaped topology) (ht : 2 ≤ topology.length)
    (hin : inputVals.length = topology.getD 0 0) :
    ∃ net', net.feedForward tanh inputVals = .ok net' ∧ net'.Shaped topology ∧
      (∀ j (hj : j < inputVals.length), net'.outputVal 0 j = inputVals[j]) ∧
      (∀ L j, 1 ≤ L → L < topology.length → j < topology.getD L 0 →
        net'.outputVal L j = tanh (∑ p in Finset.range (topology.getD (L - 1) 0 + 1),
          net'.outputVal (L - 1) p * net'.weight (L - 1) p j)) ∧
      (∀ L p j, net'.weight L p j = net.weight L p j) := by
  have hne : topology ≠ [] := by
    intro h ; simp [h] at ht
  refine ⟨_, Net.feedForward_eq tanh net topology inputVals hs hne hin,
    Net.feedForwardSpec_shaped tanh net inputVals topology hs, ?_, ?_,
    Net.feedForwardSpec_weight tanh net inputVals⟩
  · intro j hj
    obtain ⟨l0, hl0⟩ := getElem?_some_of_lt (by rw [hs.1] ; omega : 0 < net.m_layers.length)
    have := (hs.2 0 l0 hl0).1
    rw [Net.feedForwardSpec_outputVal tanh net inputVals hl0 (by omega)]
    simp [Net.activation, hj, List.getElem?_eq_getElem hj]
  · intro L j hL1 hLt hj
    obtain ⟨K, rfl⟩ : ∃ K, L = K + 1 := ⟨L - 1, by omega⟩
    obtain ⟨lk, hlk⟩ := getElem?_some_of_lt (by rw [hs.1] ; omega : K < net.m_layers.length)
    obtain ⟨ll, hll⟩ := getElem?_some_of_lt (by rw [hs.1] ; omega : K + 1 < net.m_layers.length)
    have hszk := (hs.2 K lk hlk).1
    have hszl := (hs.2 (K + 1) ll hll).1
    rw [Net.feedForwardSpec_outputVal tanh net inputVals hll (by omega)]
    have hlt : j + 1 < net.layerSize (K + 1) := by
      rw [Net.layerSize_eq hll] ; omega
    simp only [Net.activation, hlt, if_true, Nat.add_sub_cancel, Net.layerSize_eq hlk, hszk]
    congr 1
    apply Finset.sum_congr rfl
    intro p hp
    rw [Finset.mem_range] at hp
    rw [Net.feedForwardSpec_outputVal tanh net inputVals hlk (by omega),
      Net.feedForwardSpec_weight]

/-- C1 at `sampleNet` with inputs `[1, 0]`. -/
theorem Net.feedForward_outputs_witness :
    (sampleNet ℝ).Shaped [2, 2, 1] ∧ 2 ≤ [2, 2, 1].length ∧
    ([1, 0] : List ℝ).length = [2, 2, 1].getD 0 0 ∧
    ∃ net', (sampleNet ℝ).feedForward Real.tanh [1, 0] = .ok net' ∧ net'.Shaped [2, 2, 1] ∧
      (∀ j (hj : j < ([1, 0] : List ℝ).length), net'.outputVal 0 j = ([1, 0] : List ℝ)[j]) ∧
      (∀ L j, 1 ≤ L → L < [2, 2, 1].length → j < [2, 2, 1].getD L 0 →
        net'.outputVal L j = Real.tanh (∑ p in Finset.range ([2, 2, 1].getD (L - 1) 0 + 1),
          net'.outputVal (L - 1) p * net'.weight (L - 1) p j)) ∧
      (∀ L p j, net'.weight L p j = (sampleNet ℝ).weight L p j) :=
  ⟨by decide, by decide, by decide,
    Net.feedForward_outputs Real.tanh (sampleNet ℝ) [2, 2, 1] [1, 0] (by decide) (by decide) (by decide)⟩

/-- C2: on a network of the shape of a topology of length at least 2, `Net.backProp` with
`topology[last]` targets succeeds, and for every layer `L ≥ 1`, every non-bias neuron `n` of
`L` and every non-bias neuron `p` of layer `L - 1`, the connection from `p` to `n` ends with
`deltaWeight = 0.15 * p.outputVal * n.gradient + 0.5 * (previous deltaWeight)` and
`weight = old weight + deltaWeight`, one application of the momentum rule.  Here `n.gradient`
is the gradient this call computes, whatever gradient was stored before: for an output neuron
`(targetVals[n] - n.outputVal) * (1 - n.outputVal²)`, for a hidden neuron `(1 - n.outputVal²)`
times the sum over the non-bias neurons `k` of the next layer of the weight of `n`'s
connection `k` before the call times the gradient of `k` computed in this call. -/
theorem Net.backProp_momentum_rule (sqrt : R → R) (net : Net R) (topology : List Nat)
    (targetVals : List R) (hs : net.Shaped topology) (ht : 2 ≤ topology.length)
    (htl : targetVals.length = topology.getD (topology.length - 1) 0) :
    ∃ net', net.backProp sqrt targetVals = .ok net' ∧ net'.Shaped topology ∧
      (∀ L n p, 1 ≤ L → L < topology.length → n < topology.getD L 0 →
        p < topology.getD (L - 1) 0 →
        net'.deltaWeight (L - 1) p n
          = 0.15 * net.outputVal (L - 1) p * net'.gradient L n
            + 0.5 * net.deltaWeight (L - 1) p n ∧
        net'.weight (L - 1) p n
          = net.weight (L - 1) p n + net'.deltaWeight (L - 1) p n) ∧
      (∀ n (hn : n < targetVals.length),
        net'.gradient (topology.length - 1) n
          = (targetVals[n] - net.outputVal (topology.length - 1) n)
            * (1 - net.outputVal (topology.length - 1) n ^ 2)) ∧
      (∀ L n, 0 < L → L + 1 < topology.length → n < topology.getD L 0 →
        net'.gradient L n
          = (1 - net.outputVal L n ^ 2)
            * ∑ k in Finset.range (topology.getD (L + 1) 0),
                net.weight L n k * net'.gradient (L + 1) k) := by
  obtain ⟨hlast0, hlastlt, hlasteq⟩ := hs.last_lt ht
  refine ⟨_, Net.backPropWith_eq sqrt _ _ net topology targetVals hs ht (by omega),
    Net.backPropSpec_shaped sqrt _ _ net targetVals topology hs, ?_, ?_, ?_⟩
  · intro L n p hL1 hLt hn hp
    obtain ⟨K, rfl⟩ : ∃ K, L = K + 1 := ⟨L - 1, by omega⟩
    simp only [Nat.add_sub_cancel] at hp ⊢
    obtain ⟨c, hc⟩ := hs.connection hLt (by omega : p ≤ topology.getD K 0) hn
    obtain ⟨layer, hl⟩ :=
      getElem?_some_of_lt (by rw [hs.1] ; omega : K + 1 < net.m_layers.length)
    have hsz := (hs.2 _ _ hl).1
    have h := Net.backPropSpec_updated sqrt Neuron.eta Neuron.alpha net targetVals hc
      (by rw [hs.layerSize (by omega)] ; omega) (by rw [hs.layerSize hLt] ; omega)
    rw [Net.backPropSpec_gradient sqrt _ _ net targetVals hl (by omega), h.1, h.2]
    exact ⟨rfl, rfl⟩
  · intro n hn
    obtain ⟨ol, hol⟩ := getElem?_some_of_lt hlastlt
    have hszo := (hs.2 _ _ hol).1
    rw [hlasteq] at hszo
    rw [← hlasteq, Net.backPropSpec_gradient sqrt _ _ net targetVals hol (by omega),
      Net.newGradient_output net targetVals n hlast0, Net.layerSize_eq hol,
      if_pos (by omega)]
    simp [Neuron.transferFunctionDerivative, one_lit, pow_two, List.getElem?_eq_getElem hn]
  · intro L h hL0 hLt hh
    obtain ⟨layer, hl⟩ := getElem?_some_of_lt (by rw [hs.1] ; omega : L < net.m_layers.length)
    obtain ⟨next, hn⟩ :=
      getElem?_some_of_lt (by rw [hs.1] ; omega : L + 1 < net.m_layers.length)
    have hszl := (hs.2 _ _ hl).1
    have hszn := (hs.2 _ _ hn).1
    rw [Net.backPropSpec_gradient sqrt _ _ net targetVals hl (by omega),
      Net.newGradient_hidden net targetVals h hL0 (by omega), Net.layerSize_eq hn, hszn,
      Nat.add_sub_cancel, mul_comm]
    congr 1
    · simp [Neuron.transferFunctionDerivative, one_lit, pow_two]
    · apply Finset.sum_congr rfl
      intro n hnr
      rw [Finset.mem_range] at hnr
      rw [Net.backPropSpec_gradient sqrt _ _ net targetVals hn (by omega)]

/-- C2 at `activeNet` with target `[1]`: the stored gradients `9` are not used; the output
gradient is `0.375`, the gradient of hidden neuron 0 is `0.16875`, the connection from hidden
neuron 0 to the output moves from `(0.6, 0.1)` to `(0.678125, 0.078125)` and the connection
from input neuron 0 to hidden neuron 0 from `(0.1, 0.05)` to `(0.1503125, 0.0503125)`. -/
theorem Net.backProp_momentum_rule_witness :
    (activeNet ℝ).Shaped [2, 2, 1] ∧ 2 ≤ [2, 2, 1].length ∧
    ([1] : List ℝ).length = [2, 2, 1].getD ([2, 2, 1].length - 1) 0 ∧
    ∃ net', (activeNet ℝ).backProp Real.sqrt [1] = .ok net' ∧ net'.Shaped [2, 2, 1] ∧
      (∀ L n p, 1 ≤ L → L < [2, 2, 1].length → n < [2, 2, 1].getD L 0 →
        p < [2, 2, 1].getD (L - 1) 0 →
        net'.deltaWeight (L - 1) p n
          = 0.15 * (activeNet ℝ).outputVal (L - 1) p * net'.gradient L n
            + 0.5 * (activeNet ℝ).deltaWeight (L - 1) p n ∧
        net'.weight (L - 1) p n
          = (activeNet ℝ).weight (L - 1) p n + net'.deltaWeight (L - 1) p n) ∧
      net'.gradient 2 0 = 0.375 ∧ net'.gradient 1 0 = 0.16875 ∧
      net'.deltaWeight 1 0 0 = 0.078125 ∧ net'.weight 1 0 0 = 0.678125 ∧
      net'.deltaWeight 0 0 0 = 0.0503125 ∧ net'.weight 0 0 0 = 0.1503125 := by
  have hs : (activeNet ℝ).Shaped [2, 2, 1] := by decide
  obtain ⟨net', hok, hsh, hrule, hout, hhid⟩ :=
    Net.backProp_momentum_rule Real.sqrt (activeNet ℝ) [2, 2, 1] [1] hs (by decide)
      (by decide)
  have hg2 : net'.gradient 2 0 = 0.375 := by
    have h := hout 0 (by decide)
    simp only [List.length_cons, List.length_nil, Nat.reduceAdd, Nat.add_one_sub_one] at h
    rw [h]
    simp [Net.outputVal, Net.neuron?, activeNet]
    norm_num
  have hg1 : net'.gradient 1 0 = 0.16875 := by
    have h := hhid 1 0 (by decide) (by decide) (by decide)
    rw [h]
    simp [Net.outputVal, Net.weight, Net.connection?, Net.neuron?, activeNet, hg2,
      Finset.sum_range_succ]
    norm_num
  have h1 := hrule 2 0 0 (by decide) (by decide) (by decide) (by decide)
  have h0 := hrule 1 0 0 (by decide) (by decide) (by decide) (by decide)
  simp only [Nat.add_one_sub_one, hg2, hg1] at h1 h0
  have hd1 : net'.deltaWeight 1 0 0 = 0.078125 := by
    rw [h1.1]
    simp [Net.outputVal, Net.deltaWeight, Net.connection?, Net.neuron?, activeNet]
    norm_num
  have hd0 : net'.deltaWeight 0 0 0 = 0.0503125 := by
    rw [h0.1]
    simp [Net.outputVal, Net.deltaWeight, Net.connection?, Net.neuron?, activeNet]
    norm_num
  refine ⟨hs, by decide, by decide, net', hok, hsh, hrule, hg2, hg1, hd1, ?_, hd0, ?_⟩
  · rw [h1.2, hd1]
    simp [Net.weight, Net.connection?, Net.neuron?, activeNet]
    norm_num
  · rw [h0.2, hd0]
    simp [Net.weight, Net.connection?, Net.neuron?, activeNet]
    norm_num

/-- C3 fails on the code: start from `singleOutputNet` over the reals (topology `[1, 1]`,
both weights `0.5`, all `deltaWeight`s `0`), run a forward pass with input `[1.0]` and then
`Net.backProp` with target `[1.0]`.  The output neuron gets a non-zero gradient and the bias
unit of layer 0 has output `1`, yet the connection from that bias unit keeps weight `0.5` and
`deltaWeight` `0`, which is not `0.15 * 1 * gradient + 0.5 * 0`; the connection from the
input neuron, next to it in the same layer, is updated by exactly that rule. -/
theorem Net.backProp_skips_bias_connection :
    ∃ fed net', (singleOutputNet ℝ).feedForward Real.tanh [1.0] = .ok fed ∧
      fed.backProp Real.sqrt [1.0] = .ok net' ∧
      fed.outputVal 0 1 = 1 ∧ fed.weight 0 1 0 = 0.5 ∧ fed.deltaWeight 0 1 0 = 0 ∧
      net'.gradient 1 0 ≠ 0 ∧
      net'.weight 0 1 0 = 0.5 ∧ net'.deltaWeight 0 1 0 = 0 ∧
      net'.deltaWeight 0 1 0
        ≠ 0.15 * fed.outputVal 0 1 * net'.gradient 1 0 + 0.5 * fed.deltaWeight 0 1 0 ∧
      net'.deltaWeight 0 0 0
        = 0.15 * fed.outputVal 0 0 * net'.gradient 1 0 + 0.5 * fed.deltaWeight 0 0 0 := by
  have hs : (singleOutputNet ℝ).Shaped [1, 1] := by decide
  have hfs := Net.feedForwardSpec_shaped Real.tanh (singleOutputNet ℝ) [1.0] [1, 1] hs
  obtain ⟨fed, hfed⟩ : ∃ fed, fed = (singleOutputNet ℝ).feedForwardSpec Real.tanh [1.0] :=
    ⟨_, rfl⟩
  rw [← hfed] at hfs
  have hl0 : (singleOutputNet ℝ).m_layers[0]? = some (singleOutputNet ℝ).m_layers[0] := rfl
  have hl1 : (singleOutputNet ℝ).m_layers[1]? = some (singleOutputNet ℝ).m_layers[1] := rfl
  have hc1 : fed.connection? 0 1 0 = some ⟨0.5, 0⟩ := by
    rw [hfed, Net.feedForwardSpec_connection?]
    rfl
  have hc0 : fed.connection? 0 0 0 = some ⟨0.5, 0⟩ := by
    rw [hfed, Net.feedForwardSpec_connection?]
    rfl
  have hw : fed.weight 0 1 0 = 0.5 := by simp [Net.weight, hc1]
  have hd : fed.deltaWeight 0 1 0 = 0 := by simp [Net.deltaWeight, hc1]
  have hd0 : fed.deltaWeight 0 0 0 = 0 := by simp [Net.deltaWeight, hc0]
  have ho : fed.outputVal 0 1 = 1 := by
    rw [hfed, Net.feedForwardSpec_outputVal Real.tanh (singleOutputNet ℝ) [1.0] hl0
      (by decide)]
    simp [Net.activation]
    rfl
  obtain ⟨x, hx⟩ : ∃ x, fed.outputVal 1 0 = Real.tanh x := by
    rw [hfed, Net.feedForwardSpec_outputVal Real.tanh (singleOutputNet ℝ) [1.0] hl1
      (by decide)]
    have hsz : 0 + 1 < (singleOutputNet ℝ).layerSize (0 + 1) := by
      rw [hs.layerSize (by decide)] ; decide
    simp only [Net.activation, hsz, if_true]
    exact ⟨_, rfl⟩
  have hlast : fed.last = 1 := by simp [Net.last, hfs.1]
  have hls0 : fed.layerSize 0 = 2 := hfs.layerSize (by decide)
  have hls1 : fed.layerSize 1 = 2 := hfs.layerSize (by decide)
  obtain ⟨ol, hol⟩ := getElem?_some_of_lt (by rw [hfs.1] ; decide : 1 < fed.m_layers.length)
  have hsz := (hfs.2 _ _ hol).1
  have hnot : ¬ (1 + 1 < fed.layerSize 0 ∧ 0 + 1 < fed.layerSize (0 + 1)) := by
    intro h
    have h1 := h.1
    rw [hls0] at h1
    omega
  have hu := Net.backPropSpec_untouched Real.sqrt Neuron.eta Neuron.alpha fed [1.0] hnot
  have hup := Net.backPropSpec_updated Real.sqrt Neuron.eta Neuron.alpha fed [1.0] hc0
    (by rw [hls0] ; decide) (by rw [hls1] ; decide)
  have hgeq : (fed.backPropSpec Real.sqrt Neuron.eta Neuron.alpha [1.0]).gradient 1 0
      = fed.newGradient [1.0] 1 0 :=
    Net.backPropSpec_gradient Real.sqrt _ _ fed [1.0] hol (by rw [hsz] ; decide)
  have hg : fed.newGradient [1.0] 1 0 ≠ 0 := by
    have h := Net.newGradient_output fed [1.0] 0 (by rw [hlast] ; decide)
    rw [hlast] at h
    rw [h, hls1, hx]
    have h1 := tanh_lt_one x
    have h2 := neg_one_lt_tanh x
    have hpos : 0 < (1 - Real.tanh x) * (1 - Real.tanh x * Real.tanh x) := by
      apply mul_pos
      · linarith
      · nlinarith
    simp [Neuron.transferFunctionDerivative, one_lit]
    constructor
    · linarith
    · nlinarith
  have hff : (singleOutputNet ℝ).feedForward Real.tanh [1.0] = .ok fed := by
    rw [hfed]
    exact Net.feedForward_eq Real.tanh (singleOutputNet ℝ) [1, 1] [1.0] hs (by decide)
      (by decide)
  refine ⟨fed, _, hff,
    Net.backPropWith_eq Real.sqrt _ _ fed [1, 1] [1.0] hfs (by decide) (by decide),
    ho, hw, hd, ?_, ?_, ?_, ?_, ?_⟩
  · rw [hgeq] ; exact hg
  · simp [Net.weight, hu, hc1]
  · simp [Net.deltaWeight, hu, hc1]
  · rw [hgeq, ho, hd]
    simp [Net.deltaWeight, hu, hc1]
    refine ⟨by norm_num, hg⟩
  · rw [hgeq, hup.1]
    rfl

/-- C4: on a network of the shape of a topology of length at least 2, `Net.backProp` with
`topology[last]` targets succeeds; afterwards every non-bias neuron `h` of a hidden layer
`L` has gradient `(1 - h.outputVal²)` times the sum, over the non-bias neurons `n` of layer
`L + 1`, of the weight of `h`'s connection `n` as it was before the call times the gradient
of `n` computed in this call, and output neuron `n` has gradient
`(targetVals[n] - n.outputVal) * (1 - n.outputVal²)`. -/
theorem Net.backProp_gradients (sqrt : R → R) (net : Net R) (topology : List Nat)
    (targetVals : List R) (hs : net.Shaped topology) (ht : 2 ≤ topology.length)
    (htl : targetVals.length = topology.getD (topology.length - 1) 0) :
    ∃ net', net.backProp sqrt targetVals = .ok net' ∧ net'.Shaped topology ∧
      (∀ L h, 0 < L → L + 1 < topology.length → h < topology.getD L 0 →
        net'.gradient L h
          = (1 - net.outputVal L h ^ 2)
            * ∑ n in Finset.range (topology.getD (L + 1) 0),
                net.weight L h n * net'.gradient (L + 1) n) ∧
      (∀ n (hn : n < targetVals.length),
        net'.gradient (topology.length - 1) n
          = (targetVals[n] - net.outputVal (topology.length - 1) n)
            * (1 - net.outputVal (topology.length - 1) n ^ 2)) := by
  obtain ⟨hlast0, hlastlt, hlasteq⟩ := hs.last_lt ht
  refine ⟨_, Net.backPropWith_eq sqrt _ _ net topology targetVals hs ht (by omega),
    Net.backPropSpec_shaped sqrt _ _ net targetVals topology hs, ?_, ?_⟩
  · intro L h hL0 hLt hh
    obtain ⟨layer, hl⟩ := getElem?_some_of_lt (by rw [hs.1] ; omega : L < net.m_layers.length)
    obtain ⟨next, hn⟩ :=
      getElem?_some_of_lt (by rw [hs.1] ; omega : L + 1 < net.m_layers.length)
    have hszl := (hs.2 _ _ hl).1
    have hszn := (hs.2 _ _ hn).1
    rw [Net.backPropSpec_gradient sqrt _ _ net targetVals hl (by omega),
      Net.newGradient_hidden net targetVals h hL0 (by omega), Net.layerSize_eq hn, hszn,
      Nat.add_sub_cancel, mul_comm]
    congr 1
    · simp [Neuron.transferFunctionDerivative, one_lit, pow_two]
    · apply Finset.sum_congr rfl
      intro n hnr
      rw [Finset.mem_range] at hnr
      rw [Net.backPropSpec_gradient sqrt _ _ net targetVals hn (by omega)]
  · intro n hn
    obtain ⟨ol, hol⟩ := getElem?_some_of_lt hlastlt
    have hszo := (hs.2 _ _ hol).1
    rw [hlasteq] at hszo
    rw [← hlasteq, Net.backPropSpec_gradient sqrt _ _ net targetVals hol (by omega),
      Net.newGradient_output net targetVals n hlast0, Net.layerSize_eq hol,
      if_pos (by omega)]
    simp [Neuron.transferFunctionDerivative, one_lit, pow_two, List.getElem?_eq_getElem hn]

/-- C4 at `sampleNet` with target `[1]`. -/
theorem Net.backProp_gradients_witness :
    (sampleNet ℝ).Shaped [2, 2, 1] ∧ 2 ≤ [2, 2, 1].length ∧
    ([1] : List ℝ).length = [2, 2, 1].getD ([2, 2, 1].length - 1) 0 ∧
    ∃ net', (sampleNet ℝ).backProp Real.sqrt [1] = .ok net' ∧ net'.Shaped [2, 2, 1] ∧
      (∀ L h, 0 < L → L + 1 < [2, 2, 1].length → h < [2, 2, 1].getD L 0 →
        net'.gradient L h
          = (1 - (sampleNet ℝ).outputVal L h ^ 2)
            * ∑ n in Finset.range ([2, 2, 1].getD (L + 1) 0),
                (sampleNet ℝ).weight L h n * net'.gradient (L + 1) n) ∧
      (∀ n (hn : n < ([1] : List ℝ).length),
        net'.gradient ([2, 2, 1].length - 1) n
          = (([1] : List ℝ)[n] - (sampleNet ℝ).outputVal ([2, 2, 1].length - 1) n)
            * (1 - (sampleNet ℝ).outputVal ([2, 2, 1].length - 1) n ^ 2)) :=
  ⟨by decide, by decide, by decide,
    Net.backProp_gradients Real.sqrt (sampleNet ℝ) [2, 2, 1] [1] (by decide) (by decide) (by decide)⟩

/-- C5: for every topology, the network `Net.new` builds has the bias invariant, and so
has every network reached from it by a sequence of `feedForward` calls with `topology[0]`
inputs and `backProp` calls with `topology[last]` targets: the last neuron of every layer has
output value `1.0`.  Such a sequence runs to completion when the topology has at least two
entries. -/
theorem Net.bias_invariant (tanh sqrt : R → R) (RAND_MAX : Nat) (rand : Nat → Nat)
    (u : Uninit R) (topology : List Nat) (calls : List (Call R))
    (hv : ∀ c ∈ calls, c.Valid topology) :
    ∃ net, Net.new RAND_MAX rand u topology = .ok net ∧ net.BiasOne ∧
      (∀ net', net.run tanh sqrt calls = .ok net' → net'.BiasOne) ∧
      (2 ≤ topology.length → ∃ net', net.run tanh sqrt calls = .ok net') := by
  have hinv := Net.run_invariant tanh sqrt topology calls
    (Net.newSpec RAND_MAX rand u topology) (Net.newSpec_shaped RAND_MAX rand u topology)
    (Net.newSpec_biasOne RAND_MAX rand u topology) hv
  exact ⟨_, Net.new_eq RAND_MAX rand u topology, Net.newSpec_biasOne RAND_MAX rand u topology,
    fun net' h => (hinv.1 net' h).2, hinv.2⟩

/-- C5 for the topology `[2, 2, 1]` and two training passes. -/
theorem Net.bias_invariant_witness :
    (∀ c ∈ [Call.feedForward [1, 0], Call.backProp [1], Call.feedForward [0, 1],
        Call.backProp ([1] : List ℝ)], c.Valid [2, 2, 1]) ∧
    ∃ net, Net.new 32767 (fun k => k % 32768) ⟨fun _ _ => 0, fun _ _ => 0, 0, 0, 100⟩ [2, 2, 1]
        = .ok net ∧ net.BiasOne ∧
      (∀ net', net.run Real.tanh Real.sqrt [Call.feedForward [1, 0], Call.backProp [1],
          Call.feedForward [0, 1], Call.backProp ([1] : List ℝ)] = .ok net' → net'.BiasOne) ∧
      (2 ≤ [2, 2, 1].length → ∃ net', net.run Real.tanh Real.sqrt [Call.feedForward [1, 0],
          Call.backProp [1], Call.feedForward [0, 1], Call.backProp ([1] : List ℝ)]
            = .ok net') :=
  ⟨by decide, Net.bias_invariant Real.tanh Real.sqrt 32767 (fun k => k % 32768)
    ⟨fun _ _ => 0, fun _ _ => 0, 0, 0, 100⟩
    [2, 2, 1] _ (by decide)⟩

/-- C6: for every topology, random stream and indeterminate initial values, `Net.new`
succeeds and builds one layer per topology entry; layer `L` has `topology[L] + 1` neurons,
each storing its position as `m_myIndex`; every neuron of a layer before the last has
`topology[L + 1]` outgoing connections and every neuron of the last layer has none; and every
connection has `deltaWeight = 0`. -/
theorem Net.new_structure (RAND_MAX : Nat) (rand : Nat → Nat) (u : Uninit R)
    (topology : List Nat) :
    ∃ net, Net.new RAND_MAX rand u topology = .ok net ∧
      net.m_layers.length = topology.length ∧
      ∀ L (hL : L < topology.length), ∃ layer, net.m_layers[L]? = some layer ∧
        layer.length = topology[L] + 1 ∧
        ∀ (j : Nat) (neuron : Neuron R), layer[j]? = some neuron →
          neuron.m_myIndex = j ∧
          neuron.m_outputWeights.length
            = (if h : L + 1 < topology.length then topology[L + 1] else 0) ∧
          ∀ c ∈ neuron.m_outputWeights, c.deltaWeight = 0 := by
  have hs := Net.newSpec_shaped RAND_MAX rand u topology
  refine ⟨_, Net.new_eq RAND_MAX rand u topology, hs.1, ?_⟩
  intro L hL
  obtain ⟨layer, hl⟩ := getElem?_some_of_lt (by rw [hs.1] ; exact hL :
    L < (Net.newSpec RAND_MAX rand u topology).m_layers.length)
  have hsl := hs.2 L layer hl
  refine ⟨layer, hl, ?_, ?_⟩
  · rw [hsl.1]
    simp [List.getD, List.getElem?_eq_getElem hL]
  · intro j neuron hj
    refine ⟨(hsl.2 j neuron hj).1, ?_, ?_⟩
    · rw [(hsl.2 j neuron hj).2]
      by_cases h : L + 1 < topology.length
      · simp [h, List.getD, List.getElem?_eq_getElem h]
      · simp [h, List.getD, List.getElem?_eq_none (by omega : topology.length ≤ L + 1)]
    · obtain ⟨_, rfl⟩ := Net.newSpec_layer RAND_MAX rand u topology hl
      obtain ⟨_, rfl⟩ := Net.newLayerSpec_neuron RAND_MAX rand u topology hj
      intro c hc
      simp only [Neuron.newSpec, List.mem_map] at hc
      obtain ⟨_, _, rfl⟩ := hc
      rfl

/-- C7: on a network of the shape of a non-empty topology `[n0, ..., nk]`, whatever the
result vector held before, `Net.getResults` succeeds and returns exactly `nk` values, the
value at position `j` being the current output value of neuron `j` of the output layer. -/
theorem Net.getResults_values (net : Net R) (topology : List Nat) (resultVals : List R)
    (hs : net.Shaped topology) (ht : topology ≠ []) :
    ∃ results, net.getResults resultVals = .ok results ∧
      results.length = topology.getD (topology.length - 1) 0 ∧
      ∀ j (hj : j < results.length), results[j] = net.outputVal (topology.length - 1) j := by
  refine ⟨_, Net.getResults_eq net topology resultVals hs ht, by simp, ?_⟩
  intro j hj
  simp

/-- C7 at `sampleNet` with a result vector that held `[5, 5]`. -/
theorem Net.getResults_values_witness :
    (sampleNet ℝ).Shaped [2, 2, 1] ∧ [2, 2, 1] ≠ [] ∧
    ∃ results, (sampleNet ℝ).getResults [5, 5] = .ok results ∧
      results.length = [2, 2, 1].getD ([2, 2, 1].length - 1) 0 ∧
      ∀ j (hj : j < results.length),
        results[j] = (sampleNet ℝ).outputVal ([2, 2, 1].length - 1) j :=
  ⟨by decide, by decide, Net.getResults_values (sampleNet ℝ) [2, 2, 1] [5, 5] (by decide) (by decide)⟩

/-- C9: on a network of the shape of a non-empty topology, `Net.feedForward` fails with
the assertion, returning no new network state, when the number of inputs differs from
`topology[0]`, and succeeds when it equals `topology[0]`. -/
theorem Net.feedForward_assertion (tanh : R → R) (net : Net R) (topology : List Nat)
    (inputVals : List R) (hs : net.Shaped topology) (ht : topology ≠ []) :
    (inputVals.length ≠ topology.getD 0 0 →
      net.feedForward tanh inputVals = .error Err.assertionFailed) ∧
    (inputVals.length = topology.getD 0 0 →
      ∃ net', net.feedForward tanh inputVals = .ok net') := by
  constructor
  · intro hne
    have hlen : 0 < net.m_layers.length := by
      rw [hs.1] ; exact List.length_pos.mpr ht
    obtain ⟨l0, hl0⟩ := getElem?_some_of_lt hlen
    have hsz := (hs.2 0 l0 hl0).1
    unfold Net.feedForward
    rw [idx_of_getElem? hl0]
    simp only [bind, Except.bind]
    rw [if_pos (by omega)]
  · intro heq
    exact ⟨_, Net.feedForward_eq tanh net topology inputVals hs ht heq⟩

/-- C9 at `sampleNet` with three inputs, one more than `topology[0]`. -/
theorem Net.feedForward_assertion_witness :
    (sampleNet ℝ).Shaped [2, 2, 1] ∧ [2, 2, 1] ≠ [] ∧
    (([1, 0, 3] : List ℝ).length ≠ [2, 2, 1].getD 0 0 →
      (sampleNet ℝ).feedForward Real.tanh [1, 0, 3] = .error Err.assertionFailed) ∧
    (([1, 0, 3] : List ℝ).length = [2, 2, 1].getD 0 0 →
      ∃ net', (sampleNet ℝ).feedForward Real.tanh [1, 0, 3] = .ok net') :=
  ⟨by decide, by decide,
    Net.feedForward_assertion Real.tanh (sampleNet ℝ) [2, 2, 1] [1, 0, 3] (by decide) (by decide)⟩

/-- C10 fails on the code: on `singleOutputNet` over the reals, whose topology `[1, 1]`
has one output, `Net.backProp` with the two targets `[1.0, 2.0]` reports no contract
violation; it succeeds and overwrites `m_error` (`0` before the call, `0.4` after). -/
theorem Net.backProp_accepts_surplus_targets :
    ([1.0, 2.0] : List ℝ).length ≠ [1, 1].getD ([1, 1].length - 1) 0 ∧
    (singleOutputNet ℝ).Shaped [1, 1] ∧
    ∃ net', (singleOutputNet ℝ).backProp Real.sqrt [1.0, 2.0] = .ok net' ∧
      (singleOutputNet ℝ).m_error = 0 ∧ net'.m_error = 0.4 := by
  have hs : (singleOutputNet ℝ).Shaped [1, 1] := by decide
  refine ⟨by decide, hs, _,
    Net.backPropWith_eq Real.sqrt _ _ (singleOutputNet ℝ) [1, 1] [1.0, 2.0] hs (by decide)
      (by decide), rfl, ?_⟩
  show (singleOutputNet ℝ).newError Real.sqrt [1.0, 2.0] = 0.4
  have hlast : (singleOutputNet ℝ).last = 1 := rfl
  have hsz : (singleOutputNet ℝ).layerSize 1 = 2 := rfl
  have ho : (singleOutputNet ℝ).outputVal 1 0 = 0.6 := rfl
  unfold Net.newError
  rw [hlast, hsz]
  simp only [Nat.add_one_sub_one, Finset.sum_range_one, Nat.cast_one, div_one, ho,
    Real.sqrt_mul_self_eq_abs]
  norm_num [abs_of_pos]

/-- C10 as amended: on a network of the shape of a topology of length at least 2, a target
vector whose length differs from `topology[last]` fails the assertion of `main` before
`Net.backProp` is called, so no network state is produced; `Net.backProp` itself makes no
length check, and with more than `topology[last]` targets it succeeds, with the result it gives
on the first `topology[last]` of them. -/
theorem mainBackProp_rejects_mismatch (sqrt : R → R) (net : Net R) (topology : List Nat)
    (targetVals : List R) (hs : net.Shaped topology) (ht : 2 ≤ topology.length)
    (hne : targetVals.length ≠ topology.getD (topology.length - 1) 0) :
    mainBackProp sqrt topology net targetVals = .error Err.assertionFailed ∧
    (topology.getD (topology.length - 1) 0 < targetVals.length →
      ∃ net', net.backProp sqrt targetVals = .ok net' ∧
        net.backProp sqrt (targetVals.take (topology.getD (topology.length - 1) 0))
          = .ok net') := by
  constructor
  · unfold mainBackProp
    rw [back_eq_idx, idx_eq_getD (by omega)]
    simp only [bind, Except.bind]
    rw [if_pos hne]
  · intro hlt
    refine ⟨_, Net.backPropWith_eq sqrt _ _ net topology targetVals hs ht (by omega), ?_⟩
    unfold Net.backProp
    rw [Net.backPropWith_eq sqrt _ _ net topology _ hs ht
      (by rw [List.length_take] ; omega)]
    congr 1
    apply Net.backPropSpec_congr
    intro j hj
    obtain ⟨_, _, hlasteq⟩ := hs.last_lt ht
    rw [hs.layerSize (by omega), hlasteq] at hj
    have hjlt : j < topology.getD (topology.length - 1) 0 := by omega
    generalize topology.getD (topology.length - 1) 0 = nk at hjlt
    simp only [List.getD_eq_getElem?_getD, List.getElem?_take_of_lt hjlt]

/-- C10 as amended, at `sampleNet` with the two targets `[1, 2]`. -/
theorem mainBackProp_rejects_mismatch_witness :
    (sampleNet ℝ).Shaped [2, 2, 1] ∧ 2 ≤ [2, 2, 1].length ∧
    ([1, 2] : List ℝ).length ≠ [2, 2, 1].getD ([2, 2, 1].length - 1) 0 ∧
    mainBackProp Real.sqrt [2, 2, 1] (sampleNet ℝ) [1, 2] = .error Err.assertionFailed ∧
    ([2, 2, 1].getD ([2, 2, 1].length - 1) 0 < ([1, 2] : List ℝ).length →
      ∃ net', (sampleNet ℝ).backProp Real.sqrt [1, 2] = .ok net' ∧
        (sampleNet ℝ).backProp Real.sqrt
            (([1, 2] : List ℝ).take ([2, 2, 1].getD ([2, 2, 1].length - 1) 0))
          = .ok net') :=
  ⟨by decide, by decide, by decide,
    mainBackProp_rejects_mismatch Real.sqrt (sampleNet ℝ) [2, 2, 1] [1, 2] (by decide) (by decide)
      (by decide)⟩

/-- C11 fails on the code: `rand()` may return `RAND_MAX`, and then `Neuron.randomWeight` is
exactly `1`, which is not below `1`; the network `Net.new` builds for the topology `[1, 1]`
from a stream that returns `RAND_MAX = 32767` has the weight `1` on its first connection. -/
theorem Neuron.randomWeight_reaches_one :
    (32767 : Nat) ≤ 32767 ∧ ¬ ((Neuron.randomWeight 32767 32767 : ℝ) < 1) ∧
    ∃ net : Net ℝ, Net.new 32767 (fun _ => 32767) ⟨fun _ _ => 0, fun _ _ => 0, 0, 0, 100⟩ [1, 1]
      = .ok net ∧ net.weight 0 0 0 = 1 := by
  refine ⟨le_refl _, ?_, _, Net.new_eq _ _ _ _, ?_⟩
  · simp [Neuron.randomWeight]
  · simp [Net.weight, Net.connection?, Net.neuron?, Net.newSpec, Net.newLayerSpec,
      Neuron.newSpec, Neuron.randomWeight, List.range_succ]

/-- C11 as amended: every value `r` with `0 ≤ r ≤ RAND_MAX` that `rand()` can return gives
`0 ≤ Neuron.randomWeight ≤ 1`, below `1` unless `r = RAND_MAX`; hence every connection
weight of a network built by `Net.new` from such a stream lies in the closed interval
`[0, 1]`. -/
theorem Net.new_weights_in_unit_interval {K : Type} [LinearOrderedField K] (RAND_MAX : Nat)
    (rand : Nat → Nat) (u : Uninit K) (topology : List Nat)
    (hrand : ∀ k, rand k ≤ RAND_MAX) :
    (∀ r, r ≤ RAND_MAX →
      0 ≤ (Neuron.randomWeight RAND_MAX r : K) ∧ (Neuron.randomWeight RAND_MAX r : K) ≤ 1 ∧
      (r < RAND_MAX → (Neuron.randomWeight RAND_MAX r : K) < 1)) ∧
    ∃ net, Net.new RAND_MAX rand u topology = .ok net ∧
      ∀ L p j c, net.connection? L p j = some c → 0 ≤ c.weight ∧ c.weight ≤ 1 := by
  constructor
  · intro r hr
    refine ⟨(Neuron.randomWeight_bounds RAND_MAX r hr).1,
      (Neuron.randomWeight_bounds RAND_MAX r hr).2, ?_⟩
    intro hlt
    unfold Neuron.randomWeight
    have hpos : (0 : K) < (RAND_MAX : K) := Nat.cast_pos.mpr (by omega)
    rw [div_lt_one hpos]
    exact Nat.cast_lt.mpr hlt
  · refine ⟨_, Net.new_eq RAND_MAX rand u topology, ?_⟩
    intro L p j c hc
    simp only [Net.connection?, Net.neuron?] at hc
    cases hl : (Net.newSpec RAND_MAX rand u topology).m_layers[L]? with
    | none => simp [hl] at hc
    | some layer =>
      obtain ⟨_, rfl⟩ := Net.newSpec_layer RAND_MAX rand u topology hl
      simp only [hl, Option.some_bind] at hc
      cases hn : (Net.newLayerSpec RAND_MAX rand u topology L)[p]? with
      | none => simp [hn] at hc
      | some neuron =>
        obtain ⟨_, rfl⟩ := Net.newLayerSpec_neuron RAND_MAX rand u topology hn
        simp only [hn, Option.some_bind, Neuron.newSpec, List.getElem?_map] at hc
        rw [Option.map_eq_some'] at hc
        obtain ⟨i, _, rfl⟩ := hc
        exact Neuron.randomWeight_bounds RAND_MAX _ (hrand _)

/-- C11 as amended, for the constant stream `RAND_MAX = 32767` and the topology `[2, 2, 1]`. -/
theorem Net.new_weights_in_unit_interval_witness :
    (∀ k, (fun _ : Nat => 32767) k ≤ 32767) ∧
    (∀ r, r ≤ 32767 →
      0 ≤ (Neuron.randomWeight 32767 r : ℝ) ∧ (Neuron.randomWeight 32767 r : ℝ) ≤ 1 ∧
      (r < 32767 → (Neuron.randomWeight 32767 r : ℝ) < 1)) ∧
    ∃ net : Net ℝ, Net.new 32767 (fun _ => 32767) ⟨fun _ _ => 0, fun _ _ => 0, 0, 0, 100⟩
        [2, 2, 1] = .ok net ∧
      ∀ L p j c, net.connection? L p j = some c → 0 ≤ c.weight ∧ c.weight ≤ 1 :=
  ⟨fun _ => le_refl _,
    Net.new_weights_in_unit_interval 32767 (fun _ => 32767)
      ⟨fun _ _ => 0, fun _ _ => 0, 0, 0, 100⟩ [2, 2, 1] (fun _ => le_refl _)⟩

/-- C16: on a network of the shape of a topology of length at least 2, `Net.backProp` with
`topology[last]` targets succeeds; afterwards `m_error` is the root mean square of
`targetVals[n] - outputVal n` over the output neurons, with the outputs of before the call,
`getRecentAverageError` is `(previous average * smoothing factor + m_error) /
(smoothing factor + 1)`, and the smoothing factor is unchanged. -/
theorem Net.backProp_running_average (sqrt : R → R) (net : Net R) (topology : List Nat)
    (targetVals : List R) (hs : net.Shaped topology) (ht : 2 ≤ topology.length)
    (htl : targetVals.length = topology.getD (topology.length - 1) 0) :
    ∃ net', net.backProp sqrt targetVals = .ok net' ∧
      net'.m_error
        = sqrt ((∑ n in Finset.range (topology.getD (topology.length - 1) 0),
              (targetVals.getD n 0 - net.outputVal (topology.length - 1) n) ^ 2)
            / (topology.getD (topology.length - 1) 0 : R)) ∧
      net'.getRecentAverageError
        = (net.getRecentAverageError * net.m_recentAverageSmoothingFactor + net'.m_error)
            / (net.m_recentAverageSmoothingFactor + 1) ∧
      net'.m_recentAverageSmoothingFactor = net.m_recentAverageSmoothingFactor := by
  obtain ⟨_, _, hlasteq⟩ := hs.last_lt ht
  refine ⟨_, Net.backPropWith_eq sqrt _ _ net topology targetVals hs ht (by omega), ?_, ?_,
    rfl⟩
  · show net.newError sqrt targetVals = _
    unfold Net.newError
    rw [hs.layerSize (by omega), hlasteq, Nat.add_sub_cancel]
    simp only [pow_two]
  · show (net.m_recentAverageError * net.m_recentAverageSmoothingFactor
        + net.newError sqrt targetVals) / (net.m_recentAverageSmoothingFactor + 1.0) = _
    rw [one_lit]
    rfl

/-- C16 at `sampleNet` with target `[1]`. -/
theorem Net.backProp_running_average_witness :
    (sampleNet ℝ).Shaped [2, 2, 1] ∧ 2 ≤ [2, 2, 1].length ∧
    ([1] : List ℝ).length = [2, 2, 1].getD ([2, 2, 1].length - 1) 0 ∧
    ∃ net', (sampleNet ℝ).backProp Real.sqrt [1] = .ok net' ∧
      net'.m_error
        = Real.sqrt ((∑ n in Finset.range ([2, 2, 1].getD ([2, 2, 1].length - 1) 0),
              (([1] : List ℝ).getD n 0 - (sampleNet ℝ).outputVal ([2, 2, 1].length - 1) n) ^ 2)
            / (([2, 2, 1].getD ([2, 2, 1].length - 1) 0 : Nat) : ℝ)) ∧
      net'.getRecentAverageError
        = ((sampleNet ℝ).getRecentAverageError * (sampleNet ℝ).m_recentAverageSmoothingFactor
              + net'.m_error)
            / ((sampleNet ℝ).m_recentAverageSmoothingFactor + 1) ∧
      net'.m_recentAverageSmoothingFactor = (sampleNet ℝ).m_recentAverageSmoothingFactor :=
  ⟨by decide, by decide, by decide,
    Net.backProp_running_average Real.sqrt (sampleNet ℝ) [2, 2, 1] [1] (by decide) (by decide)
      (by decide)⟩

/-- C19: on a network of the shape of a topology of length at least 2, `Net.feedForward`
with `topology[0]` inputs succeeds and changes nothing but output values of non-bias neurons:
the error fields and the number of layers are unchanged, every neuron keeps its index, its
gradient and its vector of connections (so every weight, every `deltaWeight` and the number
of connections), a position holds a neuron afterwards exactly when it did before (so every
layer keeps its size), and the last neuron of every layer keeps its output value. -/
theorem Net.feedForward_frame (tanh : R → R) (net : Net R) (topology : List Nat)
    (inputVals : List R) (hs : net.Shaped topology) (ht : 2 ≤ topology.length)
    (hin : inputVals.length = topology.getD 0 0) :
    ∃ net', net.feedForward tanh inputVals = .ok net' ∧
      net'.m_error = net.m_error ∧
      net'.m_recentAverageError = net.m_recentAverageError ∧
      net'.m_recentAverageSmoothingFactor = net.m_recentAverageSmoothingFactor ∧
      net'.m_layers.length = net.m_layers.length ∧
      (∀ L, net'.layerSize L = net.layerSize L) ∧
      (∀ L j, (net'.neuron? L j).map (fun n => (n.m_myIndex, n.m_gradient, n.m_outputWeights))
        = (net.neuron? L j).map (fun n => (n.m_myIndex, n.m_gradient, n.m_outputWeights))) ∧
      (∀ L p j, net'.weight L p j = net.weight L p j ∧
        net'.deltaWeight L p j = net.deltaWeight L p j) ∧
      (∀ L, L < topology.length →
        net'.outputVal L (topology.getD L 0) = net.outputVal L (topology.getD L 0)) := by
  have hne : topology ≠ [] := by
    intro h ; simp [h] at ht
  refine ⟨_, Net.feedForward_eq tanh net topology inputVals hs hne hin, rfl, rfl, rfl,
    by simp [Net.feedForwardSpec], ?_, ?_, ?_, ?_⟩
  · intro L
    simp only [Net.layerSize, Net.feedForwardSpec, List.getElem?_mapIdx]
    cases net.m_layers[L]? with
    | none => rfl
    | some layer => simp [Net.forwardLayer]
  · intro L j
    rw [Net.feedForwardSpec_neuron?]
    cases net.neuron? L j with
    | none => rfl
    | some neuron => rfl
  · intro L p j
    simp only [Net.weight, Net.deltaWeight, Net.feedForwardSpec_connection?, and_self]
  · intro L hL
    obtain ⟨layer, hl⟩ := getElem?_some_of_lt (by rw [hs.1] ; exact hL : L < net.m_layers.length)
    have hsz := (hs.2 L layer hl).1
    rw [Net.feedForwardSpec_outputVal tanh net inputVals hl (by omega)]
    cases L with
    | zero =>
      have : ¬ topology.getD 0 0 < inputVals.length := by omega
      simp only [Net.activation, this, if_false]
    | succ K =>
      have : ¬ topology.getD (K + 1) 0 + 1 < net.layerSize (K + 1) := by
        rw [Net.layerSize_eq hl] ; omega
      simp only [Net.activation, this, if_false]

/-- C19 at `sampleNet` with inputs `[1, 0]`. -/
theorem Net.feedForward_frame_witness :
    (sampleNet ℝ).Shaped [2, 2, 1] ∧ 2 ≤ [2, 2, 1].length ∧
    ([1, 0] : List ℝ).length = [2, 2, 1].getD 0 0 ∧
    ∃ net', (sampleNet ℝ).feedForward Real.tanh [1, 0] = .ok net' ∧
      net'.m_error = (sampleNet ℝ).m_error ∧
      net'.m_recentAverageError = (sampleNet ℝ).m_recentAverageError ∧
      net'.m_recentAverageSmoothingFactor = (sampleNet ℝ).m_recentAverageSmoothingFactor ∧
      net'.m_layers.length = (sampleNet ℝ).m_layers.length ∧
      (∀ L, net'.layerSize L = (sampleNet ℝ).layerSize L) ∧
      (∀ L j, (net'.neuron? L j).map (fun n => (n.m_myIndex, n.m_gradient, n.m_outputWeights))
        = ((sampleNet ℝ).neuron? L j).map
            (fun n => (n.m_myIndex, n.m_gradient, n.m_outputWeights))) ∧
      (∀ L p j, net'.weight L p j = (sampleNet ℝ).weight L p j ∧
        net'.deltaWeight L p j = (sampleNet ℝ).deltaWeight L p j) ∧
      (∀ L, L < [2, 2, 1].length →
        net'.outputVal L ([2, 2, 1].getD L 0) = (sampleNet ℝ).outputVal L ([2, 2, 1].getD L 0)) :=
  ⟨by decide, by decide, by decide,
    Net.feedForward_frame Real.tanh (sampleNet ℝ) [2, 2, 1] [1, 0] (by decide) (by decide)
      (by decide)⟩

/-- C13: let two networks have the shape of one topology of length at least 2, the same
connection weights and bias outputs `1.0`, whatever output values their other neurons and
whatever gradients they hold.  With the same `topology[0]` inputs, `Net.feedForward` succeeds
on both, leaves the same output value in every neuron, and `Net.getResults` then returns the
same vector for both; a second `Net.feedForward` with the same inputs returns the network
state the first one produced. -/
theorem Net.feedForward_deterministic (tanh : R → R) (net₁ net₂ : Net R)
    (topology : List Nat) (inputVals resultVals₁ resultVals₂ : List R)
    (hs₁ : net₁.Shaped topology) (hs₂ : net₂.Shaped topology) (ht : 2 ≤ topology.length)
    (hin : inputVals.length = topology.getD 0 0) (hb₁ : net₁.BiasOne) (hb₂ : net₂.BiasOne)
    (hw : ∀ L p j, net₁.weight L p j = net₂.weight L p j) :
    ∃ fed₁ fed₂ results, net₁.feedForward tanh inputVals = .ok fed₁ ∧
      net₂.feedForward tanh inputVals = .ok fed₂ ∧
      (∀ L j, fed₁.outputVal L j = fed₂.outputVal L j) ∧
      fed₁.getResults resultVals₁ = .ok results ∧
      fed₂.getResults resultVals₂ = .ok results ∧
      fed₁.feedForward tanh inputVals = .ok fed₁ := by
  have hne : topology ≠ [] := by
    intro h ; simp [h] at ht
  have hfs₁ := Net.feedForwardSpec_shaped tanh net₁ inputVals topology hs₁
  have hfs₂ := Net.feedForwardSpec_shaped tanh net₂ inputVals topology hs₂
  have hin₁ : inputVals.length + 1 = net₁.layerSize 0 := by
    rw [hs₁.layerSize (by omega), hin]
  have hact : ∀ L j, net₁.activation tanh inputVals L j
      = net₂.activation tanh inputVals L j :=
    Net.activation_congr tanh net₁ net₂ inputVals (hs₁.layerSize_congr hs₂) hw
      (hb₁.outputVal_congr hb₂ hs₁ hs₂) hin₁
  have hout : ∀ L j, (net₁.feedForwardSpec tanh inputVals).outputVal L j
      = (net₂.feedForwardSpec tanh inputVals).outputVal L j := by
    intro L j
    by_cases hj : j < net₁.layerSize L
    · rw [Net.feedForwardSpec_outputVal_of_lt tanh net₁ inputVals hj,
        Net.feedForwardSpec_outputVal_of_lt tanh net₂ inputVals
          (by rw [← hs₁.layerSize_congr hs₂] ; exact hj), hact]
    · rw [Net.outputVal_eq_zero _ (by rw [Net.feedForwardSpec_layerSize] ; exact hj),
        Net.outputVal_eq_zero _ (by
          rw [Net.feedForwardSpec_layerSize, ← hs₁.layerSize_congr hs₂] ; exact hj)]
  refine ⟨_, _, _, Net.feedForward_eq tanh net₁ topology inputVals hs₁ hne hin,
    Net.feedForward_eq tanh net₂ topology inputVals hs₂ hne hin, hout,
    Net.getResults_eq _ topology resultVals₁ hfs₁ hne, ?_, ?_⟩
  · rw [Net.getResults_eq _ topology resultVals₂ hfs₂ hne]
    congr 1
    apply List.map_congr_left
    intro j _
    exact (hout _ j).symm
  · rw [Net.feedForward_eq tanh _ topology inputVals hfs₁ hne hin,
      Net.feedForwardSpec_idem tanh net₁ inputVals hin₁]

/-- C13 at `sampleNet` and the network a forward pass with inputs `[0, 1]` makes of it
(same weights, other output values), with inputs `[1, 0]` and different previous contents of
the result vectors. -/
theorem Net.feedForward_deterministic_witness :
    (sampleNet ℝ).Shaped [2, 2, 1] ∧
    ((sampleNet ℝ).feedForwardSpec Real.tanh [0, 1]).Shaped [2, 2, 1] ∧
    2 ≤ [2, 2, 1].length ∧ ([1, 0] : List ℝ).length = [2, 2, 1].getD 0 0 ∧
    (sampleNet ℝ).BiasOne ∧ ((sampleNet ℝ).feedForwardSpec Real.tanh [0, 1]).BiasOne ∧
    (∀ L p j, (sampleNet ℝ).weight L p j
      = ((sampleNet ℝ).feedForwardSpec Real.tanh [0, 1]).weight L p j) ∧
    ∃ fed₁ fed₂ results, (sampleNet ℝ).feedForward Real.tanh [1, 0] = .ok fed₁ ∧
      ((sampleNet ℝ).feedForwardSpec Real.tanh [0, 1]).feedForward Real.tanh [1, 0]
        = .ok fed₂ ∧
      (∀ L j, fed₁.outputVal L j = fed₂.outputVal L j) ∧
      fed₁.getResults [] = .ok results ∧
      fed₂.getResults [5] = .ok results ∧
      fed₁.feedForward Real.tanh [1, 0] = .ok fed₁ := by
  have hs : (sampleNet ℝ).Shaped [2, 2, 1] := by decide
  have hb : (sampleNet ℝ).BiasOne := by
    intro layer hmem
    simp only [sampleNet, List.mem_cons, List.mem_singleton, List.not_mem_nil, or_false] at hmem
    rcases hmem with rfl | rfl | rfl <;> exact ⟨_, rfl, by norm_num⟩
  have hs₂ := Net.feedForwardSpec_shaped Real.tanh (sampleNet ℝ) [0, 1] [2, 2, 1] hs
  have hb₂ := Net.feedForwardSpec_biasOne Real.tanh (sampleNet ℝ) [2, 2, 1] [0, 1] hs
    (by decide) hb
  have hw : ∀ L p j, (sampleNet ℝ).weight L p j
      = ((sampleNet ℝ).feedForwardSpec Real.tanh [0, 1]).weight L p j :=
    fun L p j => (Net.feedForwardSpec_weight Real.tanh (sampleNet ℝ) [0, 1] L p j).symm
  exact ⟨hs, hs₂, by decide, by decide, hb, hb₂, hw,
    Net.feedForward_deterministic Real.tanh (sampleNet ℝ) _ [2, 2, 1] [1, 0] [] [5]
      hs hs₂ (by decide) (by decide) hb hb₂ hw⟩

/-- C18: for a topology of length at least 2 with positive entries, `Net.new` succeeds and
every sequence of valid calls on the network it builds runs to completion without an
out-of-bounds index or a failed assertion; on the network reached, `Net.feedForward` with
`topology[0]` inputs, `Net.backProp` with `topology[last]` targets and `Net.getResults` all
succeed, every neuron of a layer before the last owns a connection for every non-bias neuron
of the next layer, and the number of outputs `Net.backProp` divides by, the size of the
last layer minus one, is `topology[last]` and not zero. -/
theorem Net.valid_calls_in_bounds (tanh sqrt : R → R) (RAND_MAX : Nat) (rand : Nat → Nat)
    (u : Uninit R) (topology : List Nat) (calls : List (Call R))
    (ht : 2 ≤ topology.length) (hpos : ∀ t ∈ topology, 0 < t)
    (hv : ∀ c ∈ calls, c.Valid topology) :
    ∃ net net', Net.new RAND_MAX rand u topology = .ok net ∧
      net.run tanh sqrt calls = .ok net' ∧
      (∀ inputVals : List R, inputVals.length = topology.getD 0 0 →
        ∃ fed, net'.feedForward tanh inputVals = .ok fed) ∧
      (∀ targetVals : List R, targetVals.length = topology.getD (topology.length - 1) 0 →
        ∃ trained, net'.backProp sqrt targetVals = .ok trained) ∧
      (∀ resultVals : List R, ∃ results, net'.getResults resultVals = .ok results) ∧
      (∀ L p j, L + 1 < topology.length → p ≤ topology.getD L 0 →
        j < topology.getD (L + 1) 0 → ∃ c, net'.connection? L p j = some c) ∧
      ∃ outputLayer numOutputs, back net'.m_layers = .ok outputLayer ∧
        sizeMinusOne outputLayer = .ok numOutputs ∧
        numOutputs = topology.getD (topology.length - 1) 0 ∧ numOutputs ≠ 0 := by
  have hne : topology ≠ [] := by
    intro h ; simp [h] at ht
  have hinv := Net.run_invariant tanh sqrt topology calls
    (Net.newSpec RAND_MAX rand u topology) (Net.newSpec_shaped RAND_MAX rand u topology)
    (Net.newSpec_biasOne RAND_MAX rand u topology) hv
  obtain ⟨net', hrun⟩ := hinv.2 ht
  obtain ⟨hs, _⟩ := hinv.1 net' hrun
  obtain ⟨ol, hol⟩ := getElem?_some_of_lt
    (by rw [hs.1] ; omega : topology.length - 1 < net'.m_layers.length)
  have hsz := (hs.2 _ _ hol).1
  have hlast : 0 < topology.getD (topology.length - 1) 0 := by
    apply hpos
    rw [List.getD_eq_getElem _ _ (by omega : topology.length - 1 < topology.length)]
    exact List.getElem_mem _
  refine ⟨_, net', Net.new_eq RAND_MAX rand u topology, hrun, ?_, ?_, ?_, ?_, ol,
    topology.getD (topology.length - 1) 0, ?_, ?_, rfl, by omega⟩
  · intro inputVals hin
    exact ⟨_, Net.feedForward_eq tanh net' topology inputVals hs hne hin⟩
  · intro targetVals htl
    exact ⟨_, Net.backPropWith_eq sqrt _ _ net' topology targetVals hs ht (by omega)⟩
  · intro resultVals
    exact ⟨_, Net.getResults_eq net' topology resultVals hs hne⟩
  · intro L p j hL hp hj
    exact hs.connection hL hp hj
  · rw [back_eq_idx, hs.1]
    exact idx_of_getElem? hol
  · rw [sizeMinusOne_of_pos (by omega), hsz, Nat.add_sub_cancel]

/-- C18 for the topology `[2, 2, 1]` and two training passes. -/
theorem Net.valid_calls_in_bounds_witness :
    2 ≤ [2, 2, 1].length ∧ (∀ t ∈ [2, 2, 1], 0 < t) ∧
    (∀ c ∈ [Call.feedForward [1, 0], Call.backProp [1], Call.feedForward [0, 1],
        Call.backProp ([1] : List ℝ)], c.Valid [2, 2, 1]) ∧
    ∃ net net', Net.new 32767 (fun k => k % 32768) ⟨fun _ _ => 0, fun _ _ => 0, 0, 0, 100⟩
        [2, 2, 1] = .ok net ∧
      net.run Real.tanh Real.sqrt [Call.feedForward [1, 0], Call.backProp [1],
        Call.feedForward [0, 1], Call.backProp ([1] : List ℝ)] = .ok net' ∧
      (∀ inputVals : List ℝ, inputVals.length = [2, 2, 1].getD 0 0 →
        ∃ fed, net'.feedForward Real.tanh inputVals = .ok fed) ∧
      (∀ targetVals : List ℝ, targetVals.length = [2, 2, 1].getD ([2, 2, 1].length - 1) 0 →
        ∃ trained, net'.backProp Real.sqrt targetVals = .ok trained) ∧
      (∀ resultVals : List ℝ, ∃ results, net'.getResults resultVals = .ok results) ∧
      (∀ L p j, L + 1 < [2, 2, 1].length → p ≤ [2, 2, 1].getD L 0 →
        j < [2, 2, 1].getD (L + 1) 0 → ∃ c, net'.connection? L p j = some c) ∧
      ∃ outputLayer numOutputs, back net'.m_layers = .ok outputLayer ∧
        sizeMinusOne outputLayer = .ok numOutputs ∧
        numOutputs = [2, 2, 1].getD ([2, 2, 1].length - 1) 0 ∧ numOutputs ≠ 0 :=
  ⟨by decide, by decide, by decide,
    Net.valid_calls_in_bounds Real.tanh Real.sqrt 32767 (fun k => k % 32768)
      ⟨fun _ _ => 0, fun _ _ => 0, 0, 0, 100⟩ [2, 2, 1] _ (by decide) (by decide) (by decide)⟩

/-- C20: let two networks have the shape of one topology of length at least 2 and agree on
every output value, weight and `deltaWeight`, on the running average and on the smoothing
factor, whatever gradients they store.  `Net.backProp` with the same `topology[last]`
targets succeeds on both and leaves the same weights and `deltaWeight`s, the same `m_error`
and the same running average error. -/
theorem Net.backProp_ignores_stored_gradients (sqrt : R → R) (net₁ net₂ : Net R)
    (topology : List Nat) (targetVals : List R)
    (hs₁ : net₁.Shaped topology) (hs₂ : net₂.Shaped topology) (ht : 2 ≤ topology.length)
    (htl : targetVals.length = topology.getD (topology.length - 1) 0)
    (hout : ∀ L j, net₁.outputVal L j = net₂.outputVal L j)
    (hw : ∀ L p j, net₁.weight L p j = net₂.weight L p j)
    (hd : ∀ L p j, net₁.deltaWeight L p j = net₂.deltaWeight L p j)
    (havg : net₁.m_recentAverageError = net₂.m_recentAverageError)
    (hsm : net₁.m_recentAverageSmoothingFactor = net₂.m_recentAverageSmoothingFactor) :
    ∃ trained₁ trained₂, net₁.backProp sqrt targetVals = .ok trained₁ ∧
      net₂.backProp sqrt targetVals = .ok trained₂ ∧
      (∀ L p j, trained₁.weight L p j = trained₂.weight L p j ∧
        trained₁.deltaWeight L p j = trained₂.deltaWeight L p j) ∧
      trained₁.m_error = trained₂.m_error ∧
      trained₁.m_recentAverageError = trained₂.m_recentAverageError := by
  obtain ⟨_, _, hlast₁⟩ := hs₁.last_lt ht
  obtain ⟨_, _, hlast₂⟩ := hs₂.last_lt ht
  have hlast : net₁.last = net₂.last := by rw [hlast₁, hlast₂]
  have hsize := hs₁.layerSize_congr hs₂
  have herr : net₁.newError sqrt targetVals = net₂.newError sqrt targetVals := by
    simp only [Net.newError, hlast, hsize, hout]
  refine ⟨_, _, Net.backPropWith_eq sqrt _ _ net₁ topology targetVals hs₁ ht (by omega),
    Net.backPropWith_eq sqrt _ _ net₂ topology targetVals hs₂ ht (by omega), ?_, herr, ?_⟩
  · intro L p j
    by_cases hc : p + 1 < net₁.layerSize L ∧ j + 1 < net₁.layerSize (L + 1)
    · have hc₂ : p + 1 < net₂.layerSize L ∧ j + 1 < net₂.layerSize (L + 1) := by
        rw [← hsize, ← hsize] ; exact hc
      have hL : L + 1 < topology.length := by
        by_contra hn
        have := Net.layerSize_of_le net₁ (by rw [hs₁.1] ; omega : net₁.m_layers.length ≤ L + 1)
        omega
      have hp : p ≤ topology.getD L 0 := by
        have := hs₁.layerSize (by omega : L < topology.length)
        omega
      have hj : j < topology.getD (L + 1) 0 := by
        have := hs₁.layerSize hL
        omega
      obtain ⟨c₁, hc₁⟩ := hs₁.connection hL hp hj
      obtain ⟨c₂, hc₂'⟩ := hs₂.connection hL hp hj
      have hg := Net.newGradient_indep net₁ net₂ targetVals hlast hsize hout hw
        (by omega : 0 < L + 1) (by omega) hc.2
      have h₁ := Net.backPropSpec_updated sqrt Neuron.eta Neuron.alpha net₁ targetVals hc₁
        hc.1 hc.2
      have h₂ := Net.backPropSpec_updated sqrt Neuron.eta Neuron.alpha net₂ targetVals hc₂'
        hc₂.1 hc₂.2
      rw [h₁.1, h₁.2, h₂.1, h₂.2, hout, hg, hd, hw]
      exact ⟨rfl, rfl⟩
    · have hc₂ : ¬ (p + 1 < net₂.layerSize L ∧ j + 1 < net₂.layerSize (L + 1)) := by
        rw [← hsize, ← hsize] ; exact hc
      have h₁ := Net.backPropSpec_untouched sqrt Neuron.eta Neuron.alpha net₁ targetVals hc
      have h₂ := Net.backPropSpec_untouched sqrt Neuron.eta Neuron.alpha net₂ targetVals hc₂
      have hw' := hw L p j
      have hd' := hd L p j
      simp only [Net.weight, Net.deltaWeight] at hw' hd' ⊢
      rw [h₁, h₂]
      exact ⟨hw', hd'⟩
  · show (net₁.m_recentAverageError * net₁.m_recentAverageSmoothingFactor
        + net₁.newError sqrt targetVals) / (net₁.m_recentAverageSmoothingFactor + 1.0)
      = (net₂.m_recentAverageError * net₂.m_recentAverageSmoothingFactor
        + net₂.newError sqrt targetVals) / (net₂.m_recentAverageSmoothingFactor + 1.0)
    rw [havg, hsm, herr]

/-- C20 at `sampleNet` and `sampleNet` with every stored gradient replaced by `5`. -/
theorem Net.backProp_ignores_stored_gradients_witness :
    (sampleNet ℝ).Shaped [2, 2, 1] ∧ ((sampleNet ℝ).setGradients 5).Shaped [2, 2, 1] ∧
    2 ≤ [2, 2, 1].length ∧ ([1] : List ℝ).length = [2, 2, 1].getD ([2, 2, 1].length - 1) 0 ∧
    (∀ L j, (sampleNet ℝ).outputVal L j = ((sampleNet ℝ).setGradients 5).outputVal L j) ∧
    (∀ L p j, (sampleNet ℝ).weight L p j = ((sampleNet ℝ).setGradients 5).weight L p j) ∧
    (∀ L p j, (sampleNet ℝ).deltaWeight L p j
      = ((sampleNet ℝ).setGradients 5).deltaWeight L p j) ∧
    (sampleNet ℝ).gradient 1 0 ≠ ((sampleNet ℝ).setGradients 5).gradient 1 0 ∧
    ∃ trained₁ trained₂, (sampleNet ℝ).backProp Real.sqrt [1] = .ok trained₁ ∧
      ((sampleNet ℝ).setGradients 5).backProp Real.sqrt [1] = .ok trained₂ ∧
      (∀ L p j, trained₁.weight L p j = trained₂.weight L p j ∧
        trained₁.deltaWeight L p j = trained₂.deltaWeight L p j) ∧
      trained₁.m_error = trained₂.m_error ∧
      trained₁.m_recentAverageError = trained₂.m_recentAverageError := by
  have hs : (sampleNet ℝ).Shaped [2, 2, 1] := by decide
  have hs₂ := Net.setGradients_shaped (sampleNet ℝ) 5 [2, 2, 1] hs
  have hout : ∀ L j, (sampleNet ℝ).outputVal L j
      = ((sampleNet ℝ).setGradients 5).outputVal L j :=
    fun L j => (Net.setGradients_outputVal (sampleNet ℝ) 5 L j).symm
  have hw : ∀ L p j, (sampleNet ℝ).weight L p j
      = ((sampleNet ℝ).setGradients 5).weight L p j := by
    intro L p j
    simp only [Net.weight, Net.setGradients_connection?]
  have hd : ∀ L p j, (sampleNet ℝ).deltaWeight L p j
      = ((sampleNet ℝ).setGradients 5).deltaWeight L p j := by
    intro L p j
    simp only [Net.deltaWeight, Net.setGradients_connection?]
  have hg : (sampleNet ℝ).gradient 1 0 ≠ ((sampleNet ℝ).setGradients 5).gradient 1 0 := by
    rw [Net.gradient, Net.gradient, Net.setGradients_neuron?]
    simp [Net.neuron?, sampleNet]
  exact ⟨hs, hs₂, by decide, by decide, hout, hw, hd, hg,
    Net.backProp_ignores_stored_gradients Real.sqrt (sampleNet ℝ) _ [2, 2, 1] [1] hs hs₂
      (by decide) (by decide) hout hw hd rfl rfl⟩

/-- C15: take any network of the shape of the topology, with any gradients stored in its
neurons, and any order in which each of the layers `last, ..., 1` is visited once.  The
weight-update loop of `Net::backProp`, which visits the layers from the output layer down
to the first hidden layer, and the same per-layer update applied in the other order both
succeed and give the same vector of layers, hence the same weights and deltaWeights. -/
theorem Net.update_order_irrelevant (eta alpha : R) (net : Net R) (topology : List Nat)
    (order : List Nat) (hs : net.Shaped topology)
    (hperm : order.Perm (List.iota (net.m_layers.length - 1))) :
    ∃ updated,
      forDown (Net.updateLayerWeights eta alpha) (net.m_layers.length - 1) net.m_layers
        = .ok updated ∧
      Net.updateWeightsInOrder eta alpha order net.m_layers = .ok updated := by
  have hiota : ∀ L ∈ List.iota (net.m_layers.length - 1),
      0 < L ∧ L < net.m_layers.length ∧ L ∉ ([] : List Nat) := by
    intro L hL
    have := List.mem_iota.mp hL
    exact ⟨this.1, by omega, List.not_mem_nil _⟩
  have hdown := Net.updateWeightsInOrder_eq eta alpha net topology hs
    (List.iota (net.m_layers.length - 1)) [] (List.nodup_iota _) hiota
  have hord := Net.updateWeightsInOrder_eq eta alpha net topology hs order []
    (hperm.nodup_iff.mpr (List.nodup_iota _)) (fun L hL => hiota L (hperm.mem_iff.mp hL))
  rw [Net.updatedLayers_nil] at hdown hord
  refine ⟨_, ?_, hord⟩
  rw [forDown_eq_foldlM]
  rw [Net.updateWeightsInOrder] at hdown
  rw [hdown]
  congr 1
  apply Net.updatedLayers_congr
  intro L
  simp only [List.append_nil]
  exact hperm.mem_iff.symm

/-- C15 at `sampleNet` with gradients `5`, visiting layer 1 before layer 2. -/
theorem Net.update_order_irrelevant_witness :
    ((sampleNet ℝ).setGradients 5).Shaped [2, 2, 1] ∧
    [1, 2].Perm (List.iota (((sampleNet ℝ).setGradients 5).m_layers.length - 1)) ∧
    ∃ updated,
      forDown (Net.updateLayerWeights (0.15 : ℝ) 0.5)
          (((sampleNet ℝ).setGradients 5).m_layers.length - 1)
          ((sampleNet ℝ).setGradients 5).m_layers = .ok updated ∧
      Net.updateWeightsInOrder (0.15 : ℝ) 0.5 [1, 2] ((sampleNet ℝ).setGradients 5).m_layers
        = .ok updated := by
  have hs := Net.setGradients_shaped (sampleNet ℝ) 5 [2, 2, 1] (by decide)
  have hperm : [1, 2].Perm
      (List.iota (((sampleNet ℝ).setGradients 5).m_layers.length - 1)) := by
    simp only [Net.setGradients, sampleNet, List.length_map, List.length_cons,
      List.length_nil]
    decide
  exact ⟨hs, hperm, Net.update_order_irrelevant 0.15 0.5 _ [2, 2, 1] [1, 2] hs hperm⟩

/-- C12 fails on the code: on the network of topology `[1, 1]` with both weights `0.5`
and bias output `1.0`, a forward pass with the input `1000` computes the sum
`1000 * 0.5 + 1.0 * 0.5 = 500.5`, whose `tanh` is the `double` `1.0`; the output neuron
then holds exactly `1.0`, which is not inside the open interval. -/
theorem Net.feedForward_output_reaches_one :
    ∃ net' x, ((singleOutputNet ℝ).map Double.finite).feedForward (Double.tanh Real.tanh)
        [.finite 1000] = .ok net' ∧
      net'.neuron? 1 0 = some x ∧ x.m_outputVal = .finite 1 := by
  have e1 : (0.0 : Double ℝ) + .finite 1000 * .finite 0.5 + .finite 1 * .finite 0.5
      = .finite 500.5 := by
    norm_num [Double.add_def, Double.mul_def, Double.ofScientific_def, Double.add, Double.mul,
      Double.round, Double.overflowBound, Double.underflowBound]
  have e2 : Double.tanh Real.tanh (.finite 500.5) = .finite 1 := by
    norm_num [Double.tanh]
  simp [Net.feedForward, Net.map, singleOutputNet, forUp, modifyAt, idx, sizeMinusOne,
    Neuron.feedForward, Neuron.setOutputVal, Neuron.getOutputVal, Neuron.transferFunction,
    Net.neuron?, bind, Except.bind, pure, Except.pure, e1, e2]

/-- C12 as amended: let the function used for `tanh` between `-22` and `22` take its values
between `-1` and `1`, both included.  On a network over `double` of the shape of a topology
of length at least 2, whatever its weights, after `Net.feedForward` with `topology[0]`
inputs the output value of every non-bias neuron of every layer beyond the input layer is
NaN or lies between `-1` and `1`, both included, and so does every value `Net.getResults`
then returns. -/
theorem Net.feedForward_outputs_in_closed_interval {K : Type} [LinearOrderedField K]
    (t : K → K) (ht : ∀ x, -1 ≤ t x ∧ t x ≤ 1) (net : Net (Double K))
    (topology : List Nat) (inputVals resultVals : List (Double K))
    (hs : net.Shaped topology) (htop : 2 ≤ topology.length)
    (hin : inputVals.length = topology.getD 0 0) :
    ∃ net', net.feedForward (Double.tanh t) inputVals = .ok net' ∧
      (∀ L j, 1 ≤ L → L < topology.length → j < topology.getD L 0 →
        ∃ x, net'.neuron? L j = some x ∧
          (x.m_outputVal = .nan ∨ ∃ y, x.m_outputVal = .finite y ∧ -1 ≤ y ∧ y ≤ 1)) ∧
      ∃ results, net'.getResults resultVals = .ok results ∧
        results.length = topology.getD (topology.length - 1) 0 ∧
        ∀ v ∈ results, v = .nan ∨ ∃ y, v = .finite y ∧ -1 ≤ y ∧ y ≤ 1 := by
  have hne : topology ≠ [] := by
    intro h
    rw [h] at htop
    simp at htop
  obtain ⟨net', hok, hinv, hrange, _⟩ := Net.feedForward_shapedWith (Double.tanh t) net
    topology inputVals (fun _ _ _ => True) ⟨hs, fun _ _ _ _ => trivial⟩ hne hin
    (fun _ _ _ _ _ => trivial)
  have hval : ∀ L j x, 1 ≤ L → j < topology.getD L 0 → net'.neuron? L j = some x →
      (x.m_outputVal = .nan ∨ ∃ y, x.m_outputVal = .finite y ∧ -1 ≤ y ∧ y ≤ 1) := by
    intro L j x hL hj hx
    obtain ⟨s, hsx⟩ := hrange L j x hL hj hx
    rw [hsx]
    exact Double.tanh_range t ht s
  refine ⟨net', hok, ?_, ?_⟩
  · intro L j hL hLt hj
    obtain ⟨_, x, _, _, hx⟩ := hinv.1.neuron hLt (by omega : j ≤ topology.getD L 0)
    exact ⟨x, hx, hval L j x hL hj hx⟩
  · obtain ⟨results, hres, hlen, hmem⟩ := Net.getResults_ok net' topology resultVals hinv.1 hne
    refine ⟨results, hres, hlen, ?_⟩
    intro v hv
    obtain ⟨j, x, hj, hx, hvx⟩ := hmem v hv
    rw [hvx]
    exact hval _ j x (by omega) hj hx

/-- C12 as amended, at `sampleNet` over `double` with the real hyperbolic tangent and inputs
`[1, 0]`. -/
theorem Net.feedForward_outputs_in_closed_interval_witness :
    (∀ x, -1 ≤ Real.tanh x ∧ Real.tanh x ≤ 1) ∧
    ((sampleNet ℝ).map Double.finite).Shaped [2, 2, 1] ∧ 2 ≤ [2, 2, 1].length ∧
    ([.finite 1, .finite 0] : List (Double ℝ)).length = [2, 2, 1].getD 0 0 ∧
    ∃ net', ((sampleNet ℝ).map Double.finite).feedForward (Double.tanh Real.tanh)
        [.finite 1, .finite 0] = .ok net' ∧
      (∀ L j, 1 ≤ L → L < [2, 2, 1].length → j < [2, 2, 1].getD L 0 →
        ∃ x, net'.neuron? L j = some x ∧
          (x.m_outputVal = .nan ∨ ∃ y, x.m_outputVal = .finite y ∧ -1 ≤ y ∧ y ≤ 1)) ∧
      ∃ results, net'.getResults [] = .ok results ∧
        results.length = [2, 2, 1].getD ([2, 2, 1].length - 1) 0 ∧
        ∀ v ∈ results, v = .nan ∨ ∃ y, v = .finite y ∧ -1 ≤ y ∧ y ≤ 1 :=
  ⟨fun x => ⟨(neg_one_lt_tanh x).le, (tanh_lt_one x).le⟩, by decide, by decide, by decide,
    Net.feedForward_outputs_in_closed_interval Real.tanh
      (fun x => ⟨(neg_one_lt_tanh x).le, (tanh_lt_one x).le⟩) _ [2, 2, 1]
      [.finite 1, .finite 0] [] (by decide) (by decide) (by decide)⟩

end Claims

end NeuralNet
